import Mathlib

/-!
# A verification development for `skiplist.h`

The C++ skip list is embedded as pure functions over an explicit heap.

* A pointer is an address `Nat`; `Option Nat` is a possibly-null pointer
  (`none` is `nullptr`).
* The heap is a list of cells; cell `a` is `some n` while the node at address
  `a` is alive and `none` once it has been released by `delete`.  `new` always
  returns the next unused address (the length of the heap).
* Every operation returns an `Option`: `none` stands for undefined behaviour
  of the C++ program (null or dangling dereference, out-of-bounds index, read
  of an unassigned `update` slot) or for a `while` loop that never exits.
* `int` fields are unbounded integers; `SkipListLevel` and the loop counters
  are never negative in the source and are natural numbers here.
* `rand()` is a stream of naturals threaded through the operations.
* Text written to `std::cout` is returned as a list of messages.
-/

namespace SkipListSpec

/-! ## Data model -/

/-- Node of the skip list (`class Node`): `forward` is the array of `nodeLevel + 1`
successor pointers. -/
structure Node (K V : Type) where
  key : K
  value : V
  nodeLevel : Int
  forward : List (Option Nat)
deriving DecidableEq, Repr

/-- The store of allocated nodes, indexed by address. -/
abbrev Heap (K V : Type) := List (Option (Node K V))

/-- The object `SkipList<K, V>`: its four fields, and the heap its pointers live in. -/
structure SkipList (K V : Type) where
  maxLevel : Int
  SkipListLevel : Nat
  elementCount : Int
  header : Nat
  heap : Heap K V
deriving DecidableEq, Repr

/-- Lines written to `std::cout` by the operations. -/
inductive Msg (K V : Type) where
  | foundKey (key : K) (value : V)
  | notFoundKey (key : K)
  | inserted (key : K) (value : V)
  | deleted (key : K)
  | notFoundElement (key : K)
deriving DecidableEq, Repr

/-- The source of `rand()` results: the stream of values the next calls return. -/
abbrev RandSrc := Nat → Nat

/-- One call of `rand()`: the value returned and the remaining stream. -/
def rand (rng : RandSrc) : Nat × RandSrc := (rng 0, fun n => rng (n + 1))

variable {K V : Type}

/-! ## Heap access -/

/-- Read through a non-null pointer: fails on an unallocated or released address. -/
def deref (heap : Heap K V) (p : Nat) : Option (Node K V) := (heap[p]?).join

/-- Read `p->forward[i]`, failing when `i` is outside the node's array. -/
def readForward (heap : Heap K V) (p i : Nat) : Option (Option Nat) :=
  (deref heap p).bind (fun n => n.forward[i]?)

/-- Write `p->forward[i] = q`, failing when `i` is outside the node's array. -/
def writeForward (heap : Heap K V) (p i : Nat) (q : Option Nat) : Option (Heap K V) :=
  (deref heap p).bind (fun n =>
    if i < n.forward.length then
      some (heap.set p (some { n with forward := n.forward.set i q }))
    else none)

/-- Write `p->value = v` (`Node::set_value`). -/
def set_value (heap : Heap K V) (p : Nat) (v : V) : Option (Heap K V) :=
  (deref heap p).bind (fun n => some (heap.set p (some { n with value := v })))

/-- Constructor `Node(key, value, level)`: an array of `level + 1` null pointers;
a negative array length makes `new[]` throw. -/
def Node.new (key : K) (value : V) (level : Int) : Option (Node K V) :=
  if level + 1 < 0 then none
  else some ⟨key, value, level, List.replicate (level + 1).toNat none⟩

/-- Allocation `create_node(key, value, level)`: the new node is stored at the next
unused address, which is returned with the extended heap. -/
def create_node (heap : Heap K V) (key : K) (value : V) (level : Int) :
    Option (Nat × Heap K V) :=
  (Node.new key value level).bind (fun n => some (heap.length, heap ++ [some n]))

/-- Constructor `SkipList(maxLevel)`: level 0, no element, a header node of level
`maxLevel` whose key and value are default-initialised. -/
def SkipList.new [Inhabited K] [Inhabited V] (maxLevel : Int) : Option (SkipList K V) :=
  (Node.new (default : K) (default : V) maxLevel).bind (fun h =>
    some ⟨maxLevel, 0, 0, 0, [some h]⟩)

/-- Accessor `size()`. -/
def SkipList.size (s : SkipList K V) : Int := s.elementCount

/-! ## Random level -/

/-- The loop of `get_random_level`: `while (rand() % 2 && level < maxLevel) level++`.
Every evaluation of the condition consumes one `rand()` result. -/
def get_random_level_loop (maxLevel : Int) (level : Nat) (rng : RandSrc) : Nat × RandSrc :=
  if _h : (rand rng).1 % 2 ≠ 0 ∧ (level : Int) < maxLevel then
    get_random_level_loop maxLevel (level + 1) (rand rng).2
  else (level, (rand rng).2)
termination_by (maxLevel - level).toNat
decreasing_by omega

/-- The method `get_random_level()`: the level drawn and the remaining random stream. -/
def get_random_level (maxLevel : Int) (rng : RandSrc) : Nat × RandSrc :=
  get_random_level_loop maxLevel 0 rng

/-! ## Descent -/

variable [LinearOrder K]

/-- The inner loop of every descent,
`while (node->forward[i] != nullptr && node->forward[i]->get_key() < key) node = node->forward[i];`
run for at most `fuel` evaluations of its condition. -/
def advance (heap : Heap K V) (i : Nat) (key : K) : Nat → Nat → Option Nat
  | 0, _ => none
  | fuel + 1, node =>
    (readForward heap node i).bind (fun nxt =>
      match nxt with
      | none => some node
      | some p =>
        (deref heap p).bind (fun pn =>
          if pn.key < key then advance heap i key fuel p else some node))

/-- The loop `for (int i = SkipListLevel; i >= 0; i--)` of `search_element`, entered
with counter `i` at `node`. -/
def searchLoop (heap : Heap K V) (key : K) (fuel : Nat) : Nat → Nat → Option Nat
  | 0, node => advance heap 0 key fuel node
  | i + 1, node =>
    (advance heap (i + 1) key fuel node).bind (fun node1 => searchLoop heap key fuel i node1)

/-- Assignment `update[i] = p` into the local array; `none` marks a slot that was
never assigned. -/
def writeUpdate (update : List (Option Nat)) (i p : Nat) : Option (List (Option Nat)) :=
  if i < update.length then some (update.set i (some p)) else none

/-- Read of `update[i]`: fails outside the array and on a slot never assigned. -/
def readUpdate (update : List (Option Nat)) (i : Nat) : Option Nat := (update[i]?).join

/-- The descent loop of `insert_element` and `delete_element`, which also records
`update[i] = node` at the end of every level. -/
def updateLoop (heap : Heap K V) (key : K) (fuel : Nat) :
    Nat → Nat → List (Option Nat) → Option (Nat × List (Option Nat))
  | 0, node, update =>
    (advance heap 0 key fuel node).bind (fun node1 =>
      (writeUpdate update 0 node1).bind (fun update1 => some (node1, update1)))
  | i + 1, node, update =>
    (advance heap (i + 1) key fuel node).bind (fun node1 =>
      (writeUpdate update (i + 1) node1).bind (fun update1 =>
        updateLoop heap key fuel i node1 update1))

/-- Bound on the evaluations of an inner `while` condition.  The heap does not change
during a descent, so a walk that takes more steps than there are cells visits a node
twice and the C++ loop never exits; running out of this fuel is that divergence. -/
def descentFuel (s : SkipList K V) : Nat := s.heap.length

/-! ## Operations -/

/-- The first half of `search_element(key)`: the descent followed by
`node = node->forward[0]`; the result is the pointer `node` the test then inspects. -/
def searchCandidate (key : K) (s : SkipList K V) : Option (Option Nat) :=
  (searchLoop s.heap key (descentFuel s) s.SkipListLevel s.header).bind (fun node =>
    readForward s.heap node 0)

/-- The method `search_element(key)`: the value returned and the line printed. -/
def search_element (key : K) (s : SkipList K V) : Option (Bool × Msg K V) :=
  (searchCandidate key s).bind (fun cand =>
    match cand with
    | none => some (false, Msg.notFoundKey key)
    | some p =>
      (deref s.heap p).bind (fun pn =>
        if pn.key = key then some (false, Msg.foundKey key pn.value)
        else some (false, Msg.notFoundKey key)))

/-- The loop `for (int i = SkipListLevel + 1; i <= level; i++) update[i] = header;`. -/
def fillHeader (header : Nat) (update : List (Option Nat)) (lo level : Nat) :
    Option (List (Option Nat)) :=
  (List.range' (lo + 1) (level - lo)).foldlM (fun u i => writeUpdate u i header) update

/-- One pass of the splice loop:
`newNode->forward[i] = update[i]->forward[i]; update[i]->forward[i] = newNode;`. -/
def spliceStep (update : List (Option Nat)) (newNode : Nat) (heap : Heap K V) (i : Nat) :
    Option (Heap K V) :=
  (readUpdate update i).bind (fun u =>
    (readForward heap u i).bind (fun nxt =>
      (writeForward heap newNode i nxt).bind (fun heap1 =>
        writeForward heap1 u i (some newNode))))

/-- The loop `for (int i = 0; i <= level; i++)` that splices the new node in. -/
def spliceLoop (update : List (Option Nat)) (newNode : Nat) (level : Nat) (heap : Heap K V) :
    Option (Heap K V) :=
  (List.range (level + 1)).foldlM (spliceStep update newNode) heap

/-- The key of the node a possibly-null pointer refers to (`none` for `nullptr`). -/
def keyAt (heap : Heap K V) (cand : Option Nat) : Option (Option K) :=
  match cand with
  | none => some none
  | some p => (deref heap p).bind (fun n => some (some n.key))

/-- The method `insert_element(key, value)`: the value returned, the remaining random
stream, the list afterwards and the lines printed. -/
def insert_element (key : K) (value : V) (rng : RandSrc) (s : SkipList K V) :
    Option (Bool × RandSrc × SkipList K V × List (Msg K V)) :=
  let update0 : List (Option Nat) := List.replicate (s.maxLevel + 1).toNat none
  (updateLoop s.heap key (descentFuel s) s.SkipListLevel s.header update0).bind (fun r =>
    (readForward s.heap r.1 0).bind (fun cand =>
      (keyAt s.heap cand).bind (fun ck =>
        if ck = some key then
          -- node != nullptr && node->get_key() == key
          match cand with
          | none => none
          | some p =>
            (set_value s.heap p value).bind (fun heap1 =>
              some (false, rng, { s with heap := heap1 }, []))
        else if ck = none ∨ ck ≠ some key then
          -- node == nullptr || node->get_key() != key
          let level := (get_random_level s.maxLevel rng).1
          let rng1 := (get_random_level s.maxLevel rng).2
          let raised :=
            if s.SkipListLevel < level then
              (fillHeader s.header r.2 s.SkipListLevel level).bind (fun u => some (u, level))
            else some (r.2, s.SkipListLevel)
          raised.bind (fun ul =>
            (create_node s.heap key value level).bind (fun a =>
              (spliceLoop ul.1 a.1 level a.2).bind (fun heap2 =>
                some (true, rng1,
                  { s with SkipListLevel := ul.2, heap := heap2,
                           elementCount := s.elementCount + 1 },
                  [Msg.inserted key value]))))
        else some (true, rng, s, []))))

/-- The unlink loop of `delete_element`, entered with counter `i` and `remaining`
passes to go:
`if (update[i]->forward[i] != node) break; update[i]->forward[i] = node->forward[i];`. -/
def unlinkLoop (update : List (Option Nat)) (node : Nat) :
    Nat → Nat → Heap K V → Option (Heap K V)
  | 0, _, heap => some heap
  | remaining + 1, i, heap =>
    (readUpdate update i).bind (fun u =>
      (readForward heap u i).bind (fun f =>
        if f ≠ some node then some heap
        else
          (readForward heap node i).bind (fun nf =>
            (writeForward heap u i nf).bind (fun heap1 =>
              unlinkLoop update node remaining (i + 1) heap1))))

/-- The loop
`while (SkipListLevel > 0 && header->forward[SkipListLevel] == nullptr) SkipListLevel--;`
entered with the given level; the result is the level it stops at. -/
def shrinkLevel (heap : Heap K V) (header : Nat) : Nat → Option Nat
  | 0 => some 0
  | l + 1 =>
    (readForward heap header (l + 1)).bind (fun f =>
      if f = none then shrinkLevel heap header l else some (l + 1))

/-- Release of a node (`delete node`); releasing an address that is not alive fails. -/
def free (heap : Heap K V) (p : Nat) : Option (Heap K V) :=
  (deref heap p).bind (fun _ => some (heap.set p none))

/-- The method `delete_element(key)`: the list afterwards and the line printed. -/
def delete_element (key : K) (s : SkipList K V) : Option (SkipList K V × List (Msg K V)) :=
  let update0 : List (Option Nat) := List.replicate (s.maxLevel + 1).toNat none
  (updateLoop s.heap key (descentFuel s) s.SkipListLevel s.header update0).bind (fun r =>
    (readForward s.heap r.1 0).bind (fun cand =>
      (keyAt s.heap cand).bind (fun ck =>
        if ck = some key then
          match cand with
          | none => none
          | some p =>
            (unlinkLoop r.2 p (s.SkipListLevel + 1) 0 s.heap).bind (fun heap1 =>
              (shrinkLevel heap1 s.header s.SkipListLevel).bind (fun lvl =>
                (free heap1 p).bind (fun heap2 =>
                  some ({ s with SkipListLevel := lvl, heap := heap2,
                                 elementCount := s.elementCount - 1 },
                        [Msg.deleted key]))))
        else some (s, [Msg.notFoundElement key]))))

/-- The inner loop of `display_list` at level `i`, from pointer `p`:
`while (node != nullptr) { print node; node = node->forward[i]; }`; the result is the
list of addresses and nodes visited. -/
def chainFrom (heap : Heap K V) (i : Nat) : Nat → Option Nat → Option (List (Nat × Node K V))
  | _, none => some []
  | 0, some _ => none
  | fuel + 1, some p =>
    (deref heap p).bind (fun n =>
      (chainFrom heap i fuel (n.forward[i]?).join).bind (fun rest => some ((p, n) :: rest)))

/-- The chain of level `i`: the nodes met from `header` through `forward[i]`, with
their addresses. -/
def levelChain (s : SkipList K V) (i : Nat) : Option (List (Nat × Node K V)) :=
  (readForward s.heap s.header i).bind (fun first =>
    chainFrom s.heap i (descentFuel s) first)

/-- The keys of the chain of level `i`. -/
def levelKeys (s : SkipList K V) (i : Nat) : Option (List K) :=
  (levelChain s i).map (fun l => l.map (fun e => e.2.key))

/-! ## Search as a state transformer -/

/-- A statement of a method seen as a state transformer: it fails, or yields a result
and the list it leaves. -/
abbrev Act (K V α : Type) := SkipList K V → Option (α × SkipList K V)

/-- A statement that only reads the list: the list it leaves is the one it found. -/
def Act.read {α : Type} (f : SkipList K V → Option α) : Act K V α :=
  fun s => (f s).bind (fun a => some (a, s))

/-- Sequencing of statements: the second runs on the list the first leaves. -/
def Act.andThen {α β : Type} (x : Act K V α) (f : α → Act K V β) : Act K V β :=
  fun s => (x s).bind (fun r => f r.1 r.2)

/-- The statement `return a`. -/
def Act.ret {α : Type} (a : α) : Act K V α := fun s => some (a, s)

/-- The inner `while` of `search_element` as a state transformer: its condition reads
`node->forward[i]` and `node->forward[i]->get_key()`, its body assigns a local. -/
def advanceAct (i : Nat) (key : K) : Nat → Nat → Act K V Nat
  | 0, _ => fun _ => none
  | fuel + 1, node =>
    (Act.read (fun s => readForward s.heap node i)).andThen (fun nxt =>
      match nxt with
      | none => Act.ret node
      | some p =>
        (Act.read (fun s => deref s.heap p)).andThen (fun pn =>
          if pn.key < key then advanceAct i key fuel p else Act.ret node))

/-- The `for` loop of `search_element` as a state transformer. -/
def searchLoopAct (key : K) (fuel : Nat) : Nat → Nat → Act K V Nat
  | 0, node => advanceAct 0 key fuel node
  | i + 1, node =>
    (advanceAct (i + 1) key fuel node).andThen (fun node1 => searchLoopAct key fuel i node1)

/-- The method `search_element(key)` as a state transformer: every statement of its
body, in order, with the list threaded through. -/
def searchRun (key : K) : Act K V (Bool × Msg K V) :=
  (Act.read (fun s => some (s.header, s.SkipListLevel, descentFuel s))).andThen (fun hl =>
    (searchLoopAct key hl.2.2 hl.2.1 hl.1).andThen (fun node =>
      (Act.read (fun s => readForward s.heap node 0)).andThen (fun cand =>
        match cand with
        | none => Act.ret (false, Msg.notFoundKey key)
        | some p =>
          (Act.read (fun s => deref s.heap p)).andThen (fun pn =>
            if pn.key = key then Act.ret (false, Msg.foundKey key pn.value)
            else Act.ret (false, Msg.notFoundKey key)))))

/-! ## Teardown -/

/-- The method `clear(head)`:
`if (head->forward[0] != nullptr) clear(head->forward[0]); delete (head);`
with at most `fuel` nested calls.  The result is the heap afterwards and the addresses
released, in the order of their release. -/
def clear (heap : Heap K V) : Nat → Nat → Option (Heap K V × List Nat)
  | 0, _ => none
  | fuel + 1, head =>
    (readForward heap head 0).bind (fun nxt =>
      (match nxt with
        | none => some (heap, [])
        | some p => clear heap fuel p).bind (fun r =>
        (free r.1 head).bind (fun heap1 => some (heap1, r.2 ++ [head]))))

/-- The destructor `~SkipList()`:
`if (header->forward[0] != nullptr) clear(header->forward[0]); delete (header);`. -/
def SkipList.destroy (s : SkipList K V) : Option (Heap K V × List Nat) :=
  (readForward s.heap s.header 0).bind (fun nxt =>
    (match nxt with
      | none => some (s.heap, [])
      | some p => clear s.heap (descentFuel s) p).bind (fun r =>
      (free r.1 s.header).bind (fun heap1 => some (heap1, r.2 ++ [s.header]))))

/-! ## Sequences of calls and the reference map -/

/-- A call of a mutating method. -/
inductive Op (K V : Type) where
  | insert (key : K) (value : V)
  | delete (key : K)

/-- A sequence of calls run in order, the random stream threaded through; the result
also lists the values returned by the `insert_element` calls. -/
def runOps : List (Op K V) → RandSrc → SkipList K V →
    Option (RandSrc × SkipList K V × List Bool)
  | [], rng, s => some (rng, s, [])
  | Op.insert k v :: rest, rng, s =>
    (insert_element k v rng s).bind (fun r =>
      (runOps rest r.2.1 r.2.2.1).bind (fun q => some (q.1, q.2.1, r.1 :: q.2.2)))
  | Op.delete k :: rest, rng, s =>
    (delete_element k s).bind (fun r => runOps rest rng r.1)

/-- Reference finite map: insert-or-overwrite. -/
def refMapInsert (m : K → Option V) (k : K) (v : V) : K → Option V :=
  fun a => if a = k then some v else m a

/-- Reference finite map: erase. -/
def refMapErase (m : K → Option V) (k : K) : K → Option V :=
  fun a => if a = k then none else m a

/-- The same sequence of calls on the reference map; the result also lists, for every
insert, whether the map did not contain the key. -/
def refRun : List (Op K V) → (K → Option V) → (K → Option V) × List Bool
  | [], m => (m, [])
  | Op.insert k v :: rest, m =>
    ((refRun rest (refMapInsert m k v)).1, (m k).isNone :: (refRun rest (refMapInsert m k v)).2)
  | Op.delete k :: rest, m => refRun rest (refMapErase m k)

/-- The level-0 traversal as a list of (key, value) pairs. -/
def levelEntries (s : SkipList K V) : Option (List (K × V)) :=
  (levelChain s 0).map (fun c => c.map (fun e => (e.2.key, e.2.value)))

/-- Address of the last node of a chain with key below `k`, `hdr` when there is none. -/
def lastBelow (k : K) (hdr : Nat) (c : List (Nat × Node K V)) : Nat :=
  (((c.filter (fun e => decide (e.2.key < k))).getLast?).map Prod.fst).getD hdr

/-- Address of the first node of a chain with key not below `k`. -/
def firstNotBelow (k : K) (c : List (Nat × Node K V)) : Option Nat :=
  (c.find? (fun e => !decide (e.2.key < k))).map Prod.fst

/-- A list of one node, key 1 of level 0, under a header of level 3. -/
def oneList : SkipList Int String :=
  ⟨3, 0, 1, 0,
    [some ⟨0, "", 3, [some 1, none, none, none]⟩,
     some ⟨1, "a", 0, [none]⟩]⟩

/-- A list of two nodes, keys 1 and 2, both of level 0, under a header of level 3. -/
def twoList : SkipList Int String :=
  ⟨3, 0, 2, 0,
    [some ⟨0, "", 3, [some 1, none, none, none]⟩,
     some ⟨1, "a", 0, [some 2]⟩,
     some ⟨2, "b", 0, [none]⟩]⟩

/-- A random source whose first two flips succeed and whose later flips fail. -/
def flipsTwo : RandSrc := fun i => if i < 2 then 1 else 0

/-- A random source whose first flip succeeds and whose later flips fail. -/
def flipsOne : RandSrc := fun i => if i < 1 then 1 else 0

/-- The list `oneList` after `insert_element(2, "b")` drew level 2. -/
def tallList : SkipList Int String :=
  ⟨3, 2, 2, 0,
    [some ⟨0, "", 3, [some 1, some 2, some 2, none]⟩,
     some ⟨1, "a", 0, [some 2]⟩,
     some ⟨2, "b", 2, [none, none, none]⟩]⟩

/-- A list of three nodes on three levels: key 1 of level 0, key 2 of level 2 and key 3
of level 1, under a header of level 3. -/
def towerList : SkipList Int String :=
  ⟨3, 2, 3, 0,
    [some ⟨0, "", 3, [some 1, some 2, some 2, none]⟩,
     some ⟨1, "a", 0, [some 2]⟩,
     some ⟨2, "b", 2, [some 3, some 3, none]⟩,
     some ⟨3, "c", 1, [none, none]⟩]⟩

/-- What the constructor builds for `maxLevel = -1`: a header without forward slots. -/
def minusOneList : SkipList Int String :=
  ⟨-1, 0, 0, 0, [some ⟨0, "", -1, []⟩]⟩

/-! ## Reachable lists -/

/-- The lists obtained from a freshly constructed one (`maxLevel >= 0`) by calls of
`insert_element` and `delete_element`, with any random source. -/
inductive Reachable [Inhabited K] [Inhabited V] : SkipList K V → Prop where
  | fresh (maxLevel : Int) (s : SkipList K V) :
      0 ≤ maxLevel → SkipList.new maxLevel = some s → Reachable s
  | insert (s t : SkipList K V) (key : K) (value : V) (rng rng1 : RandSrc) (ret : Bool)
      (out : List (Msg K V)) :
      Reachable s → insert_element key value rng s = some (ret, rng1, t, out) → Reachable t
  | delete (s t : SkipList K V) (key : K) (out : List (Msg K V)) :
      Reachable s → delete_element key s = some (t, out) → Reachable t

/-! ## Abstraction: the list of cells a heap represents -/

/-- A node as the abstraction sees it: its address, key, value and level. -/
structure Cell (K V : Type) where
  addr : Nat
  key : K
  value : V
  lvl : Nat

/-- Address of the first cell of level at least `i`. -/
def nextAt (i : Nat) : List (Cell K V) → Option Nat
  | [] => none
  | c :: r => if i ≤ c.lvl then some c.addr else nextAt i r

/-- The cells that follow the cell stored at address `a`. -/
def after (a : Nat) : List (Cell K V) → List (Cell K V)
  | [] => []
  | c :: r => if c.addr = a then r else after a r

/-- The node of a cell whose successor at level `i` is `f i`. -/
def nodeOf (c : Cell K V) (f : Nat → Option Nat) : Node K V :=
  ⟨c.key, c.value, c.lvl, (List.range (c.lvl + 1)).map f⟩

/-- The heap stores, for every cell, a node with forward pointers `F`. -/
def HeapIs (heap : Heap K V) (cells : List (Cell K V)) (F : Cell K V → Nat → Option Nat) :
    Prop :=
  ∀ c ∈ cells, heap[c.addr]? = some (some (nodeOf c (F c)))

/-- The heap represents the cells: every cell points, at each of its levels, to the
next cell of that level. -/
def Repr (heap : Heap K V) (cells : List (Cell K V)) : Prop :=
  HeapIs heap cells (fun c i => nextAt i (after c.addr cells))

/-- The live addresses of the heap are addresses of cells. -/
def Live (heap : Heap K V) (cells : List (Cell K V)) : Prop :=
  ∀ a n, heap[a]? = some (some n) → a ∈ cells.map (fun c => c.addr)

/-- The cell standing for the header node. -/
def hcell [Inhabited K] [Inhabited V] (s : SkipList K V) : Cell K V :=
  ⟨s.header, default, default, s.maxLevel.toNat⟩

/-- The representation invariant: the list `s` stores exactly the cells `xs`, in
this order. -/
structure Inv [Inhabited K] [Inhabited V] (s : SkipList K V) (xs : List (Cell K V)) :
    Prop where
  maxLevel_nonneg : 0 ≤ s.maxLevel
  repr : Repr s.heap (hcell s :: xs)
  nodup : ((hcell s :: xs).map (fun c => c.addr)).Nodup
  sorted : xs.Pairwise (fun a b => a.key < b.key)
  lvl_le : ∀ c ∈ xs, c.lvl ≤ s.SkipListLevel
  level_le : s.SkipListLevel ≤ s.maxLevel.toNat
  level_max : s.SkipListLevel ≠ 0 → ∃ c ∈ xs, c.lvl = s.SkipListLevel
  count : s.elementCount = xs.length
  live : Live s.heap (hcell s :: xs)
  len : xs.length < s.heap.length

/-- The last cell of `P` of level at least `i`. -/
def IsPred (P : List (Cell K V)) (i : Nat) (u : Cell K V) : Prop :=
  u ∈ P ∧ i ≤ u.lvl ∧ ∀ y ∈ after u.addr P, y.lvl < i

/-- The cells with a key below `k`. -/
def lows (k : K) (xs : List (Cell K V)) : List (Cell K V) :=
  xs.filter (fun c => decide (c.key < k))

/-- The cells with a key above `k`. -/
def highs (k : K) (xs : List (Cell K V)) : List (Cell K V) :=
  xs.filter (fun c => decide (k < c.key))

/-- The cells with a key not below `k`. -/
def nonlows (k : K) (xs : List (Cell K V)) : List (Cell K V) :=
  xs.filter (fun c => !decide (c.key < k))

/-- The cells after storing cell `c` under its key. -/
def putCell (c : Cell K V) (xs : List (Cell K V)) : List (Cell K V) :=
  lows c.key xs ++ c :: highs c.key xs

/-- The cells after removing key `k`. -/
def dropKey (k : K) (xs : List (Cell K V)) : List (Cell K V) :=
  lows k xs ++ highs k xs

/-- The value stored under key `k`. -/
def lookup (k : K) (xs : List (Cell K V)) : Option V :=
  (xs.find? (fun c => decide (c.key = k))).map (fun c => c.value)

/-- Successor function of the cells while the splice loop of `insert_element` has linked
the new cell `c` between `P` and `Q` at the levels below `j` only. -/
def spliceF (P Q : List (Cell K V)) (c : Cell K V) (j : Nat) (x : Cell K V) (i : Nat) :
    Option Nat :=
  if x.addr = c.addr then (if i < j then nextAt i Q else none)
  else if i < j then nextAt i (after x.addr (P ++ c :: Q))
  else nextAt i (after x.addr (P ++ Q))

/-- Successor function of the cells while the unlink loop of `delete_element` has
unlinked the cell `d` between `P` and `Q` at the levels below `j` only. -/
def unlinkF (P Q : List (Cell K V)) (d : Cell K V) (j : Nat) (x : Cell K V) (i : Nat) :
    Option Nat :=
  if x.addr = d.addr then nextAt i Q
  else if i < j then nextAt i (after x.addr (P ++ Q))
  else nextAt i (after x.addr (P ++ d :: Q))

/-- The number of leading successful flips (`rand() % 2` nonzero) among the first `n`
results of the random source. -/
def leadingFlips : Nat → RandSrc → Nat
  | 0, _ => 0
  | n + 1, rng => if rng 0 % 2 ≠ 0 then leadingFlips n (fun i => rng (i + 1)) + 1 else 0

/-- The entries (key and value) of the cells, in order. -/
def entries (xs : List (Cell K V)) : List (K × V) :=
  xs.map (fun c => (c.key, c.value))

/-- Reference map, insert-or-overwrite: the entries below `k`, the entry `(k, v)`, the
entries above `k`. -/
def refInsert (k : K) (v : V) (es : List (K × V)) : List (K × V) :=
  es.filter (fun e => decide (e.1 < k)) ++ (k, v) :: es.filter (fun e => decide (k < e.1))

/-- Reference map, erase: the entries whose key is not `k`. -/
def refErase (k : K) (es : List (K × V)) : List (K × V) :=
  es.filter (fun e => decide (e.1 < k)) ++ es.filter (fun e => decide (k < e.1))

/-- Reference map, lookup. -/
def refLookup (k : K) (es : List (K × V)) : Option V :=
  (es.find? (fun e => decide (e.1 = k))).map (fun e => e.2)

/-- The line `search_element` prints for a key, given the entries of the list. -/
def refMsg (k : K) (es : List (K × V)) : Msg K V :=
  match refLookup k es with
  | some v => Msg.foundKey k v
  | none => Msg.notFoundKey k

/-- The list `s` stores the entries `es`: it represents cells with these keys and
values, in this order. -/
def Abs [Inhabited K] [Inhabited V] (s : SkipList K V) (es : List (K × V)) : Prop :=
  ∃ xs, Inv s xs ∧ entries xs = es

/-- Insertion of a list of pairs in order, the random stream threaded through the
calls as the global `rand()` state is. -/
def insertAll : List (K × V) → RandSrc → SkipList K V → Option (RandSrc × SkipList K V)
  | [], rng, s => some (rng, s)
  | (k, v) :: rest, rng, s =>
    (insert_element k v rng s).bind (fun r => insertAll rest r.2.1 r.2.2.1)

/-- The reference map after inserting a list of pairs in order. -/
def refInsertAll (kvs : List (K × V)) (es : List (K × V)) : List (K × V) :=
  kvs.foldl (fun acc p => refInsert p.1 p.2 acc) es

/-- The random source whose first `k` flips are given by `f` and whose later results
are those of `rest`. -/
def flipsThen (k : Nat) (f : Fin k → Bool) (rest : RandSrc) : RandSrc :=
  fun n => if h : n < k then (if f ⟨n, h⟩ then 1 else 0) else rest n

/-- A freshly constructed list of `maxLevel` 3 over `int` keys and string values. -/
def freshList3 : SkipList Int String :=
  ⟨3, 0, 0, 0, [some ⟨0, "", 3, [none, none, none, none]⟩]⟩

/-- The line `search_element` prints for a key, given what the list stores. -/
def searchMsg (k : K) (xs : List (Cell K V)) : Msg K V :=
  match lookup k xs with
  | some v => Msg.foundKey k v
  | none => Msg.notFoundKey k

section

variable {K V : Type}

/-! ## Lists of cells -/

theorem nextAt_eq_none {i : Nat} {A : List (Cell K V)} (h : ∀ y ∈ A, y.lvl < i) :
    nextAt i A = none := by
  induction A with
  | nil => rfl
  | cons c r ih =>
    have hc : ¬ i ≤ c.lvl := Nat.not_le.mpr (h c (List.mem_cons_self _ _))
    simp only [nextAt, hc, if_false]
    exact ih (fun y hy => h y (List.mem_cons_of_mem _ hy))

theorem nextAt_append_of_lt {i : Nat} {A B : List (Cell K V)} (h : ∀ y ∈ A, y.lvl < i) :
    nextAt i (A ++ B) = nextAt i B := by
  induction A with
  | nil => rfl
  | cons c r ih =>
    have hc : ¬ i ≤ c.lvl := Nat.not_le.mpr (h c (List.mem_cons_self _ _))
    simp only [List.cons_append, nextAt, hc, if_false]
    exact ih (fun y hy => h y (List.mem_cons_of_mem _ hy))

theorem nextAt_append_of_mem {i : Nat} {A B : List (Cell K V)} {y : Cell K V}
    (hy : y ∈ A) (hl : i ≤ y.lvl) : nextAt i (A ++ B) = nextAt i A := by
  induction A with
  | nil => cases hy
  | cons c r ih =>
    by_cases hc : i ≤ c.lvl
    · simp only [List.cons_append, nextAt, hc, if_true]
    · simp only [List.cons_append, nextAt, hc, if_false]
      rcases List.mem_cons.mp hy with h | h
      · exact absurd (h ▸ hl) hc
      · exact ih h

theorem after_subset {a : Nat} {A : List (Cell K V)} {y : Cell K V} (hy : y ∈ after a A) :
    y ∈ A := by
  induction A with
  | nil => cases hy
  | cons c r ih =>
    by_cases hc : c.addr = a
    · simp only [after, hc, if_true] at hy
      exact List.mem_cons_of_mem _ hy
    · simp only [after, hc, if_false] at hy
      exact List.mem_cons_of_mem _ (ih hy)

theorem after_mem_tail {a : Nat} {A : List (Cell K V)} {y : Cell K V} (hy : y ∈ after a A) :
    y ∈ A.tail := by
  cases A with
  | nil => cases hy
  | cons c r =>
    by_cases hc : c.addr = a
    · simpa [after, hc] using hy
    · simp only [after, hc, if_false] at hy
      exact after_subset hy

theorem after_length_le (a : Nat) (A : List (Cell K V)) : (after a A).length ≤ A.length := by
  induction A with
  | nil => simp [after]
  | cons c r ih =>
    by_cases hc : c.addr = a
    · simp [after, hc]
    · simp only [after, hc, if_false, List.length_cons]
      omega

theorem after_length_lt {a : Nat} {A : List (Cell K V)} {y : Cell K V} (hy : y ∈ A)
    (ha : y.addr = a) : (after a A).length < A.length := by
  induction A with
  | nil => cases hy
  | cons c r ih =>
    by_cases hc : c.addr = a
    · simp [after, hc]
    · simp only [after, hc, if_false, List.length_cons]
      rcases List.mem_cons.mp hy with h | h
      · exact absurd (h ▸ ha) hc
      · have := ih h
        omega

theorem after_append_of_mem {a : Nat} {A : List (Cell K V)} (B : List (Cell K V))
    (h : a ∈ A.map (fun c => c.addr)) : after a (A ++ B) = after a A ++ B := by
  induction A with
  | nil => simp at h
  | cons c r ih =>
    by_cases hc : c.addr = a
    · simp [after, hc]
    · simp only [List.cons_append, after, hc, if_false]
      apply ih
      simp only [List.map_cons, List.mem_cons] at h
      rcases h with h | h
      · exact absurd h.symm hc
      · exact h

theorem after_append_of_not_mem {a : Nat} {A : List (Cell K V)} (B : List (Cell K V))
    (h : a ∉ A.map (fun c => c.addr)) : after a (A ++ B) = after a B := by
  induction A with
  | nil => rfl
  | cons c r ih =>
    simp only [List.map_cons, List.mem_cons, not_or] at h
    have hc : ¬ c.addr = a := fun e => h.1 e.symm
    simp only [List.cons_append, after, hc, if_false]
    exact ih h.2

theorem after_of_not_mem {a : Nat} {A : List (Cell K V)}
    (h : a ∉ A.map (fun c => c.addr)) : after a A = [] := by
  have := after_append_of_not_mem ([] : List (Cell K V)) h
  simpa [after] using this

theorem mem_addrs {A : List (Cell K V)} {y : Cell K V} (hy : y ∈ A) :
    y.addr ∈ A.map (fun c => c.addr) :=
  List.mem_map.mpr ⟨y, hy, rfl⟩

theorem cell_eq_of_addr {A : List (Cell K V)} (hnd : (A.map (fun c => c.addr)).Nodup)
    {x y : Cell K V} (hx : x ∈ A) (hy : y ∈ A) (h : x.addr = y.addr) : x = y :=
  List.inj_on_of_nodup_map hnd hx hy h

theorem nodup_after {a : Nat} {A : List (Cell K V)} (hnd : (A.map (fun c => c.addr)).Nodup) :
    ((after a A).map (fun c => c.addr)).Nodup := by
  induction A with
  | nil => simp [after]
  | cons c r ih =>
    have hr : (r.map (fun c => c.addr)).Nodup := (List.nodup_cons.mp hnd).2
    by_cases hc : c.addr = a
    · simpa [after, hc] using hr
    · simp only [after, hc, if_false]
      exact ih hr

theorem not_mem_after_self {A : List (Cell K V)} (hnd : (A.map (fun c => c.addr)).Nodup)
    {y : Cell K V} : y ∉ after y.addr A := by
  induction A with
  | nil => simp [after]
  | cons c r ih =>
    have hcons : c.addr ∉ r.map (fun c => c.addr) ∧ (r.map (fun c => c.addr)).Nodup :=
      List.nodup_cons.mp hnd
    by_cases hc : c.addr = y.addr
    · simp only [after, hc, if_true]
      intro hy
      exact hcons.1 (hc ▸ mem_addrs hy)
    · simp only [after, hc, if_false]
      exact ih hcons.2

theorem after_after {A : List (Cell K V)} (hnd : (A.map (fun c => c.addr)).Nodup)
    {a : Nat} {y : Cell K V} (hy : y ∈ after a A) :
    after y.addr A = after y.addr (after a A) := by
  induction A with
  | nil => cases hy
  | cons c r ih =>
    have hcons : c.addr ∉ r.map (fun c => c.addr) ∧ (r.map (fun c => c.addr)).Nodup :=
      List.nodup_cons.mp hnd
    have hcy : ¬ c.addr = y.addr := by
      intro e
      have hyr : y ∈ r := after_mem_tail hy
      exact hcons.1 (e ▸ mem_addrs hyr)
    by_cases hc : c.addr = a
    · subst hc
      simp only [after, if_true] at hy ⊢
      simp only [hcy, if_false]
    · simp only [after, hc, if_false] at hy ⊢
      simp only [hcy, if_false]
      exact ih hcons.2 hy

theorem mem_after_or {A : List (Cell K V)} {x u : Cell K V} (hx : x ∈ A) (hu : u ∈ A)
    (hne : x.addr ≠ u.addr) : u ∈ after x.addr A ∨ x ∈ after u.addr A := by
  induction A with
  | nil => cases hx
  | cons c r ih =>
    by_cases hcx : c.addr = x.addr
    · left
      simp only [after, hcx, if_true]
      rcases List.mem_cons.mp hu with h | h
      · exact absurd (h ▸ hcx).symm hne
      · exact h
    · by_cases hcu : c.addr = u.addr
      · right
        simp only [after, hcu, if_true]
        rcases List.mem_cons.mp hx with h | h
        · exact absurd (congrArg Cell.addr h).symm hcx
        · exact h
      · simp only [after, hcx, hcu, if_false]
        rcases List.mem_cons.mp hx with h | h
        · exact absurd (congrArg Cell.addr h).symm hcx
        · rcases List.mem_cons.mp hu with h2 | h2
          · exact absurd (congrArg Cell.addr h2).symm hcu
          · exact ih h h2

theorem nextAt_cases (i : Nat) (A : List (Cell K V)) :
    (nextAt i A = none ∧ ∀ y ∈ A, y.lvl < i) ∨
    (∃ y ∈ A, nextAt i A = some y.addr ∧ i ≤ y.lvl ∧
      ∀ z ∈ A, i ≤ z.lvl → z = y ∨ z ∈ after y.addr A) := by
  induction A with
  | nil => left; exact ⟨rfl, fun y hy => by cases hy⟩
  | cons c r ih =>
    by_cases hc : i ≤ c.lvl
    · right
      refine ⟨c, List.mem_cons_self _ _, by simp [nextAt, hc], hc, ?_⟩
      intro z hz _
      rcases List.mem_cons.mp hz with h | h
      · exact Or.inl h
      · right; simpa [after] using h
    · rcases ih with ⟨h1, h2⟩ | ⟨y, hy, h1, h2, h3⟩
      · left
        refine ⟨by simp [nextAt, hc, h1], ?_⟩
        intro y hy
        rcases List.mem_cons.mp hy with h | h
        · exact h ▸ Nat.not_le.mp hc
        · exact h2 y h
      · right
        refine ⟨y, List.mem_cons_of_mem _ hy, by simp [nextAt, hc, h1], h2, ?_⟩
        intro z hz hzl
        rcases List.mem_cons.mp hz with h | h
        · exact absurd (h ▸ hzl) hc
        · rcases h3 z h hzl with h4 | h4
          · exact Or.inl h4
          · right
            by_cases hcy : c.addr = y.addr
            · simp only [after, hcy, if_true]; exact h
            · simp only [after, hcy, if_false]; exact h4

theorem nextAt_mem {i a : Nat} {A : List (Cell K V)} (h : nextAt i A = some a) :
    ∃ y ∈ A, y.addr = a ∧ i ≤ y.lvl := by
  rcases nextAt_cases i A with ⟨h1, _⟩ | ⟨y, hy, h1, h2, _⟩
  · rw [h1] at h; cases h
  · rw [h1] at h
    exact ⟨y, hy, Option.some.inj h, h2⟩

/-- A node depends on its successor function only up to its level. -/
theorem nodeOf_congr (c : Cell K V) {f g : Nat → Option Nat}
    (h : ∀ i, i ≤ c.lvl → f i = g i) : nodeOf c f = nodeOf c g := by
  unfold nodeOf
  congr 1
  apply List.map_congr_left
  intro i hi
  exact h i (Nat.lt_succ_iff.mp (List.mem_range.mp hi))

theorem nodeOf_forward_get (c : Cell K V) (f : Nat → Option Nat) {i : Nat} (h : i ≤ c.lvl) :
    (nodeOf c f).forward[i]? = some (f i) := by
  simp [nodeOf, List.getElem?_map, List.getElem?_range (Nat.lt_succ_of_le h)]

theorem nodeOf_forward_length (c : Cell K V) (f : Nat → Option Nat) :
    (nodeOf c f).forward.length = c.lvl + 1 := by
  simp [nodeOf]

theorem set_map_range (f : Nat → Option Nat) (n i : Nat) (q : Option Nat) :
    ((List.range n).map f).set i q = (List.range n).map (Function.update f i q) := by
  apply List.ext_getElem?
  intro j
  by_cases hj : j < n
  · by_cases hij : i = j
    · subst hij
      rw [List.getElem?_set, if_pos rfl, List.length_map, List.length_range, if_pos hj,
        List.getElem?_map, List.getElem?_range hj]
      simp
    · simp [List.getElem?_set, List.getElem?_map, List.getElem?_range hj, hij,
        Function.update, Ne.symm hij]
  · have h1 : (List.range n)[j]? = none := by
      simp [List.getElem?_eq_none, Nat.not_lt.mp hj]
    by_cases hij : i = j
    · subst hij
      simp [List.getElem?_set, List.getElem?_map, h1, hj]
    · simp [List.getElem?_set, List.getElem?_map, h1, hij]

theorem nodeOf_set (c : Cell K V) (f : Nat → Option Nat) (i : Nat) (q : Option Nat) :
    { nodeOf c f with forward := (nodeOf c f).forward.set i q } =
      nodeOf c (Function.update f i q) := by
  show Node.mk c.key c.value c.lvl (((List.range (c.lvl + 1)).map f).set i q) = _
  rw [set_map_range]
  rfl

end

section

variable {K V : Type}

/-! ## Reading and writing the heap -/

theorem deref_of_get {heap : Heap K V} {p : Nat} {n : Node K V}
    (h : heap[p]? = some (some n)) : deref heap p = some n := by
  simp [deref, h]

theorem get_of_deref {heap : Heap K V} {p : Nat} {n : Node K V}
    (h : deref heap p = some n) : heap[p]? = some (some n) := by
  unfold deref at h
  cases hp : heap[p]? with
  | none => rw [hp] at h; cases h
  | some o =>
    rw [hp] at h
    cases o with
    | none => cases h
    | some m => simp at h; rw [h]

theorem readForward_of {heap : Heap K V} {c : Cell K V} {f : Nat → Option Nat} {i : Nat}
    (h : heap[c.addr]? = some (some (nodeOf c f))) (hi : i ≤ c.lvl) :
    readForward heap c.addr i = some (f i) := by
  simp [readForward, deref_of_get h, nodeOf_forward_get c f hi]

theorem writeForward_of {heap : Heap K V} {c : Cell K V} {f : Nat → Option Nat} {i : Nat}
    (h : heap[c.addr]? = some (some (nodeOf c f))) (hi : i ≤ c.lvl) (q : Option Nat) :
    writeForward heap c.addr i q =
      some (heap.set c.addr (some (nodeOf c (Function.update f i q)))) := by
  have hlt : i < (nodeOf c f).forward.length := by
    rw [nodeOf_forward_length]; omega
  simp only [writeForward, deref_of_get h, Option.some_bind, hlt, if_true, nodeOf_set]

theorem addr_lt_of_get {heap : Heap K V} {a : Nat} {o : Option (Node K V)}
    (h : heap[a]? = some o) : a < heap.length := by
  by_contra hc
  rw [List.getElem?_eq_none (Nat.not_lt.mp hc)] at h
  cases h

theorem get_set_self {heap : Heap K V} {a : Nat} {o : Option (Node K V)}
    (o1 : Option (Node K V)) (h : heap[a]? = some o) : (heap.set a o1)[a]? = some o1 := by
  rw [List.getElem?_set, if_pos rfl, if_pos (addr_lt_of_get h)]

theorem get_set_ne {heap : Heap K V} {a b : Nat} (o1 : Option (Node K V)) (h : a ≠ b) :
    (heap.set a o1)[b]? = heap[b]? := by
  rw [List.getElem?_set, if_neg h]

/-! ## The descent -/

variable [LinearOrder K]

theorem advance_spec {heap : Heap K V} {P Q : List (Cell K V)} {k : K}
    (hrepr : Repr heap (P ++ Q)) (hnd : ((P ++ Q).map (fun c => c.addr)).Nodup)
    (hP : ∀ y ∈ P.tail, y.key < k) (hQ : ∀ y ∈ Q, ¬ y.key < k) (i : Nat) :
    ∀ (fuel : Nat) (x : Cell K V), x ∈ P → i ≤ x.lvl → (after x.addr P).length < fuel →
      ∃ u, advance heap i k fuel x.addr = some u.addr ∧ IsPred P i u ∧
        (u = x ∨ u ∈ after x.addr P) := by
  have hndP : (P.map (fun c => c.addr)).Nodup := by
    rw [List.map_append] at hnd
    exact (List.nodup_append.mp hnd).1
  intro fuel
  induction fuel with
  | zero => intro x _ _ h; exact absurd h (Nat.not_lt_zero _)
  | succ fuel ih =>
    intro x hx hi hlen
    have hxPQ : x ∈ P ++ Q := List.mem_append_left _ hx
    have hrd : readForward heap x.addr i = some (nextAt i (after x.addr P ++ Q)) := by
      rw [← after_append_of_mem Q (mem_addrs hx)]
      exact readForward_of (hrepr x hxPQ) hi
    rcases nextAt_cases i (after x.addr P) with ⟨_, h2⟩ | ⟨y, hy, h1, h2, _⟩
    · rw [nextAt_append_of_lt h2] at hrd
      refine ⟨x, ?_, ⟨hx, hi, h2⟩, Or.inl rfl⟩
      rcases nextAt_cases i Q with ⟨h3, _⟩ | ⟨y, hy, h3, _, _⟩
      · simp only [advance, hrd, h3, Option.some_bind]
      · have hd := deref_of_get (hrepr y (List.mem_append_right _ hy))
        have hk : ¬ (nodeOf y (fun i => nextAt i (after y.addr (P ++ Q)))).key < k := hQ y hy
        simp only [advance, hrd, h3, Option.some_bind, hd, hk, if_false]
    · rw [nextAt_append_of_mem hy h2, h1] at hrd
      have hyP : y ∈ P := after_subset hy
      have hd := deref_of_get (hrepr y (List.mem_append_left _ hyP))
      have hk : (nodeOf y (fun i => nextAt i (after y.addr (P ++ Q)))).key < k :=
        hP y (after_mem_tail hy)
      have haa := after_after hndP hy
      have hlt : (after y.addr P).length < fuel := by
        have := after_length_lt hy rfl
        rw [haa]
        omega
      obtain ⟨u, hu1, hu2, hu3⟩ := ih y hyP h2 hlt
      refine ⟨u, ?_, hu2, Or.inr ?_⟩
      · simp only [advance, hrd, Option.some_bind, hd, hk, if_true]
        exact hu1
      · rcases hu3 with h | h
        · exact h ▸ hy
        · rw [haa] at h
          exact after_subset h

/-- What the descent leaves in `update`: for every level up to `i`, the last cell of
`P` of that level. -/
theorem updateLoop_spec {heap : Heap K V} {P Q : List (Cell K V)} {k : K}
    (hrepr : Repr heap (P ++ Q)) (hnd : ((P ++ Q).map (fun c => c.addr)).Nodup)
    (hP : ∀ y ∈ P.tail, y.key < k) (hQ : ∀ y ∈ Q, ¬ y.key < k) (fuel : Nat)
    (hfuel : P.length ≤ fuel) :
    ∀ (i : Nat) (x : Cell K V) (update : List (Option Nat)), x ∈ P → i ≤ x.lvl →
      i < update.length →
      ∃ u0 upd, updateLoop heap k fuel i x.addr update = some (u0.addr, upd) ∧
        IsPred P 0 u0 ∧ upd.length = update.length ∧
        (∀ j, j ≤ i → ∃ u, upd[j]? = some (some u.addr) ∧ IsPred P j u) ∧
        (∀ j, i < j → upd[j]? = update[j]?) := by
  have hlen : ∀ x ∈ P, (after x.addr P).length < fuel := by
    intro x hx
    have := after_length_lt hx rfl
    omega
  intro i
  induction i with
  | zero =>
    intro x update hx hi hu
    obtain ⟨u, hu1, hu2, _⟩ := advance_spec hrepr hnd hP hQ 0 fuel x hx hi (hlen x hx)
    refine ⟨u, update.set 0 (some u.addr), ?_, hu2, by simp, ?_, ?_⟩
    · simp only [updateLoop, hu1, Option.some_bind, writeUpdate, hu, if_true]
    · intro j hj
      have hj0 : j = 0 := by omega
      subst hj0
      exact ⟨u, by rw [List.getElem?_set, if_pos rfl, if_pos hu], hu2⟩
    · intro j hj
      rw [List.getElem?_set, if_neg (by omega)]
  | succ i ih =>
    intro x update hx hi hu
    obtain ⟨u, hu1, hu2, _⟩ := advance_spec hrepr hnd hP hQ (i + 1) fuel x hx hi (hlen x hx)
    have hlen1 : i < (update.set (i + 1) (some u.addr)).length := by
      rw [List.length_set]; omega
    obtain ⟨u0, upd, h1, h2, h3, h4, h5⟩ :=
      ih u (update.set (i + 1) (some u.addr)) hu2.1 (by have := hu2.2.1; omega) hlen1
    refine ⟨u0, upd, ?_, h2, by rw [h3, List.length_set], ?_, ?_⟩
    · simp only [updateLoop, hu1, Option.some_bind, writeUpdate, hu, if_true]
      exact h1
    · intro j hj
      by_cases hji : j ≤ i
      · exact h4 j hji
      · have hj1 : j = i + 1 := by omega
        subst hj1
        refine ⟨u, ?_, hu2⟩
        rw [h5 (i + 1) (Nat.lt_succ_self i), List.getElem?_set, if_pos rfl, if_pos hu]
    · intro j hj
      rw [h5 j (by omega), List.getElem?_set, if_neg (by omega)]

/-- The descent of `search_element` ends on the same node as the recording descent. -/
theorem searchLoop_eq_updateLoop (heap : Heap K V) (k : K) (fuel : Nat) :
    ∀ (i node : Nat) (update : List (Option Nat)) (r : Nat × List (Option Nat)),
      updateLoop heap k fuel i node update = some r →
      searchLoop heap k fuel i node = some r.1 := by
  intro i
  induction i with
  | zero =>
    intro node update r h
    simp only [updateLoop] at h
    cases ha : advance heap 0 k fuel node with
    | none => rw [ha] at h; cases h
    | some n1 =>
      rw [ha] at h
      simp only [Option.some_bind] at h
      cases hw : writeUpdate update 0 n1 with
      | none => rw [hw] at h; cases h
      | some u1 =>
        rw [hw] at h
        simp only [Option.some_bind, Option.some.injEq] at h
        simp only [searchLoop, ha, ← h]
  | succ i ih =>
    intro node update r h
    simp only [updateLoop] at h
    cases ha : advance heap (i + 1) k fuel node with
    | none => rw [ha] at h; cases h
    | some n1 =>
      rw [ha] at h
      simp only [Option.some_bind] at h
      cases hw : writeUpdate update (i + 1) n1 with
      | none => rw [hw] at h; cases h
      | some u1 =>
        rw [hw] at h
        simp only [Option.some_bind] at h
        simp only [searchLoop, ha, Option.some_bind]
        exact ih n1 u1 r h

end

section

variable {K V : Type} [LinearOrder K]

/-! ## Sorted lists of cells -/

theorem lows_of_all_gt {k : K} {r : List (Cell K V)} (h : ∀ c ∈ r, ¬ c.key < k) :
    lows k r = [] := by
  unfold lows
  rw [List.filter_eq_nil_iff]
  intro c hc
  simpa using h c hc

theorem nonlows_of_all_ge {k : K} {r : List (Cell K V)} (h : ∀ c ∈ r, ¬ c.key < k) :
    nonlows k r = r := by
  unfold nonlows
  rw [List.filter_eq_self]
  intro c hc
  simpa using h c hc

theorem highs_of_all_gt {k : K} {r : List (Cell K V)} (h : ∀ c ∈ r, k < c.key) :
    highs k r = r := by
  unfold highs
  rw [List.filter_eq_self]
  intro c hc
  simpa using h c hc

theorem mem_lows {k : K} {xs : List (Cell K V)} {c : Cell K V} :
    c ∈ lows k xs ↔ c ∈ xs ∧ c.key < k := by
  simp [lows, List.mem_filter]

theorem mem_highs {k : K} {xs : List (Cell K V)} {c : Cell K V} :
    c ∈ highs k xs ↔ c ∈ xs ∧ k < c.key := by
  simp [highs, List.mem_filter]

theorem mem_nonlows {k : K} {xs : List (Cell K V)} {c : Cell K V} :
    c ∈ nonlows k xs ↔ c ∈ xs ∧ ¬ c.key < k := by
  simp [nonlows, List.mem_filter]

theorem sorted_split {xs : List (Cell K V)} (h : xs.Pairwise (fun a b => a.key < b.key))
    (k : K) : xs = lows k xs ++ nonlows k xs := by
  induction xs with
  | nil => rfl
  | cons x r ih =>
    have hx := (List.pairwise_cons.mp h).1
    have hr := (List.pairwise_cons.mp h).2
    by_cases hk : x.key < k
    · have h1 : lows k (x :: r) = x :: lows k r := by simp [lows, hk]
      have h2 : nonlows k (x :: r) = nonlows k r := by simp [nonlows, hk]
      rw [h1, h2, List.cons_append, ← ih hr]
    · have hall : ∀ c ∈ x :: r, ¬ c.key < k := by
        intro c hc
        rcases List.mem_cons.mp hc with e | e
        · exact e ▸ hk
        · exact fun hlt => hk (lt_trans (hx c e) hlt)
      rw [lows_of_all_gt hall, nonlows_of_all_ge hall, List.nil_append]

theorem nonlows_cases {xs : List (Cell K V)} (h : xs.Pairwise (fun a b => a.key < b.key))
    (k : K) :
    (nonlows k xs = highs k xs ∧ ∀ c ∈ xs, c.key ≠ k) ∨
    (∃ d, nonlows k xs = d :: highs k xs ∧ d.key = k ∧ d ∈ xs) := by
  induction xs with
  | nil => left; exact ⟨rfl, fun c hc => by cases hc⟩
  | cons x r ih =>
    have hx := (List.pairwise_cons.mp h).1
    have hr := (List.pairwise_cons.mp h).2
    rcases lt_trichotomy x.key k with hk | hk | hk
    · have h1 : highs k (x :: r) = highs k r := by simp [highs, not_lt_of_gt hk]
      have h2 : nonlows k (x :: r) = nonlows k r := by simp [nonlows, hk]
      rw [h1, h2]
      rcases ih hr with ⟨e, hne⟩ | ⟨d, e, hd, hm⟩
      · left
        refine ⟨e, ?_⟩
        intro c hc
        rcases List.mem_cons.mp hc with e1 | e1
        · exact e1 ▸ ne_of_lt hk
        · exact hne c e1
      · right
        exact ⟨d, e, hd, List.mem_cons_of_mem _ hm⟩
    · right
      have hall : ∀ c ∈ r, k < c.key := fun c hc => hk ▸ hx c hc
      have h1 : highs k (x :: r) = r := by
        have : ¬ k < x.key := by rw [hk]; exact lt_irrefl _
        simp only [highs, List.filter_cons, this, decide_False, Bool.false_eq_true, if_false]
        exact highs_of_all_gt hall
      have h2 : nonlows k (x :: r) = x :: r := by
        apply nonlows_of_all_ge
        intro c hc
        rcases List.mem_cons.mp hc with e | e
        · rw [e, hk]; exact lt_irrefl _
        · exact not_lt_of_gt (hall c e)
      exact ⟨x, by rw [h1, h2], hk, List.mem_cons_self _ _⟩
    · left
      have hall : ∀ c ∈ x :: r, k < c.key := by
        intro c hc
        rcases List.mem_cons.mp hc with e | e
        · exact e ▸ hk
        · exact lt_trans hk (hx c e)
      rw [highs_of_all_gt hall, nonlows_of_all_ge (fun c hc => not_lt_of_gt (hall c hc))]
      exact ⟨rfl, fun c hc => ne_of_gt (hall c hc)⟩

theorem lookup_append_of_ne {k : K} {A : List (Cell K V)} (B : List (Cell K V))
    (h : ∀ c ∈ A, c.key ≠ k) : lookup k (A ++ B) = lookup k B := by
  induction A with
  | nil => rfl
  | cons x r ih =>
    have hx : ¬ x.key = k := h x (List.mem_cons_self _ _)
    have hr := ih (fun c hc => h c (List.mem_cons_of_mem _ hc))
    unfold lookup at hr ⊢
    simp only [List.cons_append, List.find?_cons, hx, decide_False]
    exact hr

theorem lookup_cons_self {k : K} (d : Cell K V) (B : List (Cell K V)) (h : d.key = k) :
    lookup k (d :: B) = some d.value := by
  simp [lookup, List.find?_cons, h]

theorem lookup_of_ne {k : K} {A : List (Cell K V)} (h : ∀ c ∈ A, c.key ≠ k) :
    lookup k A = none := by
  have := lookup_append_of_ne ([] : List (Cell K V)) h
  simpa [lookup] using this

theorem lookup_lows_append {k : K} (xs B : List (Cell K V)) :
    lookup k (lows k xs ++ B) = lookup k B :=
  lookup_append_of_ne B (fun _ hc => ne_of_lt (mem_lows.mp hc).2)

theorem lookup_putCell (c : Cell K V) (xs : List (Cell K V)) :
    lookup c.key (putCell c xs) = some c.value := by
  unfold putCell
  rw [lookup_lows_append, lookup_cons_self c _ rfl]

theorem lookup_dropKey (k : K) (xs : List (Cell K V)) : lookup k (dropKey k xs) = none := by
  apply lookup_of_ne
  intro c hc
  rcases List.mem_append.mp hc with h | h
  · exact ne_of_lt (mem_lows.mp h).2
  · exact ne_of_gt (mem_highs.mp h).2

theorem lookup_eq_some_of_mem {xs : List (Cell K V)}
    (h : xs.Pairwise (fun a b => a.key < b.key)) {d : Cell K V} (hd : d ∈ xs) :
    lookup d.key xs = some d.value := by
  rcases nonlows_cases h d.key with ⟨_, hne⟩ | ⟨e, he, hk, _⟩
  · exact absurd rfl (hne d hd)
  · have hmem : d ∈ nonlows d.key xs := mem_nonlows.mpr ⟨hd, lt_irrefl _⟩
    rw [he] at hmem
    have hde : d = e := by
      rcases List.mem_cons.mp hmem with h1 | h1
      · exact h1
      · exact absurd (mem_highs.mp h1).2 (lt_irrefl _)
    rw [sorted_split h d.key, lookup_lows_append, he, ← hde, lookup_cons_self d _ rfl]

theorem sorted_putCell {xs : List (Cell K V)} (h : xs.Pairwise (fun a b => a.key < b.key))
    (c : Cell K V) : (putCell c xs).Pairwise (fun a b => a.key < b.key) := by
  unfold putCell
  rw [List.pairwise_append]
  refine ⟨List.Pairwise.sublist (List.filter_sublist _) h, ?_, ?_⟩
  · rw [List.pairwise_cons]
    exact ⟨fun b hb => (mem_highs.mp hb).2, List.Pairwise.sublist (List.filter_sublist _) h⟩
  · intro a ha b hb
    have ha1 := (mem_lows.mp ha).2
    rcases List.mem_cons.mp hb with e | e
    · exact e ▸ ha1
    · exact lt_trans ha1 (mem_highs.mp e).2

theorem sorted_dropKey {xs : List (Cell K V)} (h : xs.Pairwise (fun a b => a.key < b.key))
    (k : K) : (dropKey k xs).Pairwise (fun a b => a.key < b.key) := by
  unfold dropKey
  rw [List.pairwise_append]
  refine ⟨List.Pairwise.sublist (List.filter_sublist _) h,
    List.Pairwise.sublist (List.filter_sublist _) h, ?_⟩
  intro a ha b hb
  exact lt_trans (mem_lows.mp ha).2 (mem_highs.mp hb).2

theorem length_putCell_of_absent {xs : List (Cell K V)}
    (h : xs.Pairwise (fun a b => a.key < b.key)) (c : Cell K V)
    (hne : ∀ d ∈ xs, d.key ≠ c.key) : (putCell c xs).length = xs.length + 1 := by
  rcases nonlows_cases h c.key with ⟨e, _⟩ | ⟨d, _, hk, hm⟩
  · have hs := congrArg List.length (sorted_split h c.key)
    rw [e, List.length_append] at hs
    simp only [putCell, List.length_append, List.length_cons]
    omega
  · exact absurd hk (hne d hm)

theorem length_putCell_of_present {xs : List (Cell K V)}
    (h : xs.Pairwise (fun a b => a.key < b.key)) (c : Cell K V) {d : Cell K V}
    (hd : d ∈ xs) (hk : d.key = c.key) : (putCell c xs).length = xs.length := by
  rcases nonlows_cases h c.key with ⟨_, hne⟩ | ⟨e, he, _, _⟩
  · exact absurd hk (hne d hd)
  · have hs := congrArg List.length (sorted_split h c.key)
    rw [he, List.length_append, List.length_cons] at hs
    simp only [putCell, List.length_append, List.length_cons]
    omega

theorem length_dropKey_of_present {xs : List (Cell K V)}
    (h : xs.Pairwise (fun a b => a.key < b.key)) (k : K) {d : Cell K V}
    (hd : d ∈ xs) (hk : d.key = k) : (dropKey k xs).length + 1 = xs.length := by
  rcases nonlows_cases h k with ⟨_, hne⟩ | ⟨e, he, _, _⟩
  · exact absurd hk (hne d hd)
  · have hs := congrArg List.length (sorted_split h k)
    rw [he, List.length_append, List.length_cons] at hs
    simp only [dropKey, List.length_append]
    omega

theorem dropKey_of_absent {xs : List (Cell K V)}
    (h : xs.Pairwise (fun a b => a.key < b.key)) (k : K)
    (hne : ∀ d ∈ xs, d.key ≠ k) : dropKey k xs = xs := by
  rcases nonlows_cases h k with ⟨e, _⟩ | ⟨d, _, hk, hm⟩
  · unfold dropKey
    rw [← e]
    exact (sorted_split h k).symm
  · exact absurd hk (hne d hm)

theorem mem_putCell {c y : Cell K V} {xs : List (Cell K V)} :
    y ∈ putCell c xs ↔ y = c ∨ (y ∈ xs ∧ y.key ≠ c.key) := by
  unfold putCell
  rw [List.mem_append, List.mem_cons, mem_lows, mem_highs]
  constructor
  · rintro (⟨h1, h2⟩ | h | ⟨h1, h2⟩)
    · exact Or.inr ⟨h1, ne_of_lt h2⟩
    · exact Or.inl h
    · exact Or.inr ⟨h1, ne_of_gt h2⟩
  · rintro (h | ⟨h1, h2⟩)
    · exact Or.inr (Or.inl h)
    · rcases lt_or_gt_of_ne h2 with h3 | h3
      · exact Or.inl ⟨h1, h3⟩
      · exact Or.inr (Or.inr ⟨h1, h3⟩)

theorem mem_dropKey {k : K} {y : Cell K V} {xs : List (Cell K V)} :
    y ∈ dropKey k xs ↔ y ∈ xs ∧ y.key ≠ k := by
  unfold dropKey
  rw [List.mem_append, mem_lows, mem_highs]
  constructor
  · rintro (⟨h1, h2⟩ | ⟨h1, h2⟩)
    · exact ⟨h1, ne_of_lt h2⟩
    · exact ⟨h1, ne_of_gt h2⟩
  · rintro ⟨h1, h2⟩
    rcases lt_or_gt_of_ne h2 with h3 | h3
    · exact Or.inl ⟨h1, h3⟩
    · exact Or.inr ⟨h1, h3⟩

end

section

variable {K V : Type}

/-! ## The descent on a represented list -/

theorem readForward_repr {heap : Heap K V} {cells : List (Cell K V)} (h : Repr heap cells)
    {c : Cell K V} (hc : c ∈ cells) {i : Nat} (hi : i ≤ c.lvl) :
    readForward heap c.addr i = some (nextAt i (after c.addr cells)) :=
  readForward_of (h c hc) hi

theorem toNat_succ_of_nonneg {m : Int} (h : 0 ≤ m) : (m + 1).toNat = m.toNat + 1 := by
  omega

theorem nextAt_zero (Q : List (Cell K V)) : nextAt 0 Q = Q.head?.map (fun c => c.addr) := by
  cases Q with
  | nil => rfl
  | cons d r => simp [nextAt]

theorem after_nil_of_pred {P : List (Cell K V)} {u : Cell K V} (h : IsPred P 0 u) :
    after u.addr P = [] := by
  cases hA : after u.addr P with
  | nil => rfl
  | cons y r =>
    have := h.2.2 y (by rw [hA]; exact List.mem_cons_self _ _)
    exact absurd this (Nat.not_lt_zero _)

variable [LinearOrder K] [Inhabited K] [Inhabited V]

theorem cells_split {s : SkipList K V} {xs : List (Cell K V)} (hinv : Inv s xs) (k : K) :
    (hcell s :: lows k xs) ++ nonlows k xs = hcell s :: xs := by
  rw [List.cons_append, ← sorted_split hinv.sorted k]

theorem descent_inv {s : SkipList K V} {xs : List (Cell K V)} (hinv : Inv s xs) (k : K) :
    ∃ u0 upd,
      updateLoop s.heap k (descentFuel s) s.SkipListLevel s.header
        (List.replicate (s.maxLevel + 1).toNat none) = some (u0.addr, upd) ∧
      IsPred (hcell s :: lows k xs) 0 u0 ∧
      upd.length = s.maxLevel.toNat + 1 ∧
      (∀ j, j ≤ s.SkipListLevel →
        ∃ u, upd[j]? = some (some u.addr) ∧ IsPred (hcell s :: lows k xs) j u) ∧
      (∀ j, s.SkipListLevel < j → j ≤ s.maxLevel.toNat → upd[j]? = some none) ∧
      readForward s.heap u0.addr 0 = some (nextAt 0 (nonlows k xs)) := by
  have hsplit := cells_split hinv k
  have hrepr : Repr s.heap ((hcell s :: lows k xs) ++ nonlows k xs) := by
    rw [hsplit]; exact hinv.repr
  have hnd : (((hcell s :: lows k xs) ++ nonlows k xs).map (fun c => c.addr)).Nodup := by
    rw [hsplit]; exact hinv.nodup
  have hP : ∀ y ∈ (hcell s :: lows k xs).tail, y.key < k := fun y hy => (mem_lows.mp hy).2
  have hQ : ∀ y ∈ nonlows k xs, ¬ y.key < k := fun y hy => (mem_nonlows.mp hy).2
  have hfuel : (hcell s :: lows k xs).length ≤ descentFuel s := by
    have h1 : (lows k xs).length ≤ xs.length := List.length_filter_le _ _
    have h2 := hinv.len
    simp only [List.length_cons, descentFuel]
    omega
  have hlen0 : (List.replicate (s.maxLevel + 1).toNat (none : Option Nat)).length
      = s.maxLevel.toNat + 1 := by
    rw [List.length_replicate, toNat_succ_of_nonneg hinv.maxLevel_nonneg]
  obtain ⟨u0, upd, h1, h2, h3, h4, h5⟩ :=
    updateLoop_spec hrepr hnd hP hQ (descentFuel s) hfuel s.SkipListLevel (hcell s)
      (List.replicate (s.maxLevel + 1).toNat none) (List.mem_cons_self _ _)
      hinv.level_le (by rw [hlen0]; have := hinv.level_le; omega)
  refine ⟨u0, upd, h1, h2, by rw [h3, hlen0], h4, ?_, ?_⟩
  · intro j hj hjm
    rw [h5 j hj, List.getElem?_replicate, if_pos]
    rw [toNat_succ_of_nonneg hinv.maxLevel_nonneg]
    omega
  · have hr := readForward_repr hrepr (List.mem_append_left _ h2.1) (Nat.zero_le _)
    rw [hr, after_append_of_mem _ (mem_addrs h2.1), after_nil_of_pred h2, List.nil_append]

/-- The key found under the candidate pointer after the descent. -/
theorem keyAt_candidate {s : SkipList K V} {xs : List (Cell K V)} (hinv : Inv s xs) (k : K) :
    keyAt s.heap (nextAt 0 (nonlows k xs)) = some ((nonlows k xs).head?.map (fun c => c.key)) := by
  cases hQ : nonlows k xs with
  | nil => rfl
  | cons d r =>
    have hd : d ∈ hcell s :: xs := by
      apply List.mem_cons_of_mem
      exact (mem_nonlows.mp (by rw [hQ]; exact List.mem_cons_self _ _)).1
    simp [nextAt, keyAt, deref_of_get (hinv.repr d hd), nodeOf]

/-! ## Search -/

theorem searchCandidate_spec {s : SkipList K V} {xs : List (Cell K V)} (hinv : Inv s xs)
    (k : K) : searchCandidate k s = some (nextAt 0 (nonlows k xs)) := by
  obtain ⟨u0, upd, h1, _, _, _, _, h6⟩ := descent_inv hinv k
  have hs := searchLoop_eq_updateLoop s.heap k (descentFuel s) _ _ _ _ h1
  simp only at hs
  simp only [searchCandidate, hs, Option.some_bind, h6]

theorem search_spec {s : SkipList K V} {xs : List (Cell K V)} (hinv : Inv s xs) (k : K) :
    search_element k s = some (false, searchMsg k xs) := by
  simp only [search_element, searchCandidate_spec hinv k, Option.some_bind]
  rcases nonlows_cases hinv.sorted k with ⟨e, hne⟩ | ⟨d, e, hk, hm⟩
  · have hl : lookup k xs = none := lookup_of_ne hne
    cases hQ : highs k xs with
    | nil => simp [e, hQ, nextAt, searchMsg, hl]
    | cons d r =>
      have hdm : d ∈ highs k xs := by rw [hQ]; exact List.mem_cons_self _ _
      have hd : d ∈ hcell s :: xs := List.mem_cons_of_mem _ (mem_highs.mp hdm).1
      have hdk : ¬ d.key = k := ne_of_gt (mem_highs.mp hdm).2
      simp [e, hQ, nextAt, searchMsg, hl, deref_of_get (hinv.repr d hd), nodeOf, hdk]
  · have hl : lookup k xs = some d.value := by
      rw [← hk]; exact lookup_eq_some_of_mem hinv.sorted hm
    have hd : d ∈ hcell s :: xs := List.mem_cons_of_mem _ hm
    simp [e, nextAt, searchMsg, hl, deref_of_get (hinv.repr d hd), nodeOf, hk]

/-! ## Construction -/

theorem new_spec {maxLevel : Int} (h : 0 ≤ maxLevel) :
    ∃ s : SkipList K V, SkipList.new maxLevel = some s ∧ Inv s [] ∧
      s.maxLevel = maxLevel := by
  have hneg : ¬ maxLevel + 1 < 0 := by omega
  refine ⟨⟨maxLevel, 0, 0, 0, [some ⟨default, default, maxLevel,
    List.replicate (maxLevel + 1).toNat none⟩]⟩, ?_, ?_, rfl⟩
  · simp [SkipList.new, Node.new, hneg]
  · refine ⟨h, ?_, by simp, List.Pairwise.nil, by simp, by simp, by simp, by simp, ?_, by simp⟩
    · intro c hc
      rw [List.mem_singleton.mp hc]
      have hm : ((maxLevel.toNat : Nat) : Int) = maxLevel := Int.toNat_of_nonneg h
      simp only [hcell, nodeOf, List.getElem?_cons_zero, after, if_true, nextAt, hm,
        toNat_succ_of_nonneg h]
      congr 3
      apply List.ext_getElem?
      intro j
      by_cases hj : j < maxLevel.toNat + 1
      · simp [List.getElem?_replicate, hj, List.getElem?_map, List.getElem?_range hj]
      · simp [List.getElem?_replicate, hj, List.getElem?_map, Nat.not_lt.mp hj]
    · intro a n ha
      have ha0 : a = 0 := by
        by_contra hne
        have : 1 ≤ a := by omega
        rw [List.getElem?_eq_none (by simpa using this)] at ha
        cases ha
      simp [hcell, ha0]

end

section

variable {K V : Type}

/-! ## The splice loop -/

theorem mem_middle {P Q : List (Cell K V)} {c x : Cell K V} :
    x ∈ P ++ c :: Q ↔ x = c ∨ x ∈ P ++ Q := by
  simp only [List.mem_append, List.mem_cons]
  tauto

theorem nodup_middle_addr {P Q : List (Cell K V)} {c : Cell K V}
    (hnd : ((P ++ Q).map (fun c => c.addr)).Nodup)
    (hc : c.addr ∉ (P ++ Q).map (fun c => c.addr)) :
    ((P ++ c :: Q).map (fun c => c.addr)).Nodup := by
  rw [List.map_append, List.map_cons, List.nodup_middle, ← List.map_append]
  exact List.nodup_cons.mpr ⟨hc, hnd⟩

theorem nodup_of_middle {P Q : List (Cell K V)} {c : Cell K V}
    (hnd : ((P ++ c :: Q).map (fun c => c.addr)).Nodup) :
    c.addr ∉ (P ++ Q).map (fun c => c.addr) ∧ ((P ++ Q).map (fun c => c.addr)).Nodup := by
  have e1 : (P ++ c :: Q).map (fun c => c.addr)
      = P.map (fun c => c.addr) ++ c.addr :: Q.map (fun c => c.addr) := by simp
  rw [e1, List.nodup_middle, ← List.map_append] at hnd
  exact List.nodup_cons.mp hnd

theorem repr_get {heap : Heap K V} {cells : List (Cell K V)} (h : Repr heap cells)
    {c : Cell K V} (hc : c ∈ cells) :
    heap[c.addr]? = some (some (nodeOf c (fun i => nextAt i (after c.addr cells)))) :=
  h c hc

theorem nodup_left {P Q : List (Cell K V)}
    (hnd : ((P ++ Q).map (fun c => c.addr)).Nodup) : (P.map (fun c => c.addr)).Nodup := by
  rw [List.map_append] at hnd
  exact (List.nodup_append.mp hnd).1

theorem not_mem_left_of_right {P Q : List (Cell K V)}
    (hnd : ((P ++ Q).map (fun c => c.addr)).Nodup) {x : Cell K V} (hx : x ∈ Q) :
    x.addr ∉ P.map (fun c => c.addr) := by
  rw [List.map_append] at hnd
  intro h
  exact (List.nodup_append.mp hnd).2.2 h (mem_addrs hx)

theorem nextAt_skip {i : Nat} (A Q : List (Cell K V)) {c : Cell K V} (h : ¬ i ≤ c.lvl) :
    nextAt i (A ++ c :: Q) = nextAt i (A ++ Q) := by
  induction A with
  | nil => simp [nextAt, h]
  | cons a r ih =>
    by_cases ha : i ≤ a.lvl
    · simp only [List.cons_append, nextAt, ha, if_true]
    · simp only [List.cons_append, nextAt, ha, if_false]
      exact ih

/-- Off the cell `c` itself, the cells after an address are those of the list without
`c`, with `c` put back when it comes later. -/
theorem nextAt_after_middle {P Q : List (Cell K V)} {c x : Cell K V}
    (hnd : ((P ++ Q).map (fun c => c.addr)).Nodup) (hx : x ∈ P ++ Q)
    (hxc : x.addr ≠ c.addr) (i : Nat)
    (h : ¬ i ≤ c.lvl ∨ x ∈ Q ∨ ∃ u ∈ after x.addr P, i ≤ u.lvl) :
    nextAt i (after x.addr (P ++ c :: Q)) = nextAt i (after x.addr (P ++ Q)) := by
  rcases List.mem_append.mp hx with hxP | hxQ
  · rw [after_append_of_mem _ (mem_addrs hxP), after_append_of_mem _ (mem_addrs hxP)]
    rcases h with h | h | ⟨u, hu, hul⟩
    · exact nextAt_skip _ _ h
    · exact absurd (mem_addrs hxP) (not_mem_left_of_right hnd h)
    · rw [nextAt_append_of_mem hu hul, nextAt_append_of_mem hu hul]
  · have hnP := not_mem_left_of_right hnd hxQ
    rw [after_append_of_not_mem _ hnP, after_append_of_not_mem _ hnP]
    simp only [after, Ne.symm hxc, if_false]

theorem live_set {heap : Heap K V} {cells : List (Cell K V)} (h : Live heap cells)
    {u : Cell K V} (hu : u ∈ cells) (o : Option (Node K V)) :
    Live (heap.set u.addr o) cells := by
  intro a n ha
  by_cases hau : u.addr = a
  · exact hau ▸ mem_addrs hu
  · rw [get_set_ne o hau] at ha
    exact h a n ha

theorem spliceStep_spec {heap : Heap K V} {P Q : List (Cell K V)} {c : Cell K V}
    {update : List (Option Nat)}
    (hnd : ((P ++ Q).map (fun c => c.addr)).Nodup)
    (hc : c.addr ∉ (P ++ Q).map (fun c => c.addr))
    {j : Nat} (hj : j ≤ c.lvl)
    (hupd : ∃ u, update[j]? = some (some u.addr) ∧ IsPred P j u)
    (hJ : HeapIs heap (P ++ c :: Q) (spliceF P Q c j)) :
    ∃ heap1, spliceStep update c.addr heap j = some heap1 ∧
      HeapIs heap1 (P ++ c :: Q) (spliceF P Q c (j + 1)) ∧
      heap1.length = heap.length ∧
      (∀ cells, Live heap cells → P ++ c :: Q ⊆ cells → Live heap1 cells) := by
  obtain ⟨u, hu1, huP, hul, hu3⟩ := hupd
  have hndc := nodup_middle_addr hnd hc
  have huPQ : u ∈ P ++ Q := List.mem_append_left _ huP
  have hu' : u ∈ P ++ c :: Q := mem_middle.mpr (Or.inr huPQ)
  have hc' : c ∈ P ++ c :: Q := mem_middle.mpr (Or.inl rfl)
  have huc : u.addr ≠ c.addr := fun e => hc (e ▸ mem_addrs huPQ)
  have hru : readUpdate update j = some u.addr := by simp [readUpdate, hu1]
  have hrd : readForward heap u.addr j = some (nextAt j Q) := by
    rw [readForward_of (hJ u hu') hul]
    simp only [spliceF, huc, if_false, Nat.lt_irrefl]
    rw [after_append_of_mem _ (mem_addrs huP), nextAt_append_of_lt hu3]
  have hw1 := writeForward_of (hJ c hc') hj (nextAt j Q)
  have hget1 : (heap.set c.addr (some (nodeOf c
      (Function.update (spliceF P Q c j c) j (nextAt j Q)))))[u.addr]?
      = some (some (nodeOf u (spliceF P Q c j u))) := by
    rw [get_set_ne _ (Ne.symm huc)]; exact hJ u hu'
  have hw2 := writeForward_of hget1 hul (some c.addr)
  refine ⟨(heap.set c.addr (some (nodeOf c
      (Function.update (spliceF P Q c j c) j (nextAt j Q))))).set u.addr
      (some (nodeOf u (Function.update (spliceF P Q c j u) j (some c.addr)))),
    ?_, ?_, by simp, ?_⟩
  · simp only [spliceStep, hru, Option.some_bind, hrd, hw1]
    exact hw2
  · intro x hx
    by_cases hxu : x.addr = u.addr
    · have hxe : x = u := cell_eq_of_addr hndc hx hu' hxu
      subst hxe
      rw [get_set_self _ hget1]
      congr 2
      apply nodeOf_congr
      intro i _
      by_cases hij : i = j
      · subst hij
        simp only [Function.update_same, spliceF, huc, if_false, Nat.lt_succ_self, if_true]
        rw [after_append_of_mem _ (mem_addrs huP), nextAt_append_of_lt hu3]
        simp [nextAt, hj]
      · have hlt : i < j + 1 ↔ i < j := by omega
        simp only [Function.update_noteq hij, spliceF, hlt]
    · rw [get_set_ne _ (Ne.symm hxu)]
      by_cases hxc : x.addr = c.addr
      · have hxe : x = c := cell_eq_of_addr hndc hx hc' hxc
        subst hxe
        rw [get_set_self _ (hJ x hc')]
        congr 2
        apply nodeOf_congr
        intro i _
        by_cases hij : i = j
        · subst hij
          simp only [Function.update_same, spliceF, if_true, Nat.lt_succ_self]
        · have hlt : i < j + 1 ↔ i < j := by omega
          simp only [Function.update_noteq hij, spliceF, hlt]
      · rw [get_set_ne _ (Ne.symm hxc), hJ x hx]
        congr 2
        apply nodeOf_congr
        intro i hi
        by_cases hij : i = j
        · subst hij
          simp only [spliceF, hxc, if_false, Nat.lt_succ_self, if_true, Nat.lt_irrefl]
          have hxPQ : x ∈ P ++ Q := by
            rcases mem_middle.mp hx with e | e
            · exact absurd (congrArg Cell.addr e) hxc
            · exact e
          symm
          apply nextAt_after_middle hnd hxPQ hxc
          rcases List.mem_append.mp hxPQ with hxP | hxQ
          · right; right
            rcases mem_after_or hxP huP hxu with h | h
            · exact ⟨u, h, hul⟩
            · exact absurd (hu3 x h) (by omega)
          · exact Or.inr (Or.inl hxQ)
        · have hlt : i < j + 1 ↔ i < j := by omega
          simp only [spliceF, hlt]
  · intro cells hl hsub
    exact live_set (live_set hl (hsub hc') _) (hsub hu') _

theorem spliceLoop_prefix {heap : Heap K V} {P Q : List (Cell K V)} {c : Cell K V}
    {update : List (Option Nat)}
    (hnd : ((P ++ Q).map (fun c => c.addr)).Nodup)
    (hc : c.addr ∉ (P ++ Q).map (fun c => c.addr))
    (hupd : ∀ j, j ≤ c.lvl → ∃ u, update[j]? = some (some u.addr) ∧ IsPred P j u)
    (hJ : HeapIs heap (P ++ c :: Q) (spliceF P Q c 0)) :
    ∀ n, n ≤ c.lvl + 1 →
      ∃ heap1, (List.range n).foldlM (spliceStep update c.addr) heap = some heap1 ∧
        HeapIs heap1 (P ++ c :: Q) (spliceF P Q c n) ∧
        heap1.length = heap.length ∧
        (∀ cells, Live heap cells → P ++ c :: Q ⊆ cells → Live heap1 cells) := by
  intro n
  induction n with
  | zero =>
    intro _
    exact ⟨heap, rfl, hJ, rfl, fun _ h _ => h⟩
  | succ n ih =>
    intro hn
    obtain ⟨h1, e1, hJ1, hl1, hlive1⟩ := ih (by omega)
    obtain ⟨h2, e2, hJ2, hl2, hlive2⟩ :=
      spliceStep_spec hnd hc (by omega : n ≤ c.lvl) (hupd n (by omega)) hJ1
    refine ⟨h2, ?_, hJ2, by rw [hl2, hl1], ?_⟩
    · rw [List.range_succ, List.foldlM_append, e1]
      simp only [Option.bind_eq_bind, Option.some_bind, List.foldlM_cons, List.foldlM_nil, e2]
      rfl
    · intro cells hl hsub
      exact hlive2 cells (hlive1 cells hl hsub) hsub

/-- The splice loop turns a heap representing `P ++ Q`, extended with the fresh node of
`c`, into one representing `P ++ c :: Q`. -/
theorem spliceLoop_spec {heap : Heap K V} {P Q : List (Cell K V)} {c : Cell K V}
    {update : List (Option Nat)}
    (hrepr : Repr heap (P ++ Q))
    (hnd : ((P ++ Q).map (fun c => c.addr)).Nodup)
    (hc : c.addr = heap.length)
    (hupd : ∀ j, j ≤ c.lvl → ∃ u, update[j]? = some (some u.addr) ∧ IsPred P j u) :
    ∃ heap1, spliceLoop update c.addr c.lvl
        (heap ++ [some (nodeOf c (fun _ => none))]) = some heap1 ∧
      Repr heap1 (P ++ c :: Q) ∧ heap1.length = heap.length + 1 ∧
      (∀ cells, Live heap cells → P ++ c :: Q ⊆ cells → Live heap1 cells) := by
  have hlt : ∀ x ∈ P ++ Q, x.addr < heap.length := fun x hx => addr_lt_of_get (hrepr x hx)
  have hcn : c.addr ∉ (P ++ Q).map (fun c => c.addr) := by
    intro h
    obtain ⟨x, hx, e⟩ := List.mem_map.mp h
    have := hlt x hx
    omega
  have hndc := nodup_middle_addr hnd hcn
  have hc' : c ∈ P ++ c :: Q := mem_middle.mpr (Or.inl rfl)
  have hJ0 : HeapIs (heap ++ [some (nodeOf c (fun _ => none))]) (P ++ c :: Q)
      (spliceF P Q c 0) := by
    intro x hx
    rcases mem_middle.mp hx with e | e
    · subst e
      rw [hc, List.getElem?_concat_length]
      congr 2
      apply nodeOf_congr
      intro i _
      simp [spliceF]
    · rw [List.getElem?_append_left (hlt x e), hrepr x e]
      have hxc : x.addr ≠ c.addr := fun e1 => hcn (e1 ▸ mem_addrs e)
      congr 2
      apply nodeOf_congr
      intro i _
      simp [spliceF, hxc]
  obtain ⟨h1, e1, hJ1, hl1, hlive1⟩ :=
    spliceLoop_prefix hnd hcn hupd hJ0 (c.lvl + 1) (Nat.le_refl _)
  refine ⟨h1, e1, ?_, by rw [hl1]; simp, ?_⟩
  · intro x hx
    rw [hJ1 x hx]
    congr 2
    apply nodeOf_congr
    intro i hi
    by_cases hxc : x.addr = c.addr
    · have hxe : x = c := cell_eq_of_addr hndc hx hc' hxc
      subst hxe
      have hnP : x.addr ∉ P.map (fun c => c.addr) := by
        intro h
        exact hcn (by rw [List.map_append]; exact List.mem_append_left _ h)
      have hilt : i < x.lvl + 1 := by omega
      simp only [spliceF, if_true, hilt]
      rw [after_append_of_not_mem _ hnP]
      simp [after]
    · simp only [spliceF, hxc, if_false]
      by_cases hil : i < c.lvl + 1
      · simp only [hil, if_true]
      · simp only [hil, if_false]
        have hxPQ : x ∈ P ++ Q := by
          rcases mem_middle.mp hx with e | e
          · exact absurd (congrArg Cell.addr e) hxc
          · exact e
        symm
        exact nextAt_after_middle hnd hxPQ hxc i (Or.inl (by omega))
  · intro cells hl hsub
    apply hlive1 cells _ hsub
    intro a n ha
    by_cases hal : a < heap.length
    · rw [List.getElem?_append_left hal] at ha
      exact hl a n ha
    · by_cases hae : a = heap.length
      · rw [hae, ← hc]; exact mem_addrs (hsub hc')
      · rw [List.getElem?_eq_none (by simp; omega)] at ha
        cases ha

end

section

variable {K V : Type}

/-! ## The random level -/

theorem leadingFlips_le (n : Nat) : ∀ rng : RandSrc, leadingFlips n rng ≤ n := by
  induction n with
  | zero => intro rng; simp [leadingFlips]
  | succ n ih =>
    intro rng
    by_cases h : rng 0 % 2 ≠ 0
    · rw [leadingFlips, if_pos h]
      have := ih (fun i => rng (i + 1))
      omega
    · rw [leadingFlips, if_neg h]
      omega

theorem get_random_level_loop_spec (maxLevel : Int) :
    ∀ (d level : Nat) (rng : RandSrc), maxLevel = (level : Int) + d →
      get_random_level_loop maxLevel level rng =
        (level + leadingFlips d rng, fun i => rng (i + (leadingFlips d rng + 1))) := by
  intro d
  induction d with
  | zero =>
    intro level rng h
    have hn : ¬ ((rand rng).1 % 2 ≠ 0 ∧ (level : Int) < maxLevel) := by
      intro hc; have := hc.2; omega
    rw [get_random_level_loop, dif_neg hn]
    simp [leadingFlips, rand]
  | succ d ih =>
    intro level rng h
    by_cases hodd : rng 0 % 2 ≠ 0
    · have hc : (rand rng).1 % 2 ≠ 0 ∧ (level : Int) < maxLevel := ⟨hodd, by omega⟩
      rw [get_random_level_loop, dif_pos hc, ih (level + 1) (rand rng).2 (by push_cast; omega)]
      have e : leadingFlips (d + 1) rng = leadingFlips d (rand rng).2 + 1 := by
        rw [leadingFlips, if_pos hodd]; rfl
      rw [e]
      refine Prod.ext ?_ ?_
      · show level + 1 + leadingFlips d (rand rng).2 = level + (leadingFlips d (rand rng).2 + 1)
        omega
      · funext i
        rfl
    · have hn : ¬ ((rand rng).1 % 2 ≠ 0 ∧ (level : Int) < maxLevel) := fun hc => hodd hc.1
      rw [get_random_level_loop, dif_neg hn, leadingFlips, if_neg hodd]
      rfl

theorem get_random_level_spec {maxLevel : Int} (h : 0 ≤ maxLevel) (rng : RandSrc) :
    get_random_level maxLevel rng =
      (leadingFlips maxLevel.toNat rng,
        fun i => rng (i + (leadingFlips maxLevel.toNat rng + 1))) := by
  unfold get_random_level
  rw [get_random_level_loop_spec maxLevel maxLevel.toNat 0 rng (by simp; omega)]
  simp

theorem get_random_level_le {maxLevel : Int} (h : 0 ≤ maxLevel) (rng : RandSrc) :
    (get_random_level maxLevel rng).1 ≤ maxLevel.toNat := by
  rw [get_random_level_spec h]
  exact leadingFlips_le _ _

/-! ## The header fill -/

theorem fillHeader_loop (hd : Nat) :
    ∀ (n start : Nat) (update : List (Option Nat)), start + n ≤ update.length →
      ∃ upd, (List.range' start n).foldlM (fun u i => writeUpdate u i hd) update = some upd ∧
        upd.length = update.length ∧
        ∀ j, upd[j]? = if start ≤ j ∧ j < start + n then some (some hd) else update[j]? := by
  intro n
  induction n with
  | zero =>
    intro start update _
    refine ⟨update, rfl, rfl, ?_⟩
    intro j
    have : ¬ (start ≤ j ∧ j < start + 0) := by omega
    rw [if_neg this]
  | succ n ih =>
    intro start update hlen
    have hs : start < update.length := by omega
    obtain ⟨upd, h1, h2, h3⟩ := ih (start + 1) (update.set start (some hd))
      (by rw [List.length_set]; omega)
    refine ⟨upd, ?_, by rw [h2, List.length_set], ?_⟩
    · rw [List.range'_succ, List.foldlM_cons]
      simp only [writeUpdate, hs, if_true, Option.bind_eq_bind, Option.some_bind]
      exact h1
    · intro j
      rw [h3 j]
      by_cases hj : start + 1 ≤ j ∧ j < start + 1 + n
      · rw [if_pos hj, if_pos (by omega)]
      · rw [if_neg hj]
        by_cases hjs : j = start
        · subst hjs
          rw [if_pos (by omega), List.getElem?_set, if_pos rfl, if_pos hs]
        · rw [if_neg (by omega), List.getElem?_set, if_neg (Ne.symm hjs)]

theorem fillHeader_spec (hd : Nat) (update : List (Option Nat)) {lo level : Nat}
    (hlt : lo < level) (hlen : level < update.length) :
    ∃ upd, fillHeader hd update lo level = some upd ∧ upd.length = update.length ∧
      (∀ j, j ≤ lo → upd[j]? = update[j]?) ∧
      (∀ j, lo < j → j ≤ level → upd[j]? = some (some hd)) := by
  obtain ⟨upd, h1, h2, h3⟩ := fillHeader_loop hd (level - lo) (lo + 1) update (by omega)
  refine ⟨upd, h1, h2, ?_, ?_⟩
  · intro j hj
    rw [h3 j, if_neg (by omega)]
  · intro j hj1 hj2
    rw [h3 j, if_pos (by omega)]

end

section

variable {K V : Type}

/-! ## Overwriting a value -/

theorem nextAt_congr_middle (i : Nat) (A B : List (Cell K V)) {d e : Cell K V}
    (ha : d.addr = e.addr) (hl : d.lvl = e.lvl) :
    nextAt i (A ++ d :: B) = nextAt i (A ++ e :: B) := by
  induction A with
  | nil => simp [nextAt, ha, hl]
  | cons a r ih =>
    by_cases hc : i ≤ a.lvl
    · simp only [List.cons_append, nextAt, hc, if_true]
    · simp only [List.cons_append, nextAt, hc, if_false]
      exact ih

theorem addrs_middle (A B : List (Cell K V)) {d e : Cell K V} (ha : d.addr = e.addr) :
    (A ++ e :: B).map (fun c => c.addr) = (A ++ d :: B).map (fun c => c.addr) := by
  simp [ha]

theorem repr_set_value {heap : Heap K V} {A B : List (Cell K V)} {d : Cell K V} (v : V)
    (hrepr : Repr heap (A ++ d :: B))
    (hnd : ((A ++ d :: B).map (fun c => c.addr)).Nodup) :
    Repr (heap.set d.addr (some (nodeOf { d with value := v } (fun i => nextAt i B))))
      (A ++ { d with value := v } :: B) := by
  have hdn : d.addr ∉ (A ++ B).map (fun c => c.addr) := (nodup_of_middle hnd).1
  have hndAB : ((A ++ B).map (fun c => c.addr)).Nodup := (nodup_of_middle hnd).2
  have hdA : d.addr ∉ A.map (fun c => c.addr) := by
    intro h
    exact hdn (by rw [List.map_append]; exact List.mem_append_left _ h)
  have hd : d ∈ A ++ d :: B := mem_middle.mpr (Or.inl rfl)
  intro x hx
  rcases mem_middle.mp hx with e | e
  · subst e
    show (heap.set d.addr _)[d.addr]? = _
    rw [get_set_self _ (repr_get hrepr hd)]
    congr 2
    apply nodeOf_congr
    intro i _
    show nextAt i B = nextAt i (after d.addr (A ++ { d with value := v } :: B))
    rw [after_append_of_not_mem _ hdA]
    simp [after]
  · have hxd : d.addr ≠ x.addr := fun e1 => hdn (e1 ▸ mem_addrs e)
    rw [get_set_ne _ hxd, repr_get hrepr (mem_middle.mpr (Or.inr e))]
    congr 2
    apply nodeOf_congr
    intro i _
    beta_reduce
    rcases List.mem_append.mp e with hxA | hxB
    · rw [after_append_of_mem _ (mem_addrs hxA), after_append_of_mem _ (mem_addrs hxA)]
      exact nextAt_congr_middle i _ _ rfl rfl
    · have hxA : x.addr ∉ A.map (fun c => c.addr) := not_mem_left_of_right hndAB hxB
      rw [after_append_of_not_mem _ hxA, after_append_of_not_mem _ hxA]
      simp only [after, hxd, if_false]

variable [LinearOrder K]

theorem nonlows_of_mem {xs : List (Cell K V)} (h : xs.Pairwise (fun a b => a.key < b.key))
    {d : Cell K V} (hd : d ∈ xs) : nonlows d.key xs = d :: highs d.key xs := by
  rcases nonlows_cases h d.key with ⟨_, hne⟩ | ⟨e, he, _, _⟩
  · exact absurd rfl (hne d hd)
  · have hmem : d ∈ nonlows d.key xs := mem_nonlows.mpr ⟨hd, lt_irrefl _⟩
    rw [he] at hmem
    rcases List.mem_cons.mp hmem with h1 | h1
    · rw [he, h1]
    · exact absurd (mem_highs.mp h1).2 (lt_irrefl _)

theorem split_of_mem {xs : List (Cell K V)} (h : xs.Pairwise (fun a b => a.key < b.key))
    {d : Cell K V} (hd : d ∈ xs) : xs = lows d.key xs ++ d :: highs d.key xs := by
  rw [← nonlows_of_mem h hd]
  exact sorted_split h d.key

theorem key_inj {xs : List (Cell K V)} (h : xs.Pairwise (fun a b => a.key < b.key))
    {d e : Cell K V} (hd : d ∈ xs) (he : e ∈ xs) (hk : d.key = e.key) : d = e := by
  have h1 := nonlows_of_mem h hd
  have h2 := nonlows_of_mem h he
  rw [hk, h2] at h1
  exact (List.cons.inj h1).1.symm

variable [Inhabited K] [Inhabited V]

/-! ## Insertion of a key already stored -/

theorem insert_dup_spec {s : SkipList K V} {xs : List (Cell K V)} (hinv : Inv s xs)
    {d : Cell K V} (hd : d ∈ xs) (v : V) (rng : RandSrc) :
    ∃ n, s.heap[d.addr]? = some (some n) ∧
      insert_element d.key v rng s =
        some (false, rng,
          { s with heap := s.heap.set d.addr (some { n with value := v }) }, []) ∧
      Inv { s with heap := s.heap.set d.addr (some { n with value := v }) }
        (putCell { d with value := v } xs) := by
  obtain ⟨u0, upd, h1, _, _, _, _, h6⟩ := descent_inv hinv d.key
  have hnl := nonlows_of_mem hinv.sorted hd
  have hdc : d ∈ hcell s :: xs := List.mem_cons_of_mem _ hd
  have hget := repr_get hinv.repr hdc
  have hka := keyAt_candidate hinv d.key
  have hsplit := split_of_mem hinv.sorted hd
  have hcells : hcell s :: xs = (hcell s :: lows d.key xs) ++ d :: highs d.key xs := by
    rw [List.cons_append, ← hsplit]
  have hrepr0 : Repr s.heap ((hcell s :: lows d.key xs) ++ d :: highs d.key xs) := by
    rw [← hcells]; exact hinv.repr
  have hnd0 : (((hcell s :: lows d.key xs) ++ d :: highs d.key xs).map
      (fun c => c.addr)).Nodup := by
    rw [← hcells]; exact hinv.nodup
  have hafter : after d.addr (hcell s :: xs) = highs d.key xs := by
    have hdA : d.addr ∉ (hcell s :: lows d.key xs).map (fun c => c.addr) := by
      intro h
      exact (nodup_of_middle hnd0).1 (by rw [List.map_append]; exact List.mem_append_left _ h)
    rw [hcells, after_append_of_not_mem _ hdA]
    simp [after]
  rw [hafter] at hget
  refine ⟨_, hget, ?_, ?_⟩
  · rw [hnl] at h6 hka
    have h6a : readForward s.heap u0.addr 0 = some (some d.addr) := by
      simpa [nextAt] using h6
    have hkb : keyAt s.heap (some d.addr) = some (some d.key) := by
      simpa [nextAt] using hka
    simp only [insert_element, h1, Option.some_bind, h6a, hkb, if_true, set_value,
      deref_of_get hget]
  · have hc2 : hcell s :: putCell { d with value := v } xs
        = (hcell s :: lows d.key xs) ++ { d with value := v } :: highs d.key xs := rfl
    have haddrs : (hcell s :: putCell { d with value := v } xs).map (fun c => c.addr)
        = (hcell s :: xs).map (fun c => c.addr) := by
      rw [hc2, hcells]
      exact addrs_middle _ _ rfl
    refine ⟨hinv.maxLevel_nonneg, ?_, ?_, sorted_putCell hinv.sorted _, ?_, hinv.level_le, ?_,
      ?_, ?_, ?_⟩
    · show Repr _ (hcell s :: putCell { d with value := v } xs)
      rw [hc2]
      exact repr_set_value v hrepr0 hnd0
    · show ((hcell s :: putCell { d with value := v } xs).map (fun c => c.addr)).Nodup
      rw [haddrs]; exact hinv.nodup
    · intro c hc
      rcases mem_putCell.mp hc with e | ⟨e, _⟩
      · rw [e]; exact hinv.lvl_le d hd
      · exact hinv.lvl_le c e
    · intro hne
      obtain ⟨c, hc, hcl⟩ := hinv.level_max hne
      by_cases hck : c.key = d.key
      · have hcd : c = d := key_inj hinv.sorted hc hd hck
        exact ⟨{ d with value := v }, mem_putCell.mpr (Or.inl rfl), by rw [← hcl, hcd]⟩
      · exact ⟨c, mem_putCell.mpr (Or.inr ⟨hc, hck⟩), hcl⟩
    · show s.elementCount = _
      rw [hinv.count, length_putCell_of_present hinv.sorted { d with value := v } hd rfl]
    · intro a n ha
      show a ∈ (hcell s :: putCell { d with value := v } xs).map (fun c => c.addr)
      rw [haddrs]
      exact live_set hinv.live hdc _ a n ha
    · show (putCell { d with value := v } xs).length < (s.heap.set d.addr _).length
      rw [length_putCell_of_present hinv.sorted { d with value := v } hd rfl, List.length_set]
      exact hinv.len

end

section

variable {K V : Type}

/-! ## Insertion of a new key -/

theorem node_new_eq (c : Cell K V) :
    Node.new c.key c.value (c.lvl : Int) = some (nodeOf c (fun _ => none)) := by
  have hn : ¬ ((c.lvl : Int) + 1 < 0) := by omega
  have ht : ((c.lvl : Int) + 1).toNat = c.lvl + 1 := by omega
  simp only [Node.new, hn, if_false, ht, nodeOf, Option.some.injEq, Node.mk.injEq, true_and]
  apply List.ext_getElem?
  intro j
  by_cases hj : j < c.lvl + 1
  · simp [List.getElem?_replicate, hj, List.getElem?_map, List.getElem?_range hj]
  · simp [List.getElem?_replicate, hj, List.getElem?_map, Nat.not_lt.mp hj]

variable [LinearOrder K] [Inhabited K] [Inhabited V]

theorem insert_new_spec {s : SkipList K V} {xs : List (Cell K V)} (hinv : Inv s xs)
    (k : K) (v : V) (rng : RandSrc) (hne : ∀ d ∈ xs, d.key ≠ k) :
    ∃ heap2,
      insert_element k v rng s =
        some (true, (get_random_level s.maxLevel rng).2,
          { s with SkipListLevel := max s.SkipListLevel (get_random_level s.maxLevel rng).1,
                   heap := heap2, elementCount := s.elementCount + 1 },
          [Msg.inserted k v]) ∧
      Inv { s with SkipListLevel := max s.SkipListLevel (get_random_level s.maxLevel rng).1,
                   heap := heap2, elementCount := s.elementCount + 1 }
        (putCell ⟨s.heap.length, k, v, (get_random_level s.maxLevel rng).1⟩ xs) := by
  obtain ⟨u0, upd, h1, _, h3, h4, _, h6⟩ := descent_inv hinv k
  have hlev := get_random_level_le hinv.maxLevel_nonneg rng
  simp only [insert_element]
  obtain ⟨level, rng1, hg⟩ : ∃ level rng1, get_random_level s.maxLevel rng = (level, rng1) :=
    ⟨_, _, rfl⟩
  simp only [hg] at hlev ⊢
  have hnl : nonlows k xs = highs k xs := by
    rcases nonlows_cases hinv.sorted k with ⟨e, _⟩ | ⟨d, _, hk, hm⟩
    · exact e
    · exact absurd hk (hne d hm)
  have hka := keyAt_candidate hinv k
  rw [hnl] at h6 hka
  have hck : ¬ ((highs k xs).head?.map (fun c => c.key)) = some k := by
    cases hh : (highs k xs).head? with
    | none => simp
    | some e =>
      have he : e ∈ highs k xs := List.mem_of_mem_head? hh
      simpa using ne_of_gt (mem_highs.mp he).2
  have hcells : (hcell s :: lows k xs) ++ highs k xs = hcell s :: xs := by
    rw [← hnl]; exact cells_split hinv k
  have hrepr0 : Repr s.heap ((hcell s :: lows k xs) ++ highs k xs) := by
    rw [hcells]; exact hinv.repr
  have hnd0 : (((hcell s :: lows k xs) ++ highs k xs).map (fun c => c.addr)).Nodup := by
    rw [hcells]; exact hinv.nodup
  -- the `update` array after the header fill
  have hraise : ∃ U,
      (if s.SkipListLevel < level then
        (fillHeader s.header upd s.SkipListLevel level).bind (fun u => some (u, level))
       else some (upd, s.SkipListLevel)) = some (U, max s.SkipListLevel level) ∧
      ∀ j, j ≤ level → ∃ u, U[j]? = some (some u.addr) ∧ IsPred (hcell s :: lows k xs) j u := by
    by_cases hlt : s.SkipListLevel < level
    · obtain ⟨U, e1, _, e3, e4⟩ :=
        fillHeader_spec s.header upd hlt (by rw [h3]; omega)
      refine ⟨U, ?_, ?_⟩
      · rw [if_pos hlt, e1, Option.some_bind, max_eq_right (Nat.le_of_lt hlt)]
      · intro j hj
        by_cases hjl : j ≤ s.SkipListLevel
        · rw [e3 j hjl]; exact h4 j hjl
        · refine ⟨hcell s, e4 j (by omega) hj, List.mem_cons_self _ _, ?_, ?_⟩
          · show j ≤ s.maxLevel.toNat
            omega
          · intro y hy
            have hy1 : y ∈ lows k xs := by simpa [after, hcell] using hy
            have := hinv.lvl_le y (mem_lows.mp hy1).1
            omega
    · refine ⟨upd, ?_, ?_⟩
      · rw [if_neg hlt, max_eq_left (Nat.le_of_not_lt hlt)]
      · intro j hj
        exact h4 j (by omega)
  obtain ⟨U, hU1, hU2⟩ := hraise
  obtain ⟨heap2, hs1, hs2, hs3, hs4⟩ :=
    spliceLoop_spec (c := ⟨s.heap.length, k, v, level⟩) hrepr0 hnd0 rfl hU2
  have hcn : create_node s.heap k v (level : Int) =
      some (s.heap.length, s.heap ++ [some (nodeOf ⟨s.heap.length, k, v, level⟩
        (fun _ => none))]) := by
    have := node_new_eq (⟨s.heap.length, k, v, level⟩ : Cell K V)
    simp only at this
    simp only [create_node, this, Option.some_bind]
  refine ⟨heap2, ?_, ?_⟩
  · simp only [h1, Option.some_bind, h6, hka, hck, if_false, ne_eq,
      not_false_eq_true, or_true, if_true, hU1, hcn]
    simp only at hs1
    rw [hs1]
    rfl
  · have hc2 : hcell s :: putCell ⟨s.heap.length, k, v, level⟩ xs
        = (hcell s :: lows k xs) ++ ⟨s.heap.length, k, v, level⟩ :: highs k xs := rfl
    have hcn0 : (⟨s.heap.length, k, v, level⟩ : Cell K V).addr ∉
        ((hcell s :: lows k xs) ++ highs k xs).map (fun c => c.addr) := by
      intro h
      obtain ⟨x, hx, e⟩ := List.mem_map.mp h
      have := addr_lt_of_get (hrepr0 x hx)
      simp only at e
      omega
    have hlen := length_putCell_of_absent hinv.sorted (⟨s.heap.length, k, v, level⟩ : Cell K V) hne
    refine ⟨hinv.maxLevel_nonneg, ?_, ?_, sorted_putCell hinv.sorted _, ?_, ?_, ?_, ?_, ?_, ?_⟩
    · show Repr heap2 (hcell s :: putCell ⟨s.heap.length, k, v, level⟩ xs)
      rw [hc2]; exact hs2
    · show ((hcell s :: putCell ⟨s.heap.length, k, v, level⟩ xs).map (fun c => c.addr)).Nodup
      rw [hc2]; exact nodup_middle_addr hnd0 hcn0
    · intro c hc
      show c.lvl ≤ max s.SkipListLevel level
      rcases mem_putCell.mp hc with e | ⟨e, _⟩
      · rw [e]; exact le_max_right _ _
      · exact le_trans (hinv.lvl_le c e) (le_max_left _ _)
    · show max s.SkipListLevel level ≤ s.maxLevel.toNat
      exact max_le hinv.level_le hlev
    · intro hmax
      have hmax1 : max s.SkipListLevel level ≠ 0 := hmax
      show ∃ c ∈ putCell ⟨s.heap.length, k, v, level⟩ xs, c.lvl = max s.SkipListLevel level
      by_cases hlt : s.SkipListLevel ≤ level
      · exact ⟨_, mem_putCell.mpr (Or.inl rfl), by rw [max_eq_right hlt]⟩
      · have hm : max s.SkipListLevel level = s.SkipListLevel := max_eq_left (by omega)
        rw [hm] at hmax1 ⊢
        obtain ⟨c, hc, hcl⟩ := hinv.level_max hmax1
        exact ⟨c, mem_putCell.mpr (Or.inr ⟨hc, hne c hc⟩), hcl⟩
    · show s.elementCount + 1 = ((putCell ⟨s.heap.length, k, v, level⟩ xs).length : Int)
      rw [hlen, hinv.count]
      push_cast
      rfl
    · show Live heap2 (hcell s :: putCell ⟨s.heap.length, k, v, level⟩ xs)
      apply hs4
      · intro a n ha
        have := hinv.live a n ha
        rw [← hcells] at this
        rw [hc2]
        obtain ⟨x, hx, e⟩ := List.mem_map.mp this
        exact List.mem_map.mpr ⟨x, mem_middle.mpr (Or.inr hx), e⟩
      · rw [hc2]; exact fun _ h => h
    · show (putCell ⟨s.heap.length, k, v, level⟩ xs).length < heap2.length
      rw [hlen, hs3]
      have := hinv.len
      omega

end

section

variable {K V : Type}

/-! ## The unlink loop -/

theorem nextAt_not_self {i : Nat} {Q : List (Cell K V)} {d : Cell K V}
    (hd : d.addr ∉ Q.map (fun c => c.addr)) : nextAt i Q ≠ some d.addr := by
  intro h
  obtain ⟨y, hy, e, _⟩ := nextAt_mem h
  exact hd (e ▸ mem_addrs hy)

theorem unlinkLoop_spec {P Q : List (Cell K V)} {d : Cell K V} {update : List (Option Nat)}
    {L : Nat}
    (hnd : ((P ++ d :: Q).map (fun c => c.addr)).Nodup)
    (hdL : d.lvl ≤ L)
    (hupd : ∀ j, j ≤ L → ∃ u, update[j]? = some (some u.addr) ∧ IsPred P j u) :
    ∀ (remaining i : Nat) (heap : Heap K V), i + remaining = L + 1 → i ≤ d.lvl + 1 →
      HeapIs heap (P ++ d :: Q) (unlinkF P Q d i) →
      ∃ heap1, unlinkLoop update d.addr remaining i heap = some heap1 ∧
        HeapIs heap1 (P ++ d :: Q) (unlinkF P Q d (d.lvl + 1)) ∧
        heap1.length = heap.length ∧
        (∀ cells, Live heap cells → P ++ d :: Q ⊆ cells → Live heap1 cells) := by
  have hdn := (nodup_of_middle hnd).1
  have hndPQ := (nodup_of_middle hnd).2
  have hdQ : d.addr ∉ Q.map (fun c => c.addr) := by
    intro h
    exact hdn (by rw [List.map_append]; exact List.mem_append_right _ h)
  have hd' : d ∈ P ++ d :: Q := mem_middle.mpr (Or.inl rfl)
  intro remaining
  induction remaining with
  | zero =>
    intro i heap hi hil hJ
    have hie : i = d.lvl + 1 := by omega
    subst hie
    exact ⟨heap, rfl, hJ, rfl, fun _ h _ => h⟩
  | succ remaining ih =>
    intro i heap hi hil hJ
    obtain ⟨u, hu1, huP, hul, hu3⟩ := hupd i (by omega)
    have huPQ : u ∈ P ++ Q := List.mem_append_left _ huP
    have hu' : u ∈ P ++ d :: Q := mem_middle.mpr (Or.inr huPQ)
    have hud : u.addr ≠ d.addr := fun e => hdn (e ▸ mem_addrs huPQ)
    have hru : readUpdate update i = some u.addr := by simp [readUpdate, hu1]
    have hrd : readForward heap u.addr i = some (nextAt i (d :: Q)) := by
      rw [readForward_of (hJ u hu') hul]
      simp only [unlinkF, hud, if_false, Nat.lt_irrefl]
      rw [after_append_of_mem _ (mem_addrs huP), nextAt_append_of_lt hu3]
    by_cases hid : i ≤ d.lvl
    · have hrd1 : readForward heap u.addr i = some (some d.addr) := by
        rw [hrd]; simp [nextAt, hid]
      have hrdd : readForward heap d.addr i = some (nextAt i Q) := by
        rw [readForward_of (hJ d hd') hid]
        simp only [unlinkF, if_true]
      have hw := writeForward_of (hJ u hu') hul (nextAt i Q)
      have hJ1 : HeapIs (heap.set u.addr (some (nodeOf u
          (Function.update (unlinkF P Q d i u) i (nextAt i Q)))))
          (P ++ d :: Q) (unlinkF P Q d (i + 1)) := by
        intro x hx
        by_cases hxu : x.addr = u.addr
        · have hxe : x = u := cell_eq_of_addr hnd hx hu' hxu
          subst hxe
          rw [get_set_self _ (hJ x hu')]
          congr 2
          apply nodeOf_congr
          intro j _
          by_cases hji : j = i
          · subst hji
            simp only [Function.update_same, unlinkF, hud, if_false, Nat.lt_succ_self, if_true]
            rw [after_append_of_mem _ (mem_addrs huP), nextAt_append_of_lt hu3]
          · have hlt : j < i + 1 ↔ j < i := by omega
            simp only [Function.update_noteq hji, unlinkF, hlt]
        · rw [get_set_ne _ (Ne.symm hxu), hJ x hx]
          congr 2
          apply nodeOf_congr
          intro j hj
          by_cases hxd : x.addr = d.addr
          · simp only [unlinkF, hxd, if_true]
          · by_cases hji : j = i
            · subst hji
              simp only [unlinkF, hxd, if_false, Nat.lt_succ_self, if_true, Nat.lt_irrefl]
              have hxPQ : x ∈ P ++ Q := by
                rcases mem_middle.mp hx with e | e
                · exact absurd (congrArg Cell.addr e) hxd
                · exact e
              apply nextAt_after_middle hndPQ hxPQ hxd
              rcases List.mem_append.mp hxPQ with hxP | hxQ
              · right; right
                rcases mem_after_or hxP huP hxu with h | h
                · exact ⟨u, h, hul⟩
                · exact absurd (hu3 x h) (by omega)
              · exact Or.inr (Or.inl hxQ)
            · have hlt : j < i + 1 ↔ j < i := by omega
              simp only [unlinkF, hlt]
      obtain ⟨heap1, e1, e2, e3, e4⟩ := ih (i + 1) _ (by omega) (by omega) hJ1
      refine ⟨heap1, ?_, e2, by rw [e3]; simp, ?_⟩
      · simp only [unlinkLoop, hru, Option.some_bind, hrd1, ne_eq, not_true_eq_false, if_false,
          hrdd, hw]
        exact e1
      · intro cells hl hsub
        exact e4 cells (live_set hl (hsub hu') _) hsub
    · have hie : i = d.lvl + 1 := by omega
      have hne : nextAt i (d :: Q) ≠ some d.addr := by
        simp only [nextAt, hid, if_false]
        exact nextAt_not_self hdQ
      refine ⟨heap, ?_, hie ▸ hJ, rfl, fun _ h _ => h⟩
      simp only [unlinkLoop, hru, Option.some_bind, hrd, ne_eq, hne, not_false_eq_true, if_true]

/-- After the unlink loop the heap represents the cells without `d`, whose node is
still allocated. -/
theorem unlink_repr {heap : Heap K V} {P Q : List (Cell K V)} {d : Cell K V}
    (hnd : ((P ++ d :: Q).map (fun c => c.addr)).Nodup)
    (hJ : HeapIs heap (P ++ d :: Q) (unlinkF P Q d (d.lvl + 1))) :
    Repr (heap.set d.addr none) (P ++ Q) := by
  have hdn := (nodup_of_middle hnd).1
  have hndPQ := (nodup_of_middle hnd).2
  intro x hx
  have hxd : x.addr ≠ d.addr := fun e => hdn (e ▸ mem_addrs hx)
  rw [get_set_ne _ (Ne.symm hxd), hJ x (mem_middle.mpr (Or.inr hx))]
  congr 2
  apply nodeOf_congr
  intro i _
  simp only [unlinkF, hxd, if_false]
  by_cases hil : i < d.lvl + 1
  · simp only [hil, if_true]
  · simp only [hil, if_false]
    exact nextAt_after_middle hndPQ hx hxd i (Or.inl (by omega))

/-! ## The level shrink -/

theorem shrinkLevel_spec {heap : Heap K V} {header : Nat} {ys : List (Cell K V)} :
    ∀ L : Nat, (∀ j, j ≤ L → readForward heap header j = some (nextAt j ys)) →
      (∀ c ∈ ys, c.lvl ≤ L) →
      ∃ L1, shrinkLevel heap header L = some L1 ∧ L1 ≤ L ∧ (∀ c ∈ ys, c.lvl ≤ L1) ∧
        (L1 ≠ 0 → ∃ c ∈ ys, c.lvl = L1) := by
  intro L
  induction L with
  | zero =>
    intro _ hle
    exact ⟨0, rfl, Nat.le_refl _, hle, fun h => absurd rfl h⟩
  | succ l ih =>
    intro hread hle
    rcases nextAt_cases (l + 1) ys with ⟨h1, h2⟩ | ⟨y, hy, h1, h2, _⟩
    · obtain ⟨L1, e1, e2, e3, e4⟩ :=
        ih (fun j hj => hread j (by omega)) (fun c hc => by have := h2 c hc; omega)
      refine ⟨L1, ?_, by omega, e3, e4⟩
      simp only [shrinkLevel, hread (l + 1) (Nat.le_refl _), h1, Option.some_bind, if_true]
      exact e1
    · refine ⟨l + 1, ?_, Nat.le_refl _, hle, fun _ => ⟨y, hy, ?_⟩⟩
      · simp only [shrinkLevel, hread (l + 1) (Nat.le_refl _), h1, Option.some_bind]
        simp
      · have := hle y hy
        omega

end

section

variable {K V : Type} [LinearOrder K] [Inhabited K] [Inhabited V]

/-! ## Deletion -/

theorem delete_absent_spec {s : SkipList K V} {xs : List (Cell K V)} (hinv : Inv s xs)
    (k : K) (hne : ∀ d ∈ xs, d.key ≠ k) :
    delete_element k s = some (s, [Msg.notFoundElement k]) := by
  obtain ⟨u0, upd, h1, _, _, _, _, h6⟩ := descent_inv hinv k
  have hnl : nonlows k xs = highs k xs := by
    rcases nonlows_cases hinv.sorted k with ⟨e, _⟩ | ⟨d, _, hk, hm⟩
    · exact e
    · exact absurd hk (hne d hm)
  have hka := keyAt_candidate hinv k
  rw [hnl] at h6 hka
  have hck : ¬ ((highs k xs).head?.map (fun c => c.key)) = some k := by
    cases hh : (highs k xs).head? with
    | none => simp
    | some e =>
      have he : e ∈ highs k xs := List.mem_of_mem_head? hh
      simpa using ne_of_gt (mem_highs.mp he).2
  simp only [delete_element, h1, Option.some_bind, h6, hka, hck, if_false]

theorem delete_present_spec {s : SkipList K V} {xs : List (Cell K V)} (hinv : Inv s xs)
    {d : Cell K V} (hd : d ∈ xs) :
    ∃ heap2 L1,
      delete_element d.key s =
        some ({ s with SkipListLevel := L1, heap := heap2,
                       elementCount := s.elementCount - 1 }, [Msg.deleted d.key]) ∧
      Inv { s with SkipListLevel := L1, heap := heap2, elementCount := s.elementCount - 1 }
        (dropKey d.key xs) ∧
      heap2[d.addr]? = some none := by
  obtain ⟨u0, upd, h1, _, _, h4, _, h6⟩ := descent_inv hinv d.key
  have hnl := nonlows_of_mem hinv.sorted hd
  have hdc : d ∈ hcell s :: xs := List.mem_cons_of_mem _ hd
  have hka := keyAt_candidate hinv d.key
  have hsplit := split_of_mem hinv.sorted hd
  have hcells : hcell s :: xs = (hcell s :: lows d.key xs) ++ d :: highs d.key xs := by
    rw [List.cons_append, ← hsplit]
  have hrepr0 : Repr s.heap ((hcell s :: lows d.key xs) ++ d :: highs d.key xs) := by
    rw [← hcells]; exact hinv.repr
  have hnd0 : (((hcell s :: lows d.key xs) ++ d :: highs d.key xs).map
      (fun c => c.addr)).Nodup := by
    rw [← hcells]; exact hinv.nodup
  have hdn := (nodup_of_middle hnd0).1
  have hndPQ := (nodup_of_middle hnd0).2
  have hdA : d.addr ∉ (hcell s :: lows d.key xs).map (fun c => c.addr) := by
    intro h
    exact hdn (by rw [List.map_append]; exact List.mem_append_left _ h)
  rw [hnl] at h6 hka
  have h6a : readForward s.heap u0.addr 0 = some (some d.addr) := by
    simpa [nextAt] using h6
  have hkb : keyAt s.heap (some d.addr) = some (some d.key) := by
    simpa [nextAt] using hka
  -- the heap before the loop, seen through `unlinkF`
  have hJ0 : HeapIs s.heap ((hcell s :: lows d.key xs) ++ d :: highs d.key xs)
      (unlinkF (hcell s :: lows d.key xs) (highs d.key xs) d 0) := by
    intro x hx
    rw [repr_get hrepr0 hx]
    congr 2
    apply nodeOf_congr
    intro i _
    by_cases hxd : x.addr = d.addr
    · simp only [unlinkF, hxd, if_true]
      rw [after_append_of_not_mem _ hdA]
      simp [after]
    · simp only [unlinkF, hxd, if_false, Nat.not_lt_zero]
  obtain ⟨heap1, e1, e2, e3, e4⟩ :=
    unlinkLoop_spec hnd0 (hinv.lvl_le d hd) h4 (s.SkipListLevel + 1) 0 s.heap (by omega)
      (by omega) hJ0
  have hrepr2 := unlink_repr hnd0 e2
  have hdrop : (hcell s :: lows d.key xs) ++ highs d.key xs = hcell s :: dropKey d.key xs := rfl
  have hread : ∀ j, j ≤ s.SkipListLevel →
      readForward heap1 s.header j = some (nextAt j (dropKey d.key xs)) := by
    intro j hj
    have hh : hcell s ∈ (hcell s :: lows d.key xs) ++ d :: highs d.key xs :=
      List.mem_append_left _ (List.mem_cons_self _ _)
    have hne : (hcell s).addr ≠ d.addr := fun e => hdA (e ▸ List.mem_map.mpr
      ⟨hcell s, List.mem_cons_self _ _, rfl⟩)
    have hjl : j ≤ (hcell s).lvl := le_trans hj hinv.level_le
    have := readForward_of (e2 (hcell s) hh) hjl
    rw [show s.header = (hcell s).addr from rfl, this]
    simp only [unlinkF, hne, if_false]
    have haft : after (hcell s).addr ((hcell s :: lows d.key xs) ++ highs d.key xs)
        = dropKey d.key xs := by
      simp [after, dropKey]
    have haft2 : after (hcell s).addr ((hcell s :: lows d.key xs) ++ d :: highs d.key xs)
        = lows d.key xs ++ d :: highs d.key xs := by
      simp [after]
    by_cases hjd : j < d.lvl + 1
    · simp only [hjd, if_true, haft]
    · simp only [hjd, if_false, haft2]
      rw [nextAt_skip _ _ (by omega)]
      rfl
  obtain ⟨L1, f1, f2, f3, f4⟩ := shrinkLevel_spec s.SkipListLevel hread
    (fun c hc => hinv.lvl_le c (mem_dropKey.mp hc).1)
  have hgetd := e2 d (mem_middle.mpr (Or.inl rfl))
  have hfree : free heap1 d.addr = some (heap1.set d.addr none) := by
    simp only [free, deref_of_get hgetd, Option.some_bind]
  have hlen := length_dropKey_of_present hinv.sorted d.key hd rfl
  refine ⟨heap1.set d.addr none, L1, ?_, ?_, get_set_self _ hgetd⟩
  · simp only [delete_element, h1, Option.some_bind, h6a, hkb, if_true, e1, f1, hfree]
  · refine ⟨hinv.maxLevel_nonneg, ?_, ?_, sorted_dropKey hinv.sorted _, f3, ?_, f4, ?_, ?_, ?_⟩
    · show Repr (heap1.set d.addr none) (hcell s :: dropKey d.key xs)
      rw [← hdrop]; exact hrepr2
    · show ((hcell s :: dropKey d.key xs).map (fun c => c.addr)).Nodup
      rw [← hdrop]; exact hndPQ
    · show L1 ≤ s.maxLevel.toNat
      exact le_trans f2 hinv.level_le
    · show s.elementCount - 1 = ((dropKey d.key xs).length : Int)
      rw [hinv.count, ← hlen]
      push_cast
      omega
    · intro a n ha
      show a ∈ (hcell s :: dropKey d.key xs).map (fun c => c.addr)
      have had : d.addr ≠ a := by
        intro e
        rw [← e, get_set_self _ hgetd] at ha
        cases ha
      rw [get_set_ne _ had] at ha
      have hl1 : Live heap1 (hcell s :: xs) := by
        apply e4 _ hinv.live
        rw [← hcells]; exact fun _ h => h
      have hm := hl1 a n ha
      rw [hcells] at hm
      obtain ⟨x, hx, e⟩ := List.mem_map.mp hm
      rw [← hdrop]
      rcases mem_middle.mp hx with e5 | e5
      · exact absurd (e5 ▸ e) had
      · exact List.mem_map.mpr ⟨x, e5, e⟩
    · show (dropKey d.key xs).length < (heap1.set d.addr none).length
      rw [List.length_set, e3]
      have := hinv.len
      omega

end

section

variable {K V : Type}

/-! ## Entries and the reference map -/

theorem entries_filter (p : K → Bool) (xs : List (Cell K V)) :
    entries (xs.filter (fun c => p c.key)) = (entries xs).filter (fun e => p e.1) := by
  induction xs with
  | nil => rfl
  | cons x r ih =>
    unfold entries at ih ⊢
    by_cases hp : p x.key = true
    · simp only [List.filter_cons, hp, if_true, List.map_cons, ih]
    · simp only [List.filter_cons, hp, if_false, List.map_cons, ih, Bool.false_eq_true]

theorem mem_keys_entries {k : K} {xs : List (Cell K V)} :
    k ∈ (entries xs).map Prod.fst ↔ ∃ d ∈ xs, d.key = k := by
  simp [entries]

variable [LinearOrder K]

theorem entries_putCell (c : Cell K V) (xs : List (Cell K V)) :
    entries (putCell c xs) = refInsert c.key c.value (entries xs) := by
  have h1 := entries_filter (fun a => decide (a < c.key)) xs
  have h2 := entries_filter (fun a => decide (c.key < a)) xs
  unfold putCell lows highs refInsert
  unfold entries at h1 h2 ⊢
  rw [List.map_append, List.map_cons, h1, h2]

theorem entries_dropKey (k : K) (xs : List (Cell K V)) :
    entries (dropKey k xs) = refErase k (entries xs) := by
  have h1 := entries_filter (fun a => decide (a < k)) xs
  have h2 := entries_filter (fun a => decide (k < a)) xs
  unfold dropKey lows highs refErase
  unfold entries at h1 h2 ⊢
  rw [List.map_append, h1, h2]

theorem lookup_eq_ref (k : K) (xs : List (Cell K V)) :
    lookup k xs = refLookup k (entries xs) := by
  induction xs with
  | nil => rfl
  | cons x r ih =>
    unfold lookup refLookup entries at ih ⊢
    by_cases hk : x.key = k
    · simp [List.find?_cons, hk]
    · simp only [List.map_cons, List.find?_cons, hk, decide_False]
      exact ih

theorem searchMsg_eq_ref (k : K) (xs : List (Cell K V)) :
    searchMsg k xs = refMsg k (entries xs) := by
  unfold searchMsg refMsg
  rw [lookup_eq_ref]

theorem refLookup_append_of_ne {k : K} {A : List (K × V)} (B : List (K × V))
    (h : ∀ e ∈ A, e.1 ≠ k) : refLookup k (A ++ B) = refLookup k B := by
  induction A with
  | nil => rfl
  | cons x r ih =>
    have hx : ¬ x.1 = k := h x (List.mem_cons_self _ _)
    have hr := ih (fun c hc => h c (List.mem_cons_of_mem _ hc))
    unfold refLookup at hr ⊢
    simp only [List.cons_append, List.find?_cons, hx, decide_False]
    exact hr

theorem refLookup_refInsert (k : K) (v : V) (es : List (K × V)) :
    refLookup k (refInsert k v es) = some v := by
  unfold refInsert
  rw [refLookup_append_of_ne]
  · simp [refLookup, List.find?_cons]
  · intro e he
    have := (List.mem_filter.mp he).2
    exact ne_of_lt (by simpa using this)

theorem refLookup_refErase (k : K) (es : List (K × V)) :
    refLookup k (refErase k es) = none := by
  unfold refErase
  have h := refLookup_append_of_ne (k := k)
    (A := es.filter (fun e => decide (e.1 < k)) ++ es.filter (fun e => decide (k < e.1)))
    ([] : List (K × V)) (by
      intro e he
      rcases List.mem_append.mp he with h1 | h1
      · exact ne_of_lt (by simpa using (List.mem_filter.mp h1).2)
      · exact ne_of_gt (by simpa using (List.mem_filter.mp h1).2))
  rw [List.append_nil] at h
  rw [h]
  rfl

theorem refMsg_refInsert (k : K) (v : V) (es : List (K × V)) :
    refMsg k (refInsert k v es) = Msg.foundKey k v := by
  unfold refMsg
  rw [refLookup_refInsert]

theorem refMsg_refErase (k : K) (es : List (K × V)) :
    refMsg k (refErase k es) = Msg.notFoundKey k := by
  unfold refMsg
  rw [refLookup_refErase]

theorem mem_keys_refInsert {k a : K} {v : V} {es : List (K × V)} :
    a ∈ (refInsert k v es).map Prod.fst ↔ a = k ∨ a ∈ es.map Prod.fst := by
  unfold refInsert
  simp only [List.map_append, List.map_cons, List.mem_append, List.mem_cons, List.mem_map,
    List.mem_filter, decide_eq_true_eq]
  constructor
  · rintro (⟨e, ⟨he, _⟩, rfl⟩ | h | ⟨e, ⟨he, _⟩, rfl⟩)
    · exact Or.inr ⟨e, he, rfl⟩
    · exact Or.inl h
    · exact Or.inr ⟨e, he, rfl⟩
  · rintro (h | ⟨e, he, rfl⟩)
    · exact Or.inr (Or.inl h)
    · rcases lt_trichotomy e.1 k with h1 | h1 | h1
      · exact Or.inl ⟨e, ⟨he, h1⟩, rfl⟩
      · exact Or.inr (Or.inl h1)
      · exact Or.inr (Or.inr ⟨e, ⟨he, h1⟩, rfl⟩)

theorem mem_keys_refErase {k a : K} {es : List (K × V)} :
    a ∈ (refErase k es).map Prod.fst ↔ a ≠ k ∧ a ∈ es.map Prod.fst := by
  unfold refErase
  simp only [List.map_append, List.mem_append, List.mem_map, List.mem_filter,
    decide_eq_true_eq]
  constructor
  · rintro (⟨e, ⟨he, h1⟩, rfl⟩ | ⟨e, ⟨he, h1⟩, rfl⟩)
    · exact ⟨ne_of_lt h1, e, he, rfl⟩
    · exact ⟨ne_of_gt h1, e, he, rfl⟩
  · rintro ⟨hne, e, he, rfl⟩
    rcases lt_or_gt_of_ne hne with h1 | h1
    · exact Or.inl ⟨e, ⟨he, h1⟩, rfl⟩
    · exact Or.inr ⟨e, ⟨he, h1⟩, rfl⟩

/-! ## The operations on a list that stores given entries -/

variable [Inhabited K] [Inhabited V]

theorem abs_new {maxLevel : Int} (h : 0 ≤ maxLevel) :
    ∃ s : SkipList K V, SkipList.new maxLevel = some s ∧ Abs s [] ∧ s.maxLevel = maxLevel := by
  obtain ⟨s, h1, h2, h3⟩ := new_spec (K := K) (V := V) h
  exact ⟨s, h1, ⟨[], h2, rfl⟩, h3⟩

theorem abs_size {s : SkipList K V} {es : List (K × V)} (h : Abs s es) :
    s.size = es.length := by
  obtain ⟨xs, hinv, he⟩ := h
  rw [← he]
  simp [SkipList.size, hinv.count, entries]

theorem abs_sorted {s : SkipList K V} {es : List (K × V)} (h : Abs s es) :
    (es.map Prod.fst).Pairwise (fun a b => a < b) := by
  obtain ⟨xs, hinv, he⟩ := h
  rw [← he]
  unfold entries
  rw [List.map_map, List.pairwise_map]
  exact hinv.sorted

theorem abs_search {s : SkipList K V} {es : List (K × V)} (h : Abs s es) (k : K) :
    search_element k s = some (false, refMsg k es) := by
  obtain ⟨xs, hinv, he⟩ := h
  rw [← he, ← searchMsg_eq_ref]
  exact search_spec hinv k

theorem abs_candidate_found {s : SkipList K V} {es : List (K × V)} (h : Abs s es)
    {k : K} {v : V} (hl : refLookup k es = some v) :
    ∃ p n, searchCandidate k s = some (some p) ∧ s.heap[p]? = some (some n) ∧
      n.key = k ∧ n.value = v := by
  obtain ⟨xs, hinv, he⟩ := h
  rw [← he, ← lookup_eq_ref] at hl
  rcases nonlows_cases hinv.sorted k with ⟨_, hne⟩ | ⟨d, e, hk, hm⟩
  · rw [lookup_of_ne hne] at hl
    cases hl
  · have hl2 : lookup k xs = some d.value := by
      rw [← hk]; exact lookup_eq_some_of_mem hinv.sorted hm
    rw [hl2] at hl
    refine ⟨d.addr, _, ?_, repr_get hinv.repr (List.mem_cons_of_mem _ hm), hk,
      Option.some.inj hl⟩
    rw [searchCandidate_spec hinv k, e]
    simp [nextAt]

theorem abs_insert {s : SkipList K V} {es : List (K × V)} (h : Abs s es)
    (k : K) (v : V) (rng : RandSrc) :
    ∃ ret rng1 t out, insert_element k v rng s = some (ret, rng1, t, out) ∧
      Abs t (refInsert k v es) ∧ t.maxLevel = s.maxLevel ∧
      (ret = true ↔ k ∉ es.map Prod.fst) ∧
      (ret = true → t.size = s.size + 1) ∧
      (ret = false → t.size = s.size ∧ rng1 = rng) := by
  obtain ⟨xs, hinv, he⟩ := h
  by_cases hk : ∃ d ∈ xs, d.key = k
  · obtain ⟨d, hd, hdk⟩ := hk
    obtain ⟨n, _, h2, h3⟩ := insert_dup_spec hinv hd v rng
    rw [hdk] at h2
    refine ⟨false, rng, _, [], h2, ⟨_, h3, ?_⟩, rfl, ?_, ?_, fun _ => ⟨rfl, rfl⟩⟩
    · rw [entries_putCell, he]
      show refInsert d.key v es = refInsert k v es
      rw [hdk]
    · rw [← he]
      constructor
      · intro hf; cases hf
      · intro hn
        exact absurd (mem_keys_entries.mpr ⟨d, hd, hdk⟩) hn
    · intro hf; cases hf
  · have hne : ∀ d ∈ xs, d.key ≠ k := fun d hd e => hk ⟨d, hd, e⟩
    obtain ⟨heap2, h2, h3⟩ := insert_new_spec hinv k v rng hne
    refine ⟨true, _, _, _, h2, ⟨_, h3, ?_⟩, rfl, ?_, fun _ => rfl, ?_⟩
    · rw [entries_putCell, he]
    · rw [← he]
      constructor
      · intro _ hm
        exact hk (mem_keys_entries.mp hm)
      · intro _; rfl
    · intro hf; cases hf

theorem abs_delete {s : SkipList K V} {es : List (K × V)} (h : Abs s es) (k : K) :
    ∃ t out, delete_element k s = some (t, out) ∧
      Abs t (refErase k es) ∧ t.maxLevel = s.maxLevel ∧
      (k ∈ es.map Prod.fst → t.size = s.size - 1 ∧ out = [Msg.deleted k]) ∧
      (k ∉ es.map Prod.fst → t = s ∧ out = [Msg.notFoundElement k]) := by
  obtain ⟨xs, hinv, he⟩ := h
  by_cases hk : ∃ d ∈ xs, d.key = k
  · obtain ⟨d, hd, hdk⟩ := hk
    obtain ⟨heap2, L1, h2, h3, _⟩ := delete_present_spec hinv hd
    rw [hdk] at h2 h3
    refine ⟨_, _, h2, ⟨_, h3, ?_⟩, rfl, fun _ => ⟨rfl, rfl⟩, ?_⟩
    · rw [entries_dropKey, he]
    · intro hn
      rw [← he] at hn
      exact absurd (mem_keys_entries.mpr ⟨d, hd, hdk⟩) hn
  · have hne : ∀ d ∈ xs, d.key ≠ k := fun d hd e => hk ⟨d, hd, e⟩
    have h2 := delete_absent_spec hinv k hne
    refine ⟨s, _, h2, ⟨xs, hinv, ?_⟩, rfl, ?_, fun _ => ⟨rfl, rfl⟩⟩
    · rw [← he, ← entries_dropKey, dropKey_of_absent hinv.sorted k hne]
    · intro hm
      rw [← he] at hm
      exact absurd (mem_keys_entries.mp hm) hk

theorem reachable_abs {s : SkipList K V} (h : Reachable s) : ∃ es, Abs s es := by
  induction h with
  | fresh maxLevel s hm hs =>
    obtain ⟨s1, h1, h2, _⟩ := abs_new (K := K) (V := V) hm
    rw [hs] at h1
    cases h1
    exact ⟨[], h2⟩
  | insert s t key value rng rng1 ret out _ hstep ih =>
    obtain ⟨es, habs⟩ := ih
    obtain ⟨ret1, g1, t1, o1, h1, h2, _⟩ := abs_insert habs key value rng
    rw [hstep] at h1
    cases h1
    exact ⟨_, h2⟩
  | delete s t key out _ hstep ih =>
    obtain ⟨es, habs⟩ := ih
    obtain ⟨t1, o1, h1, h2, _⟩ := abs_delete habs key
    rw [hstep] at h1
    cases h1
    exact ⟨_, h2⟩

end

section

variable {K V : Type}

/-! ## The chain of a level -/

theorem after_suffix (a : Nat) (A : List (Cell K V)) : after a A <:+ A := by
  induction A with
  | nil => exact List.suffix_refl _
  | cons c r ih =>
    by_cases hc : c.addr = a
    · simp only [after, hc, if_true]
      exact List.suffix_cons _ _
    · simp only [after, hc, if_false]
      exact List.IsSuffix.trans ih (List.suffix_cons _ _)

theorem after_of_suffix {cells A : List (Cell K V)}
    (hnd : (cells.map (fun c => c.addr)).Nodup) (hs : A <:+ cells) {y : Cell K V}
    (hy : y ∈ A) : after y.addr cells = after y.addr A := by
  obtain ⟨B, hB⟩ := hs
  rw [← hB] at hnd ⊢
  exact after_append_of_not_mem _ (not_mem_left_of_right hnd hy)

theorem filter_level_cases (i : Nat) {A : List (Cell K V)}
    (hnd : (A.map (fun c => c.addr)).Nodup) :
    (nextAt i A = none ∧ A.filter (fun c => decide (i ≤ c.lvl)) = []) ∨
    (∃ y ∈ A, nextAt i A = some y.addr ∧ i ≤ y.lvl ∧
      A.filter (fun c => decide (i ≤ c.lvl))
        = y :: (after y.addr A).filter (fun c => decide (i ≤ c.lvl))) := by
  induction A with
  | nil => left; exact ⟨rfl, rfl⟩
  | cons c r ih =>
    have hcons : c.addr ∉ r.map (fun c => c.addr) ∧ (r.map (fun c => c.addr)).Nodup :=
      List.nodup_cons.mp hnd
    by_cases hc : i ≤ c.lvl
    · right
      refine ⟨c, List.mem_cons_self _ _, by simp [nextAt, hc], hc, ?_⟩
      simp [List.filter_cons, hc, after]
    · rcases ih hcons.2 with ⟨h1, h2⟩ | ⟨y, hy, h1, h2, h3⟩
      · left
        exact ⟨by simp [nextAt, hc, h1], by simp [List.filter_cons, hc, h2]⟩
      · right
        have hcy : ¬ c.addr = y.addr := fun e => hcons.1 (e ▸ mem_addrs hy)
        refine ⟨y, List.mem_cons_of_mem _ hy, by simp [nextAt, hc, h1], h2, ?_⟩
        simp only [List.filter_cons, hc, decide_False, Bool.false_eq_true, if_false, after, hcy]
        exact h3

theorem chainFrom_none (heap : Heap K V) (i fuel : Nat) :
    chainFrom heap i fuel none = some [] := by
  cases fuel <;> rfl

theorem chainFrom_spec {heap : Heap K V} {cells : List (Cell K V)}
    (hrepr : Repr heap cells) (hnd : (cells.map (fun c => c.addr)).Nodup) (i : Nat) :
    ∀ (fuel : Nat) (A : List (Cell K V)), A <:+ cells → A.length ≤ fuel →
      chainFrom heap i fuel (nextAt i A) =
        some ((A.filter (fun c => decide (i ≤ c.lvl))).map
          (fun c => (c.addr, nodeOf c (fun j => nextAt j (after c.addr cells))))) := by
  intro fuel
  induction fuel with
  | zero =>
    intro A _ hlen
    have hA : A = [] := List.length_eq_zero.mp (Nat.le_zero.mp hlen)
    subst hA
    rfl
  | succ fuel ih =>
    intro A hs hlen
    have hndA : (A.map (fun c => c.addr)).Nodup := by
      obtain ⟨B, hB⟩ := hs
      rw [← hB, List.map_append] at hnd
      exact (List.nodup_append.mp hnd).2.1
    rcases filter_level_cases i hndA with ⟨h1, h2⟩ | ⟨y, hy, h1, h2, h3⟩
    · rw [h1, h2, chainFrom_none]
      rfl
    · have hyc : y ∈ cells := by
        obtain ⟨B, hB⟩ := hs
        rw [← hB]
        exact List.mem_append_right _ hy
      have hd := deref_of_get (repr_get hrepr hyc)
      have hlt : (after y.addr A).length ≤ fuel := by
        have := after_length_lt hy rfl
        omega
      have hrec := ih (after y.addr A) (List.IsSuffix.trans (after_suffix _ _) hs) hlt
      have hae := after_of_suffix hnd hs hy
      rw [h1, h3]
      simp only [chainFrom, hd, Option.some_bind, nodeOf_forward_get y _ h2, Option.join,
        List.map_cons, id]
      rw [hae, hrec]
      rfl

theorem filter_level_zero (xs : List (Cell K V)) :
    xs.filter (fun c => decide (0 ≤ c.lvl)) = xs := by
  rw [List.filter_eq_self]
  intro c _
  simp

variable [LinearOrder K] [Inhabited K] [Inhabited V]

theorem levelChain_spec {s : SkipList K V} {xs : List (Cell K V)} (hinv : Inv s xs)
    {i : Nat} (hi : i ≤ s.maxLevel.toNat) :
    levelChain s i =
      some ((xs.filter (fun c => decide (i ≤ c.lvl))).map
        (fun c => (c.addr, nodeOf c (fun j => nextAt j (after c.addr (hcell s :: xs)))))) := by
  have hrd : readForward s.heap s.header i = some (nextAt i xs) := by
    have := readForward_repr hinv.repr (List.mem_cons_self (hcell s) xs) (i := i) hi
    simpa [after, hcell] using this
  have hlen : xs.length ≤ descentFuel s := Nat.le_of_lt hinv.len
  simp only [levelChain, hrd, Option.some_bind]
  exact chainFrom_spec hinv.repr hinv.nodup i (descentFuel s) xs (List.suffix_cons _ _) hlen

theorem levelKeys_spec {s : SkipList K V} {xs : List (Cell K V)} (hinv : Inv s xs)
    {i : Nat} (hi : i ≤ s.maxLevel.toNat) :
    levelKeys s i =
      some ((xs.filter (fun c => decide (i ≤ c.lvl))).map (fun c => c.key)) := by
  simp only [levelKeys, levelChain_spec hinv hi, Option.map_some', List.map_map]
  rfl

theorem abs_level0 {s : SkipList K V} {es : List (K × V)} (h : Abs s es) :
    levelKeys s 0 = some (es.map Prod.fst) := by
  obtain ⟨xs, hinv, he⟩ := h
  rw [levelKeys_spec hinv (Nat.zero_le _), filter_level_zero, ← he]
  simp [entries]

end

section

variable {K V : Type} [LinearOrder K]

/-! ## Sequences of operations -/

theorem length_refInsert_of_absent {k : K} (v : V) {es : List (K × V)}
    (h : k ∉ es.map Prod.fst) : (refInsert k v es).length = es.length + 1 := by
  have hp : ∀ l : List (K × V), k ∉ l.map Prod.fst →
      (l.filter (fun e => decide (e.1 < k))).length
        + (l.filter (fun e => decide (k < e.1))).length = l.length := by
    intro l
    induction l with
    | nil => intro _; rfl
    | cons x r ih =>
      intro hk
      simp only [List.map_cons, List.mem_cons, not_or] at hk
      have hr := ih hk.2
      rcases lt_or_gt_of_ne (Ne.symm hk.1) with h1 | h1
      · have h2 : ¬ k < x.1 := not_lt_of_gt h1
        simp only [List.filter_cons, h1, h2, decide_True, decide_False, if_true,
          Bool.false_eq_true, if_false, List.length_cons]
        omega
      · have h2 : ¬ x.1 < k := not_lt_of_gt h1
        simp only [List.filter_cons, h1, h2, decide_True, decide_False, if_true,
          Bool.false_eq_true, if_false, List.length_cons]
        omega
  have := hp es h
  simp only [refInsert, List.length_append, List.length_cons]
  omega

theorem length_refInsertAll :
    ∀ (kvs : List (K × V)) (es : List (K × V)),
      (kvs.map Prod.fst).Nodup → (∀ k ∈ kvs.map Prod.fst, k ∉ es.map Prod.fst) →
      (refInsertAll kvs es).length = es.length + kvs.length := by
  intro kvs
  induction kvs with
  | nil => intro es _ _; rfl
  | cons p rest ih =>
    intro es hnd hdis
    have hcons : p.1 ∉ rest.map Prod.fst ∧ (rest.map Prod.fst).Nodup := List.nodup_cons.mp hnd
    have hp : p.1 ∉ es.map Prod.fst := hdis p.1 (List.mem_cons_self _ _)
    have hrec := ih (refInsert p.1 p.2 es) hcons.2 (by
      intro k hk hm
      rcases mem_keys_refInsert.mp hm with e | e
      · exact hcons.1 (e ▸ hk)
      · exact hdis k (List.mem_cons_of_mem _ hk) e)
    show (refInsertAll rest (refInsert p.1 p.2 es)).length = _
    rw [hrec, length_refInsert_of_absent p.2 hp, List.length_cons]
    omega

variable [Inhabited K] [Inhabited V]

theorem insertAll_abs :
    ∀ (kvs : List (K × V)) (s : SkipList K V) (es : List (K × V)) (rng : RandSrc),
      Abs s es →
      ∃ g t, insertAll kvs rng s = some (g, t) ∧ Abs t (refInsertAll kvs es) ∧
        t.maxLevel = s.maxLevel := by
  intro kvs
  induction kvs with
  | nil => intro s es rng h; exact ⟨rng, s, rfl, h, rfl⟩
  | cons p rest ih =>
    intro s es rng h
    obtain ⟨ret, g1, t1, o1, h1, h2, h3, _⟩ := abs_insert h p.1 p.2 rng
    obtain ⟨g, t, e1, e2, e3⟩ := ih t1 _ g1 h2
    refine ⟨g, t, ?_, e2, by rw [e3, h3]⟩
    obtain ⟨k, v⟩ := p
    simp only [insertAll, h1, Option.some_bind]
    exact e1

theorem reachable_freshList3 : Reachable freshList3 :=
  Reachable.fresh 3 freshList3 (by decide) rfl

theorem level_draw_zero : get_random_level 3 (fun _ => 0) = (0, fun _ => 0) := by
  rw [get_random_level_spec (by decide)]
  rfl

theorem reachable_oneList : Reachable oneList := by
  refine Reachable.insert freshList3 oneList 1 "a" (fun _ => 0) (fun _ => 0) true
    [Msg.inserted 1 "a"] reachable_freshList3 ?_
  unfold insert_element
  simp only [show freshList3.maxLevel = 3 from rfl, level_draw_zero]
  rfl

theorem reachable_twoList : Reachable twoList := by
  refine Reachable.insert oneList twoList 2 "b" (fun _ => 0) (fun _ => 0) true
    [Msg.inserted 2 "b"] reachable_oneList ?_
  unfold insert_element
  simp only [show oneList.maxLevel = 3 from rfl, level_draw_zero]
  rfl

theorem reachable_tallList : Reachable tallList := by
  have h : ∃ g, insert_element 2 "b" flipsTwo oneList
      = some (true, g, tallList, [Msg.inserted 2 "b"]) := by
    unfold insert_element
    simp only [show oneList.maxLevel = 3 from rfl,
      get_random_level_spec (show (0 : Int) ≤ 3 by decide)]
    exact ⟨_, rfl⟩
  obtain ⟨g, hg⟩ := h
  exact Reachable.insert oneList tallList 2 "b" flipsTwo g true _ reachable_oneList hg

theorem reachable_towerList : Reachable towerList := by
  have h : ∃ g, insert_element 3 "c" flipsOne tallList
      = some (true, g, towerList, [Msg.inserted 3 "c"]) := by
    unfold insert_element
    simp only [show tallList.maxLevel = 3 from rfl,
      get_random_level_spec (show (0 : Int) ≤ 3 by decide)]
    exact ⟨_, rfl⟩
  obtain ⟨g, hg⟩ := h
  exact Reachable.insert tallList towerList 3 "c" flipsOne g true _ reachable_tallList hg

end

section

variable {K V : Type} [LinearOrder K] [Inhabited K] [Inhabited V]

/-! ## Properties of the specification -/

/-- On every reachable list `insert_element k v` returns, and `search_element k` on the
list it leaves lands on a node with key `k` and value `v`, prints the "Found key" line
with `v`, and returns `false`. -/
theorem insert_then_search_result (s : SkipList K V) (h : Reachable s) (k : K) (v : V)
    (rng : RandSrc) :
    ∃ ret rng1 t out p n, insert_element k v rng s = some (ret, rng1, t, out) ∧
      searchCandidate k t = some (some p) ∧ t.heap[p]? = some (some n) ∧
      n.key = k ∧ n.value = v ∧
      search_element k t = some (false, Msg.foundKey k v) := by
  obtain ⟨es, habs⟩ := reachable_abs h
  obtain ⟨ret, g, t, out, h1, h2, _⟩ := abs_insert habs k v rng
  obtain ⟨p, n, e1, e2, e3, e4⟩ := abs_candidate_found h2 (refLookup_refInsert k v es)
  refine ⟨ret, g, t, out, p, n, h1, e1, e2, e3, e4, ?_⟩
  rw [abs_search h2 k, refMsg_refInsert]

/-- C1 (round trip), the source evaluated: on a fresh list of `maxLevel` 3,
`insert_element(1, "a")` returns `true` and leaves `oneList`; `search_element(1)` then
lands on the node at address 1, which has key 1 and value "a", and prints
"Found key: 1,value: a", but the value it returns is `false`, not `true`. -/
theorem C1_search_found_returns_false :
    insert_element 1 "a" (fun _ => 0) freshList3
      = some (true, fun _ => 0, oneList, [Msg.inserted 1 "a"]) ∧
    searchCandidate 1 oneList = some (some 1) ∧
    oneList.heap[1]? = some (some ⟨1, "a", 0, [none]⟩) ∧
    search_element 1 oneList = some (false, Msg.foundKey 1 "a") ∧
    (search_element 1 oneList).map Prod.fst ≠ some true := by
  refine ⟨?_, by decide, by decide, by decide, by decide⟩
  unfold insert_element
  simp only [show freshList3.maxLevel = 3 from rfl, level_draw_zero]
  rfl

/-- C2 (duplicate update): on every reachable list, after `insert_element k v1` a second
`insert_element k v2` (any random sources) returns `false`, leaves `size()` as it was
after the first insert, and `search_element k` then reports the value `v2`. -/
theorem C2_duplicate_update (s : SkipList K V) (h : Reachable s) (k : K) (v1 v2 : V)
    (rng rng2 : RandSrc) :
    ∃ ret1 g1 t1 out1 g2 t2 out2,
      insert_element k v1 rng s = some (ret1, g1, t1, out1) ∧
      insert_element k v2 rng2 t1 = some (false, g2, t2, out2) ∧
      (search_element k t2).map Prod.snd = some (Msg.foundKey k v2) ∧
      t2.size = t1.size := by
  obtain ⟨es, habs⟩ := reachable_abs h
  obtain ⟨ret1, g1, t1, out1, h1, h2, _⟩ := abs_insert habs k v1 rng
  obtain ⟨ret2, g2, t2, out2, e1, e2, _, e4, _, e6⟩ := abs_insert h2 k v2 rng2
  have hmem : k ∈ (refInsert k v1 es).map Prod.fst := mem_keys_refInsert.mpr (Or.inl rfl)
  have hret : ret2 = false := by
    cases ret2 with
    | false => rfl
    | true => exact absurd hmem (e4.mp rfl)
  subst hret
  refine ⟨ret1, g1, t1, out1, g2, t2, out2, h1, e1, ?_, (e6 rfl).1⟩
  rw [abs_search e2 k, refMsg_refInsert]
  rfl

theorem C2_duplicate_update_witness :
    Reachable freshList3 ∧
    ∃ ret1 g1 t1 out1 g2 t2 out2,
      insert_element 5 "five" (fun _ => 1) freshList3 = some (ret1, g1, t1, out1) ∧
      insert_element 5 "cinq" (fun _ => 0) t1 = some (false, g2, t2, out2) ∧
      (search_element 5 t2).map Prod.snd = some (Msg.foundKey 5 "cinq") ∧
      t2.size = t1.size :=
  ⟨reachable_freshList3,
    C2_duplicate_update freshList3 reachable_freshList3 5 "five" "cinq" (fun _ => 1)
      (fun _ => 0)⟩

/-- C3 (delete removes): on every reachable list, after `insert_element k v` and
`delete_element k`, `search_element k` reports "Not Found", no node of the level-0
chain has key `k`, and `size()` is one less than right after the insert. -/
theorem C3_delete_removes (s : SkipList K V) (h : Reachable s) (k : K) (v : V)
    (rng : RandSrc) :
    ∃ ret g t1 out1 t2 out2 ks,
      insert_element k v rng s = some (ret, g, t1, out1) ∧
      delete_element k t1 = some (t2, out2) ∧
      (search_element k t2).map Prod.snd = some (Msg.notFoundKey k) ∧
      levelKeys t2 0 = some ks ∧ k ∉ ks ∧
      t2.size = t1.size - 1 := by
  obtain ⟨es, habs⟩ := reachable_abs h
  obtain ⟨ret, g, t1, out1, h1, h2, _⟩ := abs_insert habs k v rng
  obtain ⟨t2, out2, e1, e2, _, e4, _⟩ := abs_delete h2 k
  have hmem : k ∈ (refInsert k v es).map Prod.fst := mem_keys_refInsert.mpr (Or.inl rfl)
  refine ⟨ret, g, t1, out1, t2, out2, _, h1, e1, ?_, abs_level0 e2, ?_, (e4 hmem).1⟩
  · rw [abs_search e2 k, refMsg_refErase]
    rfl
  · intro hk
    exact (mem_keys_refErase.mp hk).1 rfl

theorem C3_delete_removes_witness :
    Reachable freshList3 ∧
    ∃ ret g t1 out1 t2 out2 ks,
      insert_element 5 "five" (fun _ => 1) freshList3 = some (ret, g, t1, out1) ∧
      delete_element 5 t1 = some (t2, out2) ∧
      (search_element 5 t2).map Prod.snd = some (Msg.notFoundKey 5) ∧
      levelKeys t2 0 = some ks ∧ (5 : Int) ∉ ks ∧
      t2.size = t1.size - 1 :=
  ⟨reachable_freshList3,
    C3_delete_removes freshList3 reachable_freshList3 5 "five" (fun _ => 1)⟩

/-- C4 (return value of insert): on every reachable list, `insert_element k v` returns
`true` exactly when no node of the level-0 chain has key `k`, and then `size()` grows by
one; on an empty list it returns `true` and leaves `size() = 1`. -/
theorem C4_insert_return (s : SkipList K V) (h : Reachable s) (k : K) (v : V)
    (rng : RandSrc) :
    ∃ ks ret g t out,
      levelKeys s 0 = some ks ∧
      insert_element k v rng s = some (ret, g, t, out) ∧
      (ret = true ↔ k ∉ ks) ∧
      (ret = true → t.size = s.size + 1) ∧
      (ks = [] → ret = true ∧ t.size = 1) := by
  obtain ⟨es, habs⟩ := reachable_abs h
  obtain ⟨ret, g, t, out, h1, _, _, h4, h5, _⟩ := abs_insert habs k v rng
  refine ⟨_, ret, g, t, out, abs_level0 habs, h1, h4, h5, ?_⟩
  intro hnil
  have hret : ret = true := h4.mpr (by rw [hnil]; exact List.not_mem_nil _)
  have hes : es = [] := List.map_eq_nil_iff.mp hnil
  refine ⟨hret, ?_⟩
  rw [h5 hret, abs_size habs, hes]
  rfl

theorem C4_insert_return_witness :
    Reachable freshList3 ∧
    ∃ ks ret g t out,
      levelKeys freshList3 0 = some ks ∧
      insert_element 5 "five" (fun _ => 1) freshList3 = some (ret, g, t, out) ∧
      (ret = true ↔ (5 : Int) ∉ ks) ∧
      (ret = true → t.size = freshList3.size + 1) ∧
      (ks = [] → ret = true ∧ t.size = 1) :=
  ⟨reachable_freshList3,
    C4_insert_return freshList3 reachable_freshList3 5 "five" (fun _ => 1)⟩

/-- C5 (delete of an absent key): on every reachable list, the empty one included, when
no node of the level-0 chain has key `k`, `delete_element k` prints "Not found element"
and returns the list unchanged: same heap (every forward link and value), same
`SkipListLevel`, same `elementCount`. -/
theorem C5_delete_absent (s : SkipList K V) (h : Reachable s) (k : K) :
    ∃ ks, levelKeys s 0 = some ks ∧
      (k ∉ ks → delete_element k s = some (s, [Msg.notFoundElement k])) := by
  obtain ⟨es, habs⟩ := reachable_abs h
  obtain ⟨t, out, h1, _, _, _, h5⟩ := abs_delete habs k
  refine ⟨_, abs_level0 habs, ?_⟩
  intro hk
  obtain ⟨e1, e2⟩ := h5 hk
  rw [h1, e1, e2]

theorem C5_delete_absent_witness :
    Reachable freshList3 ∧
    ∃ ks, levelKeys freshList3 0 = some ks ∧
      ((7 : Int) ∉ ks → delete_element 7 freshList3
        = some (freshList3, [Msg.notFoundElement 7])) :=
  ⟨reachable_freshList3, C5_delete_absent freshList3 reachable_freshList3 7⟩

/-- C6 (size after distinct inserts): from a fresh list with `maxLevel >= 0`, inserting
pairs with pairwise distinct keys, for any random source, returns and leaves `size()`
equal to the number of pairs. -/
theorem C6_size_after_inserts (maxLevel : Int) (hm : 0 ≤ maxLevel) (kvs : List (K × V))
    (hd : (kvs.map Prod.fst).Nodup) (rng : RandSrc) :
    ∃ s0 g t, SkipList.new maxLevel = some s0 ∧ insertAll kvs rng s0 = some (g, t) ∧
      t.size = kvs.length := by
  obtain ⟨s0, h1, h2, _⟩ := abs_new (K := K) (V := V) hm
  obtain ⟨g, t, e1, e2, _⟩ := insertAll_abs kvs s0 [] rng h2
  refine ⟨s0, g, t, h1, e1, ?_⟩
  rw [abs_size e2, length_refInsertAll kvs [] hd (fun _ _ hk => by cases hk)]
  simp

theorem C6_size_after_inserts_witness :
    (0 : Int) ≤ 3 ∧ (([(2, "b"), (1, "a")] : List (Int × String)).map Prod.fst).Nodup ∧
    ∃ s0 g t, SkipList.new 3 = some s0 ∧
      insertAll ([(2, "b"), (1, "a")] : List (Int × String)) (fun _ => 1) s0 = some (g, t) ∧
      t.size = ([(2, "b"), (1, "a")] : List (Int × String)).length :=
  ⟨by decide, by decide,
    C6_size_after_inserts 3 (by decide) [(2, "b"), (1, "a")] (by decide) (fun _ => 1)⟩

/-- C7 (ordering invariant): in every reachable list, for every level `i` from 0 to
`maxLevel`, the chain followed from `header` through `forward[i]` ends and its keys are
strictly increasing; the level-0 chain in particular is strictly increasing and has no
duplicate key. -/
theorem C7_ordering (s : SkipList K V) (h : Reachable s) (i : Nat)
    (hi : (i : Int) ≤ s.maxLevel) :
    ∃ ks ks0, levelKeys s i = some ks ∧ ks.Pairwise (fun a b => a < b) ∧
      levelKeys s 0 = some ks0 ∧ ks0.Pairwise (fun a b => a < b) ∧ ks0.Nodup := by
  obtain ⟨es, xs, hinv, he⟩ := reachable_abs h
  have hi1 : i ≤ s.maxLevel.toNat := by omega
  have hsorted : ∀ j : Nat,
      ((xs.filter (fun c => decide (j ≤ c.lvl))).map (fun c => c.key)).Pairwise
        (fun a b => a < b) := by
    intro j
    rw [List.pairwise_map]
    exact List.Pairwise.sublist (List.filter_sublist _) hinv.sorted
  refine ⟨_, _, levelKeys_spec hinv hi1, hsorted i, levelKeys_spec hinv (Nat.zero_le _),
    hsorted 0, ?_⟩
  exact List.Pairwise.imp (fun hab => ne_of_lt hab) (hsorted 0)

theorem C7_ordering_witness :
    Reachable towerList ∧ ((1 : Nat) : Int) ≤ towerList.maxLevel ∧
    levelKeys towerList 1 = some [2, 3] ∧ levelKeys towerList 0 = some [1, 2, 3] ∧
    ∃ ks ks0, levelKeys towerList 1 = some ks ∧ ks.Pairwise (fun a b => a < b) ∧
      levelKeys towerList 0 = some ks0 ∧ ks0.Pairwise (fun a b => a < b) ∧ ks0.Nodup :=
  ⟨reachable_towerList, by decide, by decide, by decide,
    C7_ordering towerList reachable_towerList 1 (by decide)⟩

/-- C8 (tower invariant): in every reachable list, for levels `j < i <= maxLevel`, the
chain of level `i` is a subsequence of the chain of level `j`, so each of its nodes
occurs there; the level-0 chain holds every live node other than the header, and as
many nodes as `size()`. -/
theorem C8_tower (s : SkipList K V) (h : Reachable s) (i j : Nat) (hji : j < i)
    (hi : (i : Int) ≤ s.maxLevel) :
    ∃ ci cj c0, levelChain s i = some ci ∧ levelChain s j = some cj ∧
      levelChain s 0 = some c0 ∧ ci.Sublist cj ∧ (∀ e ∈ ci, e ∈ cj) ∧
      (∀ a n, a ≠ s.header → s.heap[a]? = some (some n) → (a, n) ∈ c0) ∧
      (c0.length : Int) = s.size := by
  obtain ⟨es, xs, hinv, he⟩ := reachable_abs h
  have hi1 : i ≤ s.maxLevel.toNat := by omega
  have hsub : (xs.filter (fun c => decide (i ≤ c.lvl))).Sublist
      (xs.filter (fun c => decide (j ≤ c.lvl))) := by
    have e : xs.filter (fun c => decide (i ≤ c.lvl))
        = (xs.filter (fun c => decide (j ≤ c.lvl))).filter (fun c => decide (i ≤ c.lvl)) := by
      rw [List.filter_filter]
      apply List.filter_congr
      intro c _
      by_cases hc : i ≤ c.lvl
      · have hj : j ≤ c.lvl := by omega
        simp [hc, hj]
      · simp [hc]
    rw [e]
    exact List.filter_sublist _
  have hsub2 := List.Sublist.map
    (fun c : Cell K V => (c.addr, nodeOf c (fun j => nextAt j (after c.addr (hcell s :: xs)))))
    hsub
  refine ⟨_, _, _, levelChain_spec hinv hi1, levelChain_spec hinv (by omega),
    levelChain_spec hinv (Nat.zero_le _), hsub2, fun e he1 => hsub2.subset he1, ?_, ?_⟩
  · intro a n ha hget
    have hm := hinv.live a n hget
    obtain ⟨x, hx, hxa⟩ := List.mem_map.mp hm
    rcases List.mem_cons.mp hx with e1 | e1
    · exact absurd (by rw [← hxa, e1]; rfl) ha
    · have hn := repr_get hinv.repr hx
      have hxa1 : x.addr = a := hxa
      rw [hxa1, hget] at hn
      rw [filter_level_zero]
      refine List.mem_map.mpr ⟨x, e1, ?_⟩
      rw [hxa1, Option.some.inj (Option.some.inj hn)]
  · rw [filter_level_zero, List.length_map]
    exact hinv.count.symm

theorem C8_tower_witness :
    Reachable towerList ∧ (1 : Nat) < 2 ∧ ((2 : Nat) : Int) ≤ towerList.maxLevel ∧
    (levelChain towerList 2).map (fun c => c.map Prod.fst) = some [2] ∧
    (levelChain towerList 1).map (fun c => c.map Prod.fst) = some [2, 3] ∧
    (levelChain towerList 0).map (fun c => c.map Prod.fst) = some [1, 2, 3] ∧
    ∃ ci cj c0, levelChain towerList 2 = some ci ∧ levelChain towerList 1 = some cj ∧
      levelChain towerList 0 = some c0 ∧ ci.Sublist cj ∧ (∀ e ∈ ci, e ∈ cj) ∧
      (∀ a n, a ≠ towerList.header → towerList.heap[a]? = some (some n) → (a, n) ∈ c0) ∧
      (c0.length : Int) = towerList.size :=
  ⟨reachable_towerList, by decide, by decide, by decide, by decide, by decide,
    C8_tower towerList reachable_towerList 2 1 (by decide) (by decide)⟩

end

section

/-! ## The level draw -/

theorem leadingFlips_min : ∀ (m n : Nat) (rng : RandSrc), m ≤ n →
    min (leadingFlips n rng) m = leadingFlips m rng := by
  intro m
  induction m with
  | zero => intro n rng _; simp [leadingFlips]
  | succ m ih =>
    intro n rng hn
    obtain ⟨n1, rfl⟩ : ∃ n1, n = n1 + 1 := ⟨n - 1, by omega⟩
    by_cases h : rng 0 % 2 ≠ 0
    · rw [leadingFlips, if_pos h, leadingFlips, if_pos h,
        ← ih n1 (fun i => rng (i + 1)) (by omega)]
      omega
    · rw [leadingFlips, if_neg h, leadingFlips, if_neg h]
      simp

theorem le_leadingFlips_iff : ∀ (m k : Nat) (rng : RandSrc), k ≤ m →
    (k ≤ leadingFlips m rng ↔ ∀ j, j < k → rng j % 2 ≠ 0) := by
  intro m
  induction m with
  | zero =>
    intro k rng hk
    have hk0 : k = 0 := by omega
    subst hk0
    simp
  | succ m ih =>
    intro k rng hk
    cases k with
    | zero => simp
    | succ k =>
      by_cases h : rng 0 % 2 ≠ 0
      · rw [leadingFlips, if_pos h]
        have hrec := ih k (fun i => rng (i + 1)) (by omega)
        constructor
        · intro hle j hj
          cases j with
          | zero => exact h
          | succ j => exact hrec.mp (by omega) j (by omega)
        · intro hall
          have := hrec.mpr (fun j hj => hall (j + 1) (by omega))
          omega
      · rw [leadingFlips, if_neg h]
        constructor
        · intro hle; omega
        · intro hall
          exact absurd (hall 0 (by omega)) h

theorem flipsThen_odd {k : Nat} (f : Fin k → Bool) (rest : RandSrc) {j : Nat} (hj : j < k) :
    flipsThen k f rest j % 2 ≠ 0 ↔ f ⟨j, hj⟩ = true := by
  unfold flipsThen
  rw [dif_pos hj]
  cases f ⟨j, hj⟩ <;> simp

/-- C9 (level draw): for `maxLevel >= 0` and every random source, `get_random_level`
returns the number of leading successful flips capped at `maxLevel` (counted over any
horizon of at least `maxLevel` flips), a value in `[0, maxLevel]`; for `k <= maxLevel`
the level is at least `k` exactly when the first `k` flips succeed, which is one of the
`2 ^ k` outcomes of `k` flips. -/
theorem C9_level_draw (maxLevel : Int) (hm : 0 ≤ maxLevel) (rng : RandSrc) :
    (∀ n, maxLevel.toNat ≤ n →
      (get_random_level maxLevel rng).1 = min (leadingFlips n rng) maxLevel.toNat) ∧
    ((get_random_level maxLevel rng).1 : Int) ≤ maxLevel ∧
    (∀ k, k ≤ maxLevel.toNat →
      (k ≤ (get_random_level maxLevel rng).1 ↔ ∀ j, j < k → rng j % 2 ≠ 0)) ∧
    (∀ k, k ≤ maxLevel.toNat → ∀ rest : RandSrc,
      (Finset.univ.filter (fun f : Fin k → Bool =>
        k ≤ (get_random_level maxLevel (flipsThen k f rest)).1)).card = 1 ∧
      Fintype.card (Fin k → Bool) = 2 ^ k) := by
  refine ⟨?_, ?_, ?_, ?_⟩
  · intro n hn
    rw [get_random_level_spec hm, leadingFlips_min _ _ _ hn]
  · have := get_random_level_le hm rng
    omega
  · intro k hk
    rw [get_random_level_spec hm]
    exact le_leadingFlips_iff _ _ _ hk
  · intro k hk rest
    refine ⟨?_, by simp⟩
    rw [Finset.card_eq_one]
    refine ⟨fun _ => true, ?_⟩
    ext f
    simp only [Finset.mem_filter, Finset.mem_univ, true_and, Finset.mem_singleton]
    rw [get_random_level_spec hm]
    simp only
    rw [le_leadingFlips_iff _ _ _ hk]
    constructor
    · intro hall
      funext j
      exact (flipsThen_odd f rest j.2).mp (hall j.1 j.2)
    · intro hf j hj
      rw [flipsThen_odd f rest hj, hf]

theorem C9_level_draw_witness :
    (0 : Int) ≤ 3 ∧
    ((∀ n, (3 : Int).toNat ≤ n →
      (get_random_level 3 (fun i => i + 1)).1
        = min (leadingFlips n (fun i => i + 1)) (3 : Int).toNat) ∧
    ((get_random_level 3 (fun i => i + 1)).1 : Int) ≤ 3 ∧
    (∀ k, k ≤ (3 : Int).toNat →
      (k ≤ (get_random_level 3 (fun i => i + 1)).1 ↔
        ∀ j, j < k → (fun i => i + 1) j % 2 ≠ 0)) ∧
    (∀ k, k ≤ (3 : Int).toNat → ∀ rest : RandSrc,
      (Finset.univ.filter (fun f : Fin k → Bool =>
        k ≤ (get_random_level 3 (flipsThen k f rest)).1)).card = 1 ∧
      Fintype.card (Fin k → Bool) = 2 ^ k)) :=
  ⟨by decide, C9_level_draw 3 (by decide) (fun i => i + 1)⟩

/-! ## The reference scenario -/

end

section

variable {K V : Type} [LinearOrder K]

/-! ## Search reads only -/

theorem advanceAct_eq (i : Nat) (key : K) (s : SkipList K V) :
    ∀ (fuel node : Nat),
      advanceAct i key fuel node s = (advance s.heap i key fuel node).map (fun r => (r, s)) := by
  intro fuel
  induction fuel with
  | zero => intro node; rfl
  | succ fuel ih =>
    intro node
    simp only [advanceAct, advance, Act.andThen, Act.read]
    cases hr : readForward s.heap node i with
    | none => rfl
    | some nxt =>
      cases nxt with
      | none => rfl
      | some p =>
        simp only [Option.some_bind, Act.andThen, Act.read]
        cases hd : deref s.heap p with
        | none => rfl
        | some pn =>
          simp only [Option.some_bind]
          by_cases hk : pn.key < key
          · simp only [hk, if_true]
            exact ih p
          · simp only [hk, if_false]
            rfl

theorem searchLoopAct_eq (key : K) (fuel : Nat) (s : SkipList K V) :
    ∀ (i node : Nat),
      searchLoopAct key fuel i node s
        = (searchLoop s.heap key fuel i node).map (fun r => (r, s)) := by
  intro i
  induction i with
  | zero =>
    intro node
    simp only [searchLoopAct, searchLoop]
    exact advanceAct_eq 0 key s fuel node
  | succ i ih =>
    intro node
    simp only [searchLoopAct, searchLoop, Act.andThen, advanceAct_eq]
    cases ha : advance s.heap (i + 1) key fuel node with
    | none => rfl
    | some n1 =>
      simp only [Option.map_some', Option.some_bind]
      exact ih n1

theorem searchRun_eq (key : K) (s : SkipList K V) :
    searchRun key s = (search_element key s).map (fun r => (r, s)) := by
  simp only [searchRun, search_element, searchCandidate, Act.andThen, Act.read,
    Option.some_bind, searchLoopAct_eq]
  cases hl : searchLoop s.heap key (descentFuel s) s.SkipListLevel s.header with
  | none => rfl
  | some node =>
    simp only [Option.map_some', Option.some_bind]
    cases hr : readForward s.heap node 0 with
    | none => rfl
    | some cand =>
      cases cand with
      | none => rfl
      | some p =>
        simp only [Option.some_bind, Act.andThen, Act.read]
        cases hd : deref s.heap p with
        | none => rfl
        | some pn =>
          simp only [Option.some_bind]
          by_cases hk : pn.key = key
          · simp only [hk, if_true]
            rfl
          · simp only [hk, if_false]
            rfl

theorem search_element_false (s : SkipList K V) (k : K) (r : Bool × Msg K V)
    (h : search_element k s = some r) : r.1 = false := by
  unfold search_element at h
  cases hc : searchCandidate k s with
  | none => rw [hc] at h; cases h
  | some cand =>
    rw [hc] at h
    cases cand with
    | none =>
      simp only [Option.some_bind, Option.some.injEq] at h
      rw [← h]
    | some p =>
      simp only [Option.some_bind] at h
      cases hd : deref s.heap p with
      | none => rw [hd] at h; cases h
      | some pn =>
        rw [hd] at h
        simp only [Option.some_bind] at h
        by_cases hk : pn.key = k
        · simp only [hk, if_true, Option.some.injEq] at h
          rw [← h]
        · simp only [hk, if_false, Option.some.injEq] at h
          rw [← h]

theorem refLookup_cases (k : K) (es : List (K × V)) :
    (k ∈ es.map Prod.fst ∧ ∃ v, refLookup k es = some v) ∨
    (k ∉ es.map Prod.fst ∧ refLookup k es = none) := by
  induction es with
  | nil => right; exact ⟨List.not_mem_nil _, rfl⟩
  | cons x r ih =>
    by_cases hx : x.1 = k
    · left
      refine ⟨by simp [hx], x.2, ?_⟩
      simp [refLookup, List.find?_cons, hx]
    · have hstep : refLookup k (x :: r) = refLookup k r := by
        simp [refLookup, List.find?_cons, hx]
      rcases ih with ⟨h1, h2⟩ | ⟨h1, h2⟩
      · left
        exact ⟨List.mem_cons_of_mem _ h1, by rw [hstep]; exact h2⟩
      · right
        refine ⟨?_, by rw [hstep]; exact h2⟩
        simp only [List.map_cons, List.mem_cons, not_or]
        exact ⟨fun e => hx e.symm, h1⟩

variable [Inhabited K] [Inhabited V]

/-- On a reachable list the state-transformer form of `search_element` returns. -/
theorem searchRun_reachable {s : SkipList K V} (h : Reachable s) (k : K) :
    ∃ r, searchRun k s = some (r, s) := by
  obtain ⟨es, habs⟩ := reachable_abs h
  exact ⟨_, by rw [searchRun_eq, abs_search habs k]; rfl⟩

/-- C11 (search is read-only): on every list and for every key, when `search_element`
returns, the list it leaves is the list it was called on (heap with every forward link,
key and value, `SkipListLevel`, `elementCount`), whether the key is found or not, and
the result is that of `search_element`; on a reachable list it does return. -/
theorem C11_search_read_only (s : SkipList K V) (k : K) :
    (∀ r t, searchRun k s = some (r, t) →
      t = s ∧ t.heap = s.heap ∧ t.SkipListLevel = s.SkipListLevel ∧ t.size = s.size ∧
        search_element k s = some r) ∧
    (Reachable s → ∃ r, searchRun k s = some (r, s)) := by
  refine ⟨?_, fun h => searchRun_reachable h k⟩
  intro r t h
  rw [searchRun_eq] at h
  cases hs : search_element k s with
  | none => rw [hs] at h; cases h
  | some r1 =>
    rw [hs] at h
    simp only [Option.map_some', Option.some.injEq, Prod.mk.injEq] at h
    obtain ⟨h1, h2⟩ := h
    subst h1
    subst h2
    exact ⟨rfl, rfl, rfl, rfl, rfl⟩

theorem C11_search_read_only_witness :
    searchRun 2 twoList = some ((false, Msg.foundKey 2 "b"), twoList) ∧
    Reachable twoList ∧
    (twoList = twoList ∧ twoList.heap = twoList.heap ∧
      twoList.SkipListLevel = twoList.SkipListLevel ∧ twoList.size = twoList.size ∧
      search_element 2 twoList = some (false, Msg.foundKey 2 "b")) ∧
    (∃ r, searchRun 2 twoList = some (r, twoList)) :=
  ⟨by decide, reachable_twoList,
    (C11_search_read_only twoList 2).1 (false, Msg.foundKey 2 "b") twoList (by decide),
    (C11_search_read_only twoList 2).2 reachable_twoList⟩

/-! ## The value returned by search -/

/-- C14 (value returned by search): on every list and for every key, whenever
`search_element` returns, it returns `false`; on a reachable list it returns `false`
both on the "Found key" branch, taken when the key is in the level-0 chain, and on the
"Not Found key" branch, taken when it is not. -/
theorem C14_search_returns_false (s : SkipList K V) (k : K) :
    (∀ r, search_element k s = some r → r.1 = false) ∧
    (Reachable s → ∃ ks, levelKeys s 0 = some ks ∧
      (k ∈ ks → ∃ v, search_element k s = some (false, Msg.foundKey k v)) ∧
      (k ∉ ks → search_element k s = some (false, Msg.notFoundKey k))) := by
  refine ⟨fun r h => search_element_false s k r h, ?_⟩
  intro h
  obtain ⟨es, habs⟩ := reachable_abs h
  refine ⟨_, abs_level0 habs, ?_, ?_⟩
  · intro hk
    rcases refLookup_cases k es with ⟨_, v, hv⟩ | ⟨hn, _⟩
    · exact ⟨v, by rw [abs_search habs k]; simp only [refMsg, hv]⟩
    · exact absurd hk hn
  · intro hk
    rcases refLookup_cases k es with ⟨hm, _⟩ | ⟨_, hv⟩
    · exact absurd hm hk
    · rw [abs_search habs k]
      simp only [refMsg, hv]

theorem C14_search_returns_false_witness :
    search_element 2 twoList = some (false, Msg.foundKey 2 "b") ∧ Reachable twoList ∧
    (false, Msg.foundKey (2 : Int) "b").1 = false ∧
    (∃ ks, levelKeys twoList 0 = some ks ∧
      ((2 : Int) ∈ ks → ∃ v, search_element 2 twoList = some (false, Msg.foundKey 2 v)) ∧
      ((2 : Int) ∉ ks → search_element 2 twoList = some (false, Msg.notFoundKey 2))) :=
  ⟨by decide, reachable_twoList,
    (C14_search_returns_false twoList 2).1 (false, Msg.foundKey 2 "b") (by decide),
    (C14_search_returns_false twoList 2).2 reachable_twoList⟩

end

section

variable {K V : Type} [Inhabited K] [Inhabited V]

/-! ## Construction with a negative maximum level -/

/-- C12, counterexample: with `maxLevel = -1` the constructor does not fail; it returns
a list object, whose header has an empty forward array. -/
theorem C12_constructor_counterexample :
    (-1 : Int) < 0 ∧ (SkipList.new (-1) : Option (SkipList Int String)) = some minusOneList := by
  decide

theorem new_minus_one :
    (SkipList.new (-1) : Option (SkipList K V)) = some ⟨-1, 0, 0, 0, [some ⟨default, default, -1, []⟩]⟩ := by
  rfl

variable [LinearOrder K]

/-- C12, amended: construction fails when `maxLevel < -1`, because the header's array
would have a negative length; with `maxLevel = -1` no check is made and the constructor
returns a list whose header has no forward slot, on which every call of
`search_element`, `insert_element` and `delete_element` is undefined behaviour. -/
theorem C12_constructor_amended (maxLevel : Int) (h : maxLevel < -1) :
    (SkipList.new maxLevel : Option (SkipList K V)) = none ∧
    ∃ s : SkipList K V, SkipList.new (-1) = some s ∧ s.maxLevel = -1 ∧
      (deref s.heap s.header).map (fun n => n.forward) = some [] ∧
      ∀ (k : K) (v : V) (rng : RandSrc),
        search_element k s = none ∧ insert_element k v rng s = none ∧
          delete_element k s = none := by
  constructor
  · have hneg : maxLevel + 1 < 0 := by omega
    simp [SkipList.new, Node.new, hneg]
  · refine ⟨_, new_minus_one, rfl, rfl, ?_⟩
    intro k v rng
    refine ⟨rfl, rfl, rfl⟩

theorem C12_constructor_amended_witness :
    (-2 : Int) < -1 ∧
    ((SkipList.new (-2) : Option (SkipList Int String)) = none ∧
    ∃ s : SkipList Int String, SkipList.new (-1) = some s ∧ s.maxLevel = -1 ∧
      (deref s.heap s.header).map (fun n => n.forward) = some [] ∧
      ∀ (k : Int) (v : String) (rng : RandSrc),
        search_element k s = none ∧ insert_element k v rng s = none ∧
          delete_element k s = none) :=
  ⟨by decide, C12_constructor_amended (-2) (by decide)⟩

end

section

variable {K V : Type}

/-! ## Where the descent stops -/

theorem head?_filter_eq_find? {α : Type} (p : α → Bool) (l : List α) :
    (l.filter p).head? = l.find? p := by
  induction l with
  | nil => rfl
  | cons x r ih =>
    by_cases hp : p x = true
    · simp [List.filter_cons, List.find?_cons, hp]
    · simp only [List.filter_cons, List.find?_cons, hp, if_false, Bool.false_eq_true]
      exact ih

theorem last_of_after_nil {P : List (Cell K V)} (hnd : (P.map (fun c => c.addr)).Nodup)
    {u : Cell K V} (hu : u ∈ P) (ha : after u.addr P = []) : P.getLast? = some u := by
  induction P with
  | nil => cases hu
  | cons c r ih =>
    have hcons : c.addr ∉ r.map (fun c => c.addr) ∧ (r.map (fun c => c.addr)).Nodup :=
      List.nodup_cons.mp hnd
    by_cases hc : c.addr = u.addr
    · have hcu : c = u :=
        cell_eq_of_addr hnd (List.mem_cons_self _ _) hu hc
      simp only [after, hc, if_true] at ha
      rw [ha, hcu]
      rfl
    · simp only [after, hc, if_false] at ha
      have hur : u ∈ r := by
        rcases List.mem_cons.mp hu with e | e
        · exact absurd (congrArg Cell.addr e).symm hc
        · exact e
      have hrec := ih hcons.2 hur ha
      cases r with
      | nil => cases hur
      | cons b r1 => rw [List.getLast?_cons_cons]; exact hrec

theorem pred_zero_last {P : List (Cell K V)} (hnd : (P.map (fun c => c.addr)).Nodup)
    {u : Cell K V} (h : IsPred P 0 u) : P.getLast? = some u :=
  last_of_after_nil hnd h.1 (after_nil_of_pred h)

variable [LinearOrder K] [Inhabited K] [Inhabited V]

theorem level0_chain {s : SkipList K V} {xs : List (Cell K V)} (hinv : Inv s xs) :
    levelChain s 0 =
      some (xs.map (fun c =>
        (c.addr, nodeOf c (fun j => nextAt j (after c.addr (hcell s :: xs)))))) := by
  rw [levelChain_spec hinv (Nat.zero_le _), filter_level_zero]

theorem lastBelow_chain (s : SkipList K V) (xs : List (Cell K V)) (k : K) :
    lastBelow k s.header (xs.map (fun c =>
        (c.addr, nodeOf c (fun j => nextAt j (after c.addr (hcell s :: xs))))))
      = ((lows k xs).getLast?.map (fun c => c.addr)).getD s.header := by
  unfold lastBelow lows
  rw [List.filter_map, List.getLast?_map, Option.map_map]
  rfl

theorem firstNotBelow_chain (s : SkipList K V) (xs : List (Cell K V)) (k : K) :
    firstNotBelow k (xs.map (fun c =>
        (c.addr, nodeOf c (fun j => nextAt j (after c.addr (hcell s :: xs))))))
      = nextAt 0 (nonlows k xs) := by
  unfold firstNotBelow nonlows
  rw [List.find?_map, Option.map_map, nextAt_zero, head?_filter_eq_find?]
  rfl

theorem descent_node {s : SkipList K V} {xs : List (Cell K V)} (hinv : Inv s xs) (k : K)
    {u : Cell K V} (h : IsPred (hcell s :: lows k xs) 0 u) :
    u.addr = ((lows k xs).getLast?.map (fun c => c.addr)).getD s.header := by
  have hnd : ((hcell s :: lows k xs).map (fun c => c.addr)).Nodup := by
    have := hinv.nodup
    rw [← cells_split hinv k] at this
    exact nodup_left this
  have hlast := pred_zero_last hnd h
  cases hl : lows k xs with
  | nil =>
    rw [hl] at hlast
    have : hcell s = u := Option.some.inj hlast
    rw [← this]
    rfl
  | cons a r =>
    rw [hl, List.getLast?_cons_cons] at hlast
    rw [hlast]
    rfl

/-- C13 (where the descent stops): on every reachable list and for every key `k`, the
descent of `search_element` stops on the last node of the level-0 chain with key below
`k`, or on the header when there is none; the level-0 successor of that node is the
first node of the chain with key not below `k`; that successor has key `k` exactly when
`k` is a key of the chain.  The descent of `insert_element` and `delete_element` stops on
the same node and leaves it in `update[0]`. -/
theorem C13_descent (s : SkipList K V) (h : Reachable s) (k : K) :
    ∃ c0 node upd, levelChain s 0 = some c0 ∧
      searchLoop s.heap k (descentFuel s) s.SkipListLevel s.header = some node ∧
      node = lastBelow k s.header c0 ∧
      readForward s.heap node 0 = some (firstNotBelow k c0) ∧
      searchCandidate k s = some (firstNotBelow k c0) ∧
      ((∃ p n, firstNotBelow k c0 = some p ∧ s.heap[p]? = some (some n) ∧ n.key = k) ↔
        k ∈ c0.map (fun e => e.2.key)) ∧
      updateLoop s.heap k (descentFuel s) s.SkipListLevel s.header
        (List.replicate (s.maxLevel + 1).toNat none) = some (node, upd) ∧
      upd[0]? = some (some node) := by
  obtain ⟨es, xs, hinv, _⟩ := reachable_abs h
  obtain ⟨u0, upd, h1, h2, _, h4, _, h6⟩ := descent_inv hinv k
  have hs := searchLoop_eq_updateLoop s.heap k (descentFuel s) _ _ _ _ h1
  have hnd : ((hcell s :: lows k xs).map (fun c => c.addr)).Nodup := by
    have := hinv.nodup
    rw [← cells_split hinv k] at this
    exact nodup_left this
  refine ⟨_, u0.addr, upd, level0_chain hinv, hs, ?_, ?_, ?_, ?_, h1, ?_⟩
  · rw [lastBelow_chain]
    exact descent_node hinv k h2
  · rw [firstNotBelow_chain]
    exact h6
  · rw [firstNotBelow_chain]
    exact searchCandidate_spec hinv k
  · rw [firstNotBelow_chain]
    have hkeys : k ∈ (xs.map (fun c =>
        (c.addr, nodeOf c (fun j => nextAt j (after c.addr (hcell s :: xs)))))).map
          (fun e => e.2.key) ↔ ∃ d ∈ xs, d.key = k := by
      simp [nodeOf]
    rw [hkeys]
    rcases nonlows_cases hinv.sorted k with ⟨e, hne⟩ | ⟨d, e, hk, hm⟩
    · constructor
      · rintro ⟨p, n, hp, hget, hn⟩
        rw [e] at hp
        obtain ⟨y, hy, hya, _⟩ := nextAt_mem hp
        have hyx : y ∈ hcell s :: xs := List.mem_cons_of_mem _ (mem_highs.mp hy).1
        have hg := repr_get hinv.repr hyx
        rw [hya, hget] at hg
        have hnk : n.key = y.key := by
          rw [Option.some.inj (Option.some.inj hg)]
          rfl
        exact absurd (hnk ▸ hn) (ne_of_gt (mem_highs.mp hy).2)
      · rintro ⟨d, hd, hdk⟩
        exact absurd hdk (hne d hd)
    · constructor
      · intro _
        exact ⟨d, hm, hk⟩
      · intro _
        refine ⟨d.addr, _, ?_, repr_get hinv.repr (List.mem_cons_of_mem _ hm), hk⟩
        rw [e]
        simp [nextAt]
  · obtain ⟨u, hu1, hu2⟩ := h4 0 (Nat.zero_le _)
    have e1 := pred_zero_last hnd hu2
    have e2 := pred_zero_last hnd h2
    rw [e1] at e2
    rw [hu1, Option.some.inj e2]

theorem C13_descent_witness :
    Reachable twoList ∧
    ∃ c0 node upd, levelChain twoList 0 = some c0 ∧
      searchLoop twoList.heap 2 (descentFuel twoList) twoList.SkipListLevel twoList.header
        = some node ∧
      node = lastBelow 2 twoList.header c0 ∧
      readForward twoList.heap node 0 = some (firstNotBelow 2 c0) ∧
      searchCandidate 2 twoList = some (firstNotBelow 2 c0) ∧
      ((∃ p n, firstNotBelow 2 c0 = some p ∧ twoList.heap[p]? = some (some n) ∧ n.key = 2) ↔
        (2 : Int) ∈ c0.map (fun e => e.2.key)) ∧
      updateLoop twoList.heap 2 (descentFuel twoList) twoList.SkipListLevel twoList.header
        (List.replicate (twoList.maxLevel + 1).toNat none) = some (node, upd) ∧
      upd[0]? = some (some node) :=
  ⟨reachable_twoList, C13_descent twoList reachable_twoList 2⟩

end

section

variable {K V : Type}

/-! ## The current level -/

theorem foldr_max_le (l : List Int) (b : Int) (hb : 0 ≤ b) (h : ∀ x ∈ l, x ≤ b) :
    l.foldr max 0 ≤ b := by
  induction l with
  | nil => exact hb
  | cons x r ih =>
    simp only [List.foldr_cons]
    exact max_le (h x (List.mem_cons_self _ _)) (ih (fun y hy => h y (List.mem_cons_of_mem _ hy)))

theorem le_foldr_max (l : List Int) {x : Int} (hx : x ∈ l) : x ≤ l.foldr max 0 := by
  induction l with
  | nil => cases hx
  | cons y r ih =>
    simp only [List.foldr_cons]
    rcases List.mem_cons.mp hx with e | e
    · rw [e]; exact le_max_left _ _
    · exact le_trans (ih e) (le_max_right _ _)

theorem foldr_max_nonneg (l : List Int) : 0 ≤ l.foldr max 0 := by
  induction l with
  | nil => exact le_refl _
  | cons y r ih =>
    simp only [List.foldr_cons]
    exact le_trans ih (le_max_right _ _)

theorem foldr_max_levels (xs : List (Cell K V)) (L : Nat) (h1 : ∀ c ∈ xs, c.lvl ≤ L)
    (h2 : L ≠ 0 → ∃ c ∈ xs, c.lvl = L) :
    (xs.map (fun c => (c.lvl : Int))).foldr max 0 = (L : Int) := by
  apply le_antisymm
  · apply foldr_max_le _ _ (by omega)
    intro x hx
    obtain ⟨c, hc, e⟩ := List.mem_map.mp hx
    have := h1 c hc
    omega
  · by_cases hL : L = 0
    · rw [hL]; exact foldr_max_nonneg _
    · obtain ⟨c, hc, e⟩ := h2 hL
      apply le_foldr_max
      exact List.mem_map.mpr ⟨c, hc, by rw [e]⟩

variable [LinearOrder K] [Inhabited K] [Inhabited V]

theorem header_forward_above {s : SkipList K V} {xs : List (Cell K V)} (hinv : Inv s xs)
    {i : Nat} (h1 : s.SkipListLevel < i) (h2 : i ≤ s.maxLevel.toNat) :
    readForward s.heap s.header i = some none := by
  have hr := readForward_repr hinv.repr (List.mem_cons_self (hcell s) xs) (i := i) h2
  have ha : after (hcell s).addr (hcell s :: xs) = xs := by simp [after]
  rw [ha, nextAt_eq_none (fun y hy => by have := hinv.lvl_le y hy; omega)] at hr
  exact hr

theorem level0_keys {s : SkipList K V} {xs : List (Cell K V)} (hinv : Inv s xs) :
    levelKeys s 0 = some (xs.map (fun c => c.key)) := by
  rw [levelKeys_spec hinv (Nat.zero_le _), filter_level_zero]

theorem level_is_max {s : SkipList K V} {xs : List (Cell K V)} (hinv : Inv s xs) :
    ∃ c0, levelChain s 0 = some c0 ∧
      (c0.map (fun e => e.2.nodeLevel)).foldr max 0 = (s.SkipListLevel : Int) := by
  refine ⟨_, level0_chain hinv, ?_⟩
  rw [List.map_map]
  exact foldr_max_levels xs s.SkipListLevel hinv.lvl_le hinv.level_max

/-- C15 (current level): in every reachable list `0 <= SkipListLevel <= maxLevel`, the
header's `forward[i]` is null for every `i` with `SkipListLevel < i <= maxLevel`, and
`SkipListLevel` is the largest `nodeLevel` among the nodes of the level-0 chain (0 for an
empty chain).  Inserting a new key raises it to the drawn level when that is larger,
inserting a stored key leaves it, and a deletion never raises it: it leaves the largest
`nodeLevel` of the nodes that remain. -/
theorem C15_level_invariant (s : SkipList K V) (h : Reachable s) :
    (0 : Int) ≤ s.SkipListLevel ∧ (s.SkipListLevel : Int) ≤ s.maxLevel ∧
    (∀ i : Nat, s.SkipListLevel < i → (i : Int) ≤ s.maxLevel →
      readForward s.heap s.header i = some none) ∧
    (∃ c0, levelChain s 0 = some c0 ∧
      (c0.map (fun e => e.2.nodeLevel)).foldr max 0 = (s.SkipListLevel : Int)) ∧
    (∀ (k : K) (v : V) (rng : RandSrc),
      ∃ ks ret g t out, levelKeys s 0 = some ks ∧
        insert_element k v rng s = some (ret, g, t, out) ∧
        (k ∉ ks →
          t.SkipListLevel = max s.SkipListLevel (get_random_level s.maxLevel rng).1) ∧
        (k ∈ ks → t.SkipListLevel = s.SkipListLevel)) ∧
    (∀ k : K, ∃ t out c1, delete_element k s = some (t, out) ∧
      t.SkipListLevel ≤ s.SkipListLevel ∧ levelChain t 0 = some c1 ∧
      (c1.map (fun e => e.2.nodeLevel)).foldr max 0 = (t.SkipListLevel : Int)) := by
  obtain ⟨es, xs, hinv, _⟩ := reachable_abs h
  have hle := hinv.level_le
  have hnn := hinv.maxLevel_nonneg
  refine ⟨by omega, by omega, ?_, ?_, ?_, ?_⟩
  · intro i h1 h2
    exact header_forward_above hinv h1 (by omega)
  · exact level_is_max hinv
  · intro k v rng
    by_cases hk : ∃ d ∈ xs, d.key = k
    · obtain ⟨d, hd, hdk⟩ := hk
      obtain ⟨n, _, h2, _⟩ := insert_dup_spec hinv hd v rng
      rw [hdk] at h2
      refine ⟨_, _, _, _, _, level0_keys hinv, h2, ?_, fun _ => rfl⟩
      intro hn
      exact absurd (List.mem_map.mpr ⟨d, hd, hdk⟩) hn
    · have hne : ∀ d ∈ xs, d.key ≠ k := fun d hd e => hk ⟨d, hd, e⟩
      obtain ⟨heap2, h2, _⟩ := insert_new_spec hinv k v rng hne
      refine ⟨_, _, _, _, _, level0_keys hinv, h2, fun _ => rfl, ?_⟩
      intro hm
      obtain ⟨d, hd, hdk⟩ := List.mem_map.mp hm
      exact absurd hdk (hne d hd)
  · intro k
    by_cases hk : ∃ d ∈ xs, d.key = k
    · obtain ⟨d, hd, hdk⟩ := hk
      obtain ⟨heap2, L1, h2, h3, _⟩ := delete_present_spec hinv hd
      rw [hdk] at h2
      obtain ⟨c1, e1, e2⟩ := level_is_max h3
      refine ⟨_, _, c1, h2, ?_, e1, e2⟩
      show L1 ≤ s.SkipListLevel
      by_cases hL : L1 = 0
      · omega
      · obtain ⟨c, hc, hcl⟩ := h3.level_max hL
        have := hinv.lvl_le c (mem_dropKey.mp hc).1
        have hcl1 : c.lvl = L1 := hcl
        omega
    · have hne : ∀ d ∈ xs, d.key ≠ k := fun d hd e => hk ⟨d, hd, e⟩
      obtain ⟨c1, e1, e2⟩ := level_is_max hinv
      exact ⟨s, _, c1, delete_absent_spec hinv k hne, Nat.le_refl _, e1, e2⟩

theorem C15_level_invariant_witness :
    Reachable twoList ∧
    ((0 : Int) ≤ twoList.SkipListLevel ∧ (twoList.SkipListLevel : Int) ≤ twoList.maxLevel ∧
    (∀ i : Nat, twoList.SkipListLevel < i → (i : Int) ≤ twoList.maxLevel →
      readForward twoList.heap twoList.header i = some none) ∧
    (∃ c0, levelChain twoList 0 = some c0 ∧
      (c0.map (fun e => e.2.nodeLevel)).foldr max 0 = (twoList.SkipListLevel : Int)) ∧
    (∀ (k : Int) (v : String) (rng : RandSrc),
      ∃ ks ret g t out, levelKeys twoList 0 = some ks ∧
        insert_element k v rng twoList = some (ret, g, t, out) ∧
        (k ∉ ks →
          t.SkipListLevel
            = max twoList.SkipListLevel (get_random_level twoList.maxLevel rng).1) ∧
        (k ∈ ks → t.SkipListLevel = twoList.SkipListLevel)) ∧
    (∀ k : Int, ∃ t out c1, delete_element k twoList = some (t, out) ∧
      t.SkipListLevel ≤ twoList.SkipListLevel ∧ levelChain t 0 = some c1 ∧
      (c1.map (fun e => e.2.nodeLevel)).foldr max 0 = (t.SkipListLevel : Int))) :=
  ⟨reachable_twoList, C15_level_invariant twoList reachable_twoList⟩

end

section

variable {K V : Type}

/-! ## What a forward pointer of a live node is -/

theorem forward_get_cases {heap : Heap K V} {cells : List (Cell K V)}
    (hrepr : Repr heap cells) (hlive : Live heap cells) {a i : Nat} {n : Node K V}
    {r : Option Nat} (hget : heap[a]? = some (some n)) (hf : n.forward[i]? = some r) :
    ∃ x ∈ cells, x.addr = a ∧ i ≤ x.lvl ∧ r = nextAt i (after x.addr cells) ∧
      n = nodeOf x (fun j => nextAt j (after x.addr cells)) := by
  obtain ⟨x, hx, hxa⟩ := List.mem_map.mp (hlive a n hget)
  have hxa1 : x.addr = a := hxa
  have hg := repr_get hrepr hx
  have hget1 : heap[x.addr]? = some (some n) := by rw [hxa1]; exact hget
  rw [hget1] at hg
  have hn : n = nodeOf x (fun j => nextAt j (after x.addr cells)) :=
    Option.some.inj (Option.some.inj hg)
  by_cases hi : i ≤ x.lvl
  · refine ⟨x, hx, hxa1, hi, ?_, hn⟩
    rw [hn, nodeOf_forward_get x _ hi] at hf
    exact (Option.some.inj hf).symm
  · rw [hn, List.getElem?_eq_none (by rw [nodeOf_forward_length]; omega)] at hf
    cases hf

theorem readForward_cases {heap : Heap K V} {cells : List (Cell K V)}
    (hrepr : Repr heap cells) (hlive : Live heap cells) {u i : Nat} {r : Option Nat}
    (h : readForward heap u i = some r) :
    ∃ x ∈ cells, x.addr = u ∧ i ≤ x.lvl ∧ r = nextAt i (after x.addr cells) := by
  unfold readForward at h
  cases hd : deref heap u with
  | none => rw [hd] at h; cases h
  | some n =>
    rw [hd] at h
    obtain ⟨x, hx, h1, h2, h3, _⟩ := forward_get_cases hrepr hlive (get_of_deref hd) h
    exact ⟨x, hx, h1, h2, h3⟩

variable [LinearOrder K] [Inhabited K] [Inhabited V]

theorem mem_of_level0_key {s : SkipList K V} {xs : List (Cell K V)} (hinv : Inv s xs)
    {ks : List K} (hks : levelKeys s 0 = some ks) {k : K} (hk : k ∈ ks) :
    ∃ d ∈ xs, d.key = k := by
  rw [level0_keys hinv] at hks
  rw [← Option.some.inj hks] at hk
  obtain ⟨d, hd, e⟩ := List.mem_map.mp hk
  exact ⟨d, hd, e⟩

theorem candidate_of_mem {s : SkipList K V} {xs : List (Cell K V)} (hinv : Inv s xs)
    {d : Cell K V} (hd : d ∈ xs) : searchCandidate d.key s = some (some d.addr) := by
  rw [searchCandidate_spec hinv d.key, nonlows_of_mem hinv.sorted hd]
  simp [nextAt]

/-! ## Deletion unlinks at every level -/

/-- C16 (delete unlinks the node at every level): on every reachable list and for every
key `k` of its level-0 chain, `delete_element k` releases the node `p` holding `k`;
afterwards no live node, header included, has `p` in any slot of its forward array; every
node whose `forward[i]` was `p` now has the former `p->forward[i]` there; and before the
call `p` had such a predecessor at each of its levels. -/
theorem C16_delete_unlinks (s : SkipList K V) (h : Reachable s) (k : K) (ks : List K)
    (hks : levelKeys s 0 = some ks) (hk : k ∈ ks) :
    ∃ p n t, searchCandidate k s = some (some p) ∧ s.heap[p]? = some (some n) ∧
      n.key = k ∧
      delete_element k s = some (t, [Msg.deleted k]) ∧
      t.heap[p]? = some none ∧
      (∀ (a : Nat) (m : Node K V) (i : Nat),
        t.heap[a]? = some (some m) → m.forward[i]? ≠ some (some p)) ∧
      (∀ u i, readForward s.heap u i = some (some p) →
        readForward t.heap u i = readForward s.heap p i) ∧
      (∀ i, i < n.forward.length → ∃ u, readForward s.heap u i = some (some p)) := by
  obtain ⟨es, xs, hinv, _⟩ := reachable_abs h
  obtain ⟨d, hd, hdk⟩ := mem_of_level0_key hinv hks hk
  subst hdk
  obtain ⟨heap2, L1, h2, h3, h4⟩ := delete_present_spec hinv hd
  obtain ⟨u0, upd, _, _, _, hu4, _, _⟩ := descent_inv hinv d.key
  have hdc : d ∈ hcell s :: xs := List.mem_cons_of_mem _ hd
  have hsplit := split_of_mem hinv.sorted hd
  have hcells : hcell s :: xs = (hcell s :: lows d.key xs) ++ d :: highs d.key xs := by
    rw [List.cons_append, ← hsplit]
  have hrepr0 : Repr s.heap ((hcell s :: lows d.key xs) ++ d :: highs d.key xs) := by
    rw [← hcells]; exact hinv.repr
  have hlive0 : Live s.heap ((hcell s :: lows d.key xs) ++ d :: highs d.key xs) := by
    rw [← hcells]; exact hinv.live
  have hnd0 : (((hcell s :: lows d.key xs) ++ d :: highs d.key xs).map
      (fun c => c.addr)).Nodup := by
    rw [← hcells]; exact hinv.nodup
  have hdn := (nodup_of_middle hnd0).1
  have hndPQ := (nodup_of_middle hnd0).2
  have hdP : d.addr ∉ (hcell s :: lows d.key xs).map (fun c => c.addr) := by
    intro hm
    exact hdn (by rw [List.map_append]; exact List.mem_append_left _ hm)
  have hdQ : d.addr ∉ (highs d.key xs).map (fun c => c.addr) := by
    intro hm
    exact hdn (by rw [List.map_append]; exact List.mem_append_right _ hm)
  have hrepr1 : Repr heap2 ((hcell s :: lows d.key xs) ++ highs d.key xs) := h3.repr
  have hlive1 : Live heap2 ((hcell s :: lows d.key xs) ++ highs d.key xs) := h3.live
  have hafterd : after d.addr ((hcell s :: lows d.key xs) ++ d :: highs d.key xs)
      = highs d.key xs := by
    rw [after_append_of_not_mem _ hdP]
    simp [after]
  have hgetd := repr_get hrepr0 (mem_middle.mpr (Or.inl rfl))
  rw [hafterd] at hgetd
  refine ⟨d.addr, _, _, candidate_of_mem hinv hd, hgetd, rfl, h2, h4, ?_, ?_, ?_⟩
  · intro a m i hget hf
    obtain ⟨x, hx, _, _, hr, _⟩ := forward_get_cases hrepr1 hlive1 hget hf
    obtain ⟨y, hy, hya, _⟩ := nextAt_mem hr.symm
    exact hdn (hya ▸ mem_addrs (after_subset hy))
  · intro u i hu
    obtain ⟨x, hx, hxu, hxi, hr⟩ := readForward_cases hrepr0 hlive0 hu
    have hr1 := hr.symm
    rcases mem_middle.mp hx with e | e
    · rw [e, hafterd] at hr1
      exact absurd hr1 (nextAt_not_self hdQ)
    · rcases List.mem_append.mp e with hxP | hxQ
      · rw [after_append_of_mem _ (mem_addrs hxP)] at hr1
        have hlow : ∀ y ∈ after x.addr (hcell s :: lows d.key xs), y.lvl < i := by
          intro y hy
          by_contra hc
          rw [nextAt_append_of_mem hy (by omega)] at hr1
          obtain ⟨z, hz, hza, _⟩ := nextAt_mem hr1
          exact hdP (hza ▸ mem_addrs (after_subset hz))
        rw [nextAt_append_of_lt hlow] at hr1
        have hid : i ≤ d.lvl := by
          by_contra hc
          simp only [nextAt, hc, if_false] at hr1
          exact nextAt_not_self hdQ hr1
        have ht : readForward heap2 x.addr i = some (nextAt i (highs d.key xs)) := by
          rw [readForward_repr hrepr1 (List.mem_append_left _ hxP) hxi,
            after_append_of_mem _ (mem_addrs hxP), nextAt_append_of_lt hlow]
        have hsd : readForward s.heap d.addr i = some (nextAt i (highs d.key xs)) := by
          rw [readForward_repr hrepr0 (mem_middle.mpr (Or.inl rfl)) hid, hafterd]
        rw [← hxu]
        exact ht.trans hsd.symm
      · have hxP : x.addr ∉ (hcell s :: lows d.key xs).map (fun c => c.addr) :=
          not_mem_left_of_right hndPQ hxQ
        have hxd : ¬ d.addr = x.addr := fun e1 => hdQ (e1 ▸ mem_addrs hxQ)
        rw [after_append_of_not_mem _ hxP] at hr1
        simp only [after, hxd, if_false] at hr1
        obtain ⟨z, hz, hza, _⟩ := nextAt_mem hr1
        exact absurd (hza ▸ mem_addrs (after_subset hz)) hdQ
  · intro i hi
    rw [nodeOf_forward_length] at hi
    have hiL : i ≤ s.SkipListLevel := by
      have := hinv.lvl_le d hd
      omega
    obtain ⟨u, _, huP, hul, hu3⟩ := hu4 i hiL
    refine ⟨u.addr, ?_⟩
    rw [readForward_repr hrepr0 (mem_middle.mpr (Or.inr (List.mem_append_left _ huP))) hul,
      after_append_of_mem _ (mem_addrs huP), nextAt_append_of_lt hu3]
    simp [nextAt, Nat.lt_succ_iff.mp hi]

theorem C16_delete_unlinks_witness :
    Reachable twoList ∧ levelKeys twoList 0 = some [1, 2] ∧ (2 : Int) ∈ [(1 : Int), 2] ∧
    ∃ p n t, searchCandidate 2 twoList = some (some p) ∧ twoList.heap[p]? = some (some n) ∧
      n.key = 2 ∧
      delete_element 2 twoList = some (t, [Msg.deleted 2]) ∧
      t.heap[p]? = some none ∧
      (∀ (a : Nat) (m : Node Int String) (i : Nat),
        t.heap[a]? = some (some m) → m.forward[i]? ≠ some (some p)) ∧
      (∀ u i, readForward twoList.heap u i = some (some p) →
        readForward t.heap u i = readForward twoList.heap p i) ∧
      (∀ i, i < n.forward.length → ∃ u, readForward twoList.heap u i = some (some p)) :=
  ⟨reachable_twoList, by decide, by decide,
    C16_delete_unlinks twoList reachable_twoList 2 [1, 2] (by decide) (by decide)⟩

/-! ## Insertion of a stored key -/

/-- C17 (duplicate-key insert changes only the value): on every reachable list and for
every key `k` of its level-0 chain, `insert_element k v` returns `false`, hands back the
random source untouched, prints nothing, and leaves the list it was given except that the
node `p` holding `k` has value `v`: same key, level and forward array for `p`, every
other cell of the heap, `SkipListLevel` and `elementCount` as before. -/
theorem C17_duplicate_insert_frame (s : SkipList K V) (h : Reachable s) (k : K) (v : V)
    (rng : RandSrc) (ks : List K) (hks : levelKeys s 0 = some ks) (hk : k ∈ ks) :
    ∃ p n t, searchCandidate k s = some (some p) ∧ s.heap[p]? = some (some n) ∧
      n.key = k ∧
      insert_element k v rng s = some (false, rng, t, []) ∧
      t = { s with heap := s.heap.set p (some { n with value := v }) } ∧
      t.heap[p]? = some (some ⟨n.key, v, n.nodeLevel, n.forward⟩) ∧
      (∀ a, a ≠ p → t.heap[a]? = s.heap[a]?) ∧
      t.SkipListLevel = s.SkipListLevel ∧ t.size = s.size ∧ t.maxLevel = s.maxLevel ∧
      t.header = s.header := by
  obtain ⟨es, xs, hinv, _⟩ := reachable_abs h
  obtain ⟨d, hd, hdk⟩ := mem_of_level0_key hinv hks hk
  subst hdk
  obtain ⟨n, h1, h2, _⟩ := insert_dup_spec hinv hd v rng
  have hg := repr_get hinv.repr (List.mem_cons_of_mem (hcell s) hd)
  rw [h1] at hg
  have hn : n.key = d.key := by
    rw [Option.some.inj (Option.some.inj hg)]
    rfl
  refine ⟨d.addr, n, _, candidate_of_mem hinv hd, h1, hn, h2, rfl, ?_, ?_, rfl, rfl, rfl, rfl⟩
  · exact get_set_self _ h1
  · intro a ha
    exact get_set_ne _ (Ne.symm ha)

theorem C17_duplicate_insert_frame_witness :
    Reachable twoList ∧ levelKeys twoList 0 = some [1, 2] ∧ (2 : Int) ∈ [(1 : Int), 2] ∧
    ∃ p n t, searchCandidate 2 twoList = some (some p) ∧ twoList.heap[p]? = some (some n) ∧
      n.key = 2 ∧
      insert_element 2 "deux" (fun _ => 1) twoList = some (false, fun _ => 1, t, []) ∧
      t = { twoList with heap := twoList.heap.set p (some { n with value := "deux" }) } ∧
      t.heap[p]? = some (some ⟨n.key, "deux", n.nodeLevel, n.forward⟩) ∧
      (∀ a, a ≠ p → t.heap[a]? = twoList.heap[a]?) ∧
      t.SkipListLevel = twoList.SkipListLevel ∧ t.size = twoList.size ∧
      t.maxLevel = twoList.maxLevel ∧ t.header = twoList.header :=
  ⟨reachable_twoList, by decide, by decide,
    C17_duplicate_insert_frame twoList reachable_twoList 2 "deux" (fun _ => 1) [1, 2]
      (by decide) (by decide)⟩

end

section

variable {K V : Type}

/-! ## Teardown -/

theorem clear_spec {heap : Heap K V} {cells : List (Cell K V)}
    (hrepr : Repr heap cells) (hnd : (cells.map (fun c => c.addr)).Nodup) :
    ∀ (fuel : Nat) (y : Cell K V) (A : List (Cell K V)), (y :: A) <:+ cells →
      (y :: A).length ≤ fuel →
      ∃ h1, clear heap fuel y.addr = some (h1, ((y :: A).map (fun c => c.addr)).reverse) ∧
        h1.length = heap.length ∧
        (∀ a, a ∈ (y :: A).map (fun c => c.addr) → h1[a]? = some none) ∧
        (∀ a, a ∉ (y :: A).map (fun c => c.addr) → h1[a]? = heap[a]?) := by
  intro fuel
  induction fuel with
  | zero =>
    intro y A _ hlen
    simp at hlen
  | succ fuel ih =>
    intro y A hs hlen
    have hy : y ∈ y :: A := List.mem_cons_self _ _
    have hyc : y ∈ cells := hs.subset hy
    have hndA : ((y :: A).map (fun c => c.addr)).Nodup := by
      obtain ⟨B, hB⟩ := hs
      rw [← hB, List.map_append] at hnd
      exact (List.nodup_append.mp hnd).2.1
    have hyA : y.addr ∉ A.map (fun c => c.addr) := (List.nodup_cons.mp hndA).1
    have haft : after y.addr cells = A := by
      rw [after_of_suffix hnd hs hy]
      simp [after]
    have hrd : readForward heap y.addr 0 = some (nextAt 0 A) := by
      rw [readForward_repr hrepr hyc (Nat.zero_le _), haft]
    have hgety := repr_get hrepr hyc
    cases A with
    | nil =>
      refine ⟨heap.set y.addr none, ?_, by simp, ?_, ?_⟩
      · simp only [clear, hrd, nextAt, Option.some_bind, free, deref_of_get hgety]
        rfl
      · intro a ha
        have hay : a = y.addr := by simpa using ha
        rw [hay]
        exact get_set_self _ hgety
      · intro a ha
        have hay : y.addr ≠ a := by
          intro e
          exact ha (by simp [e])
        exact get_set_ne _ hay
    | cons z A1 =>
      have hs1 : (z :: A1) <:+ cells := List.IsSuffix.trans (List.suffix_cons _ _) hs
      obtain ⟨h1, e1, e2, e3, e4⟩ := ih z A1 hs1 (by simp at hlen ⊢; omega)
      have hget1 : h1[y.addr]? = heap[y.addr]? := e4 y.addr hyA
      rw [hgety] at hget1
      refine ⟨h1.set y.addr none, ?_, by simp [e2], ?_, ?_⟩
      · have hnz : nextAt 0 (z :: A1) = some z.addr := by simp [nextAt]
        simp only [clear, hrd, hnz, Option.some_bind, e1, free, deref_of_get hget1]
        simp
      · intro a ha
        by_cases hay : a = y.addr
        · rw [hay]; exact get_set_self _ hget1
        · rw [get_set_ne _ (Ne.symm hay)]
          apply e3
          simp only [List.map_cons, List.mem_cons] at ha ⊢
          rcases ha with e | e
          · exact absurd e hay
          · exact e
      · intro a ha
        have hay : y.addr ≠ a := by
          intro e
          exact ha (by simp [e])
        rw [get_set_ne _ hay]
        apply e4
        intro hm
        exact ha (List.mem_cons_of_mem _ hm)

theorem destroy_eq_clear (s : SkipList K V) :
    s.destroy = clear s.heap (descentFuel s + 1) s.header := rfl

variable [LinearOrder K] [Inhabited K] [Inhabited V]

theorem destroy_spec {s : SkipList K V} {xs : List (Cell K V)} (hinv : Inv s xs) :
    ∃ h1, s.destroy = some (h1, (xs.map (fun c => c.addr)).reverse ++ [s.header]) ∧
      h1.length = s.heap.length ∧ ∀ a, a < h1.length → h1[a]? = some none := by
  obtain ⟨h1, e1, e2, e3, e4⟩ :=
    clear_spec hinv.repr hinv.nodup (descentFuel s + 1) (hcell s) xs (List.suffix_refl _)
      (by have := hinv.len; simp [descentFuel]; omega)
  refine ⟨h1, ?_, e2, ?_⟩
  · rw [destroy_eq_clear]
    have : (hcell s).addr = s.header := rfl
    rw [this] at e1
    rw [e1]
    simp [hcell]
  · intro a ha
    by_cases hm : a ∈ (hcell s :: xs).map (fun c => c.addr)
    · exact e3 a hm
    · rw [e4 a hm]
      rw [e2] at ha
      have hsome : s.heap[a]? = some (s.heap[a]) := List.getElem?_eq_getElem ha
      cases ho : s.heap[a] with
      | none => rw [hsome, ho]
      | some n =>
        rw [ho] at hsome
        exact absurd (hinv.live a n hsome) hm

/-- C18, counterexample: on the reachable list holding keys 1 and 2 (nodes at addresses
1 and 2, header at 0) the destructor releases node 2, then node 1, then the header,
which is not the level-0 traversal followed by the header. -/
theorem C18_teardown_counterexample :
    Reachable twoList ∧
    (levelChain twoList 0).map (fun c => c.map Prod.fst ++ [twoList.header])
      = some [1, 2, 0] ∧
    twoList.destroy.map Prod.snd = some [2, 1, 0] ∧
    twoList.destroy.map Prod.snd
      ≠ (levelChain twoList 0).map (fun c => c.map Prod.fst ++ [twoList.header]) :=
  ⟨reachable_twoList, by decide, by decide, by decide⟩

/-- C18, amended: destroying a reachable list releases every node of the level-0 chain
exactly once, in backward order (tail to head, decreasing keys), then the header; the
addresses released are the level-0 traversal reversed, followed by the header, and no
cell of the heap is left alive. -/
theorem C18_teardown_amended (s : SkipList K V) (h : Reachable s) :
    ∃ c0 heap1, levelChain s 0 = some c0 ∧
      s.destroy = some (heap1, (c0.map Prod.fst).reverse ++ [s.header]) ∧
      ((c0.map Prod.fst).reverse ++ [s.header]).Nodup ∧
      (c0.map (fun e => e.2.key)).Pairwise (fun a b => a < b) ∧
      heap1.length = s.heap.length ∧
      (∀ a, a < heap1.length → heap1[a]? = some none) := by
  obtain ⟨es, xs, hinv, _⟩ := reachable_abs h
  obtain ⟨h1, e1, e2, e3⟩ := destroy_spec hinv
  have hmap : (xs.map (fun c =>
      (c.addr, nodeOf c (fun j => nextAt j (after c.addr (hcell s :: xs)))))).map Prod.fst
      = xs.map (fun c => c.addr) := by
    rw [List.map_map]; rfl
  refine ⟨_, h1, level0_chain hinv, ?_, ?_, ?_, e2, e3⟩
  · rw [hmap]; exact e1
  · rw [hmap]
    have hnd : (s.header :: xs.map (fun c => c.addr)).Nodup := hinv.nodup
    rw [List.nodup_append]
    refine ⟨List.nodup_reverse.mpr (List.nodup_cons.mp hnd).2, List.nodup_singleton _, ?_⟩
    intro a ha hb
    rw [List.mem_reverse] at ha
    rw [List.mem_singleton] at hb
    exact (List.nodup_cons.mp hnd).1 (hb ▸ ha)
  · rw [List.map_map, List.pairwise_map]
    exact hinv.sorted

theorem C18_teardown_amended_witness :
    Reachable twoList ∧
    ∃ c0 heap1, levelChain twoList 0 = some c0 ∧
      twoList.destroy = some (heap1, (c0.map Prod.fst).reverse ++ [twoList.header]) ∧
      ((c0.map Prod.fst).reverse ++ [twoList.header]).Nodup ∧
      (c0.map (fun e => e.2.key)).Pairwise (fun a b => a < b) ∧
      heap1.length = twoList.heap.length ∧
      (∀ a, a < heap1.length → heap1[a]? = some none) :=
  ⟨reachable_twoList, C18_teardown_amended twoList reachable_twoList⟩

end

section

variable {K V : Type}

/-! ## Refinement of a sorted map -/

theorem agree_isNone {es : List (K × V)} {m : K → Option V}
    (h : ∀ a b, (a, b) ∈ es ↔ m a = some b) (k : K) :
    k ∉ es.map Prod.fst ↔ (m k).isNone = true := by
  constructor
  · intro hk
    cases hm : m k with
    | none => rfl
    | some b =>
      have := (h k b).mpr hm
      exact absurd (List.mem_map.mpr ⟨(k, b), this, rfl⟩) hk
  · intro hn hk
    obtain ⟨e, he, hek⟩ := List.mem_map.mp hk
    have hmem : (k, e.2) ∈ es := by
      have : e = (k, e.2) := by rw [← hek]
      rw [← this]; exact he
    rw [(h k e.2).mp hmem] at hn
    cases hn

variable [LinearOrder K]

theorem mem_refInsert_iff {k a : K} {v b : V} {es : List (K × V)} :
    (a, b) ∈ refInsert k v es ↔ (a = k ∧ b = v) ∨ (a ≠ k ∧ (a, b) ∈ es) := by
  unfold refInsert
  simp only [List.mem_append, List.mem_cons, List.mem_filter, decide_eq_true_eq,
    Prod.mk.injEq]
  constructor
  · rintro (⟨h1, h2⟩ | ⟨h1, h2⟩ | ⟨h1, h2⟩)
    · exact Or.inr ⟨ne_of_lt h2, h1⟩
    · exact Or.inl ⟨h1, h2⟩
    · exact Or.inr ⟨ne_of_gt h2, h1⟩
  · rintro (⟨h1, h2⟩ | ⟨h1, h2⟩)
    · exact Or.inr (Or.inl ⟨h1, h2⟩)
    · rcases lt_or_gt_of_ne h1 with h3 | h3
      · exact Or.inl ⟨h2, h3⟩
      · exact Or.inr (Or.inr ⟨h2, h3⟩)

theorem mem_refErase_iff {k a : K} {b : V} {es : List (K × V)} :
    (a, b) ∈ refErase k es ↔ a ≠ k ∧ (a, b) ∈ es := by
  unfold refErase
  simp only [List.mem_append, List.mem_filter, decide_eq_true_eq]
  constructor
  · rintro (⟨h1, h2⟩ | ⟨h1, h2⟩)
    · exact ⟨ne_of_lt h2, h1⟩
    · exact ⟨ne_of_gt h2, h1⟩
  · rintro ⟨h1, h2⟩
    rcases lt_or_gt_of_ne h1 with h3 | h3
    · exact Or.inl ⟨h2, h3⟩
    · exact Or.inr ⟨h2, h3⟩

theorem agree_refInsert {es : List (K × V)} {m : K → Option V}
    (h : ∀ a b, (a, b) ∈ es ↔ m a = some b) (k : K) (v : V) :
    ∀ a b, (a, b) ∈ refInsert k v es ↔ refMapInsert m k v a = some b := by
  intro a b
  rw [mem_refInsert_iff]
  unfold refMapInsert
  by_cases hak : a = k
  · simp only [hak, if_true, Option.some.injEq, true_and, ne_eq, not_true_eq_false, false_and,
      or_false]
    exact eq_comm
  · simp only [hak, if_false, false_and, false_or, ne_eq, not_false_eq_true, true_and]
    exact h a b

theorem agree_refErase {es : List (K × V)} {m : K → Option V}
    (h : ∀ a b, (a, b) ∈ es ↔ m a = some b) (k : K) :
    ∀ a b, (a, b) ∈ refErase k es ↔ refMapErase m k a = some b := by
  intro a b
  rw [mem_refErase_iff]
  unfold refMapErase
  by_cases hak : a = k
  · simp [hak]
  · simp only [hak, if_false, ne_eq, not_false_eq_true, true_and]
    exact h a b

variable [Inhabited K] [Inhabited V]

theorem abs_levelEntries {s : SkipList K V} {es : List (K × V)} (h : Abs s es) :
    levelEntries s = some es := by
  obtain ⟨xs, hinv, he⟩ := h
  rw [← he]
  simp only [levelEntries, level0_chain hinv, Option.map_some', List.map_map]
  rfl

theorem runOps_refines :
    ∀ (ops : List (Op K V)) (s : SkipList K V) (es : List (K × V)) (m : K → Option V)
      (rng : RandSrc), Abs s es → (∀ a b, (a, b) ∈ es ↔ m a = some b) →
      ∃ g t rets es1, runOps ops rng s = some (g, t, rets) ∧ Abs t es1 ∧
        (∀ a b, (a, b) ∈ es1 ↔ (refRun ops m).1 a = some b) ∧
        rets = (refRun ops m).2 := by
  intro ops
  induction ops with
  | nil =>
    intro s es m rng habs hag
    exact ⟨rng, s, [], es, rfl, habs, hag, rfl⟩
  | cons op rest ih =>
    intro s es m rng habs hag
    cases op with
    | insert k v =>
      obtain ⟨ret, g1, t1, o1, h1, h2, _, h4, _, _⟩ := abs_insert habs k v rng
      obtain ⟨g, t, rets, es1, e1, e2, e3, e4⟩ :=
        ih t1 _ (refMapInsert m k v) g1 h2 (agree_refInsert hag k v)
      refine ⟨g, t, ret :: rets, es1, ?_, e2, e3, ?_⟩
      · simp only [runOps, h1, Option.some_bind, e1]
      · have hret : ret = (m k).isNone := by
          have hiff := h4.trans (agree_isNone hag k)
          cases ret with
          | true => exact (hiff.mp rfl).symm
          | false =>
            cases hn : (m k).isNone with
            | false => rfl
            | true => exact absurd (hiff.mpr hn) (by simp)
        simp only [refRun, e4, hret]
    | delete k =>
      obtain ⟨t1, o1, h1, h2, _⟩ := abs_delete habs k
      obtain ⟨g, t, rets, es1, e1, e2, e3, e4⟩ :=
        ih t1 _ (refMapErase m k) rng h2 (agree_refErase hag k)
      refine ⟨g, t, rets, es1, ?_, e2, e3, e4⟩
      simp only [runOps, h1, Option.some_bind, e1]

/-- C19 (refinement of a sorted map): for every sequence of `insert_element` and
`delete_element` calls on a fresh list (`maxLevel >= 0`) and every random source, the
calls return; the level-0 traversal is then strictly sorted by key and holds exactly the
entries of the reference map (insert-or-overwrite, erase) after the same calls, so it is
its key-sorted entry list; `size()` is the number of these entries; and every insert
returned `true` exactly when the reference map did not contain its key. -/
theorem C19_refines_sorted_map (maxLevel : Int) (hm : 0 ≤ maxLevel) (ops : List (Op K V))
    (rng : RandSrc) :
    ∃ s0 g t rets es, SkipList.new maxLevel = some s0 ∧
      runOps ops rng s0 = some (g, t, rets) ∧
      levelEntries t = some es ∧
      (es.map Prod.fst).Pairwise (fun a b => a < b) ∧
      (∀ a b, (a, b) ∈ es ↔ (refRun ops (fun _ => none)).1 a = some b) ∧
      t.size = es.length ∧
      rets = (refRun ops (fun _ => none)).2 := by
  obtain ⟨s0, h1, h2, _⟩ := abs_new (K := K) (V := V) hm
  obtain ⟨g, t, rets, es, e1, e2, e3, e4⟩ :=
    runOps_refines ops s0 [] (fun _ => none) rng h2 (by
      intro a b
      constructor
      · intro hmem; cases hmem
      · intro hn; cases hn)
  exact ⟨s0, g, t, rets, es, h1, e1, abs_levelEntries e2, abs_sorted e2, e3, abs_size e2, e4⟩

theorem C19_refines_sorted_map_witness :
    (0 : Int) ≤ 3 ∧
    ∃ s0 g t rets es, (SkipList.new 3 : Option (SkipList Int String)) = some s0 ∧
      runOps [Op.insert 2 "b", Op.insert 1 "a", Op.delete 2, Op.insert 1 "c"]
        (fun i => i) s0 = some (g, t, rets) ∧
      levelEntries t = some es ∧
      (es.map Prod.fst).Pairwise (fun a b => a < b) ∧
      (∀ a b, (a, b) ∈ es ↔
        (refRun [Op.insert (2 : Int) "b", Op.insert 1 "a", Op.delete 2, Op.insert 1 "c"]
          (fun _ => none)).1 a = some b) ∧
      t.size = es.length ∧
      rets = (refRun [Op.insert (2 : Int) "b", Op.insert 1 "a", Op.delete 2, Op.insert 1 "c"]
          (fun _ => none)).2 :=
  ⟨by decide, C19_refines_sorted_map 3 (by decide)
    [Op.insert 2 "b", Op.insert 1 "a", Op.delete 2, Op.insert 1 "c"] (fun i => i)⟩

end

section

variable {K V : Type} [LinearOrder K] [Inhabited K] [Inhabited V]

/-! ## Array accesses stay in bounds -/

/-- C20 (accesses stay in bounds): in every reachable list, every node of the level-`i`
chain (`i <= maxLevel`) has `i <= nodeLevel <= maxLevel` and a forward array of
`nodeLevel + 1` slots, and the header has `maxLevel + 1` slots; the descent leaves an
`update` array of `maxLevel + 1` slots whose slots `0..SkipListLevel` are assigned; and
`search_element`, `insert_element` and `delete_element` return for every argument, which
in this embedding means that no index left its array, no unassigned `update` slot was
read and no dead node was dereferenced. -/
theorem C20_in_bounds (s : SkipList K V) (h : Reachable s) :
    (∀ i : Nat, (i : Int) ≤ s.maxLevel → ∃ c, levelChain s i = some c ∧
      ∀ e ∈ c, (i : Int) ≤ e.2.nodeLevel ∧ e.2.nodeLevel ≤ s.maxLevel ∧
        (e.2.forward.length : Int) = e.2.nodeLevel + 1) ∧
    (∃ hn, deref s.heap s.header = some hn ∧ hn.nodeLevel = s.maxLevel ∧
      (hn.forward.length : Int) = s.maxLevel + 1) ∧
    (∀ k : K, ∃ node upd,
      updateLoop s.heap k (descentFuel s) s.SkipListLevel s.header
        (List.replicate (s.maxLevel + 1).toNat none) = some (node, upd) ∧
      (upd.length : Int) = s.maxLevel + 1 ∧
      (∀ j, j ≤ s.SkipListLevel → ∃ a, upd[j]? = some (some a)) ∧
      (∀ j : Nat, s.SkipListLevel < j → (j : Int) ≤ s.maxLevel → upd[j]? = some none)) ∧
    (∀ k : K, ∃ r, search_element k s = some r) ∧
    (∀ (k : K) (v : V) (rng : RandSrc), ∃ r, insert_element k v rng s = some r) ∧
    (∀ k : K, ∃ r, delete_element k s = some r) := by
  obtain ⟨es, habs⟩ := reachable_abs h
  obtain ⟨xs, hinv, _⟩ := habs
  have hnn := hinv.maxLevel_nonneg
  have hle := hinv.level_le
  refine ⟨?_, ?_, ?_, ?_, ?_, ?_⟩
  · intro i hi
    refine ⟨_, levelChain_spec hinv (by omega), ?_⟩
    intro e he
    obtain ⟨c, hc, hce⟩ := List.mem_map.mp he
    have hcf := List.mem_filter.mp hc
    have hil : i ≤ c.lvl := by simpa using hcf.2
    have hcl := hinv.lvl_le c hcf.1
    rw [← hce]
    refine ⟨?_, ?_, ?_⟩
    · show (i : Int) ≤ (c.lvl : Int)
      omega
    · show (c.lvl : Int) ≤ s.maxLevel
      omega
    · show (((List.range (c.lvl + 1)).map _).length : Int) = (c.lvl : Int) + 1
      simp
  · have hg := repr_get hinv.repr (List.mem_cons_self (hcell s) xs)
    refine ⟨_, deref_of_get hg, ?_, ?_⟩
    · show ((s.maxLevel.toNat : Nat) : Int) = s.maxLevel
      omega
    · show (((List.range (s.maxLevel.toNat + 1)).map _).length : Int) = s.maxLevel + 1
      simp
      omega
  · intro k
    obtain ⟨u0, upd, h1, _, h3, h4, h5, _⟩ := descent_inv hinv k
    refine ⟨u0.addr, upd, h1, by rw [h3]; push_cast; omega, ?_, ?_⟩
    · intro j hj
      obtain ⟨u, hu, _⟩ := h4 j hj
      exact ⟨u.addr, hu⟩
    · intro j hj1 hj2
      exact h5 j hj1 (by omega)
  · intro k
    exact ⟨_, search_spec hinv k⟩
  · intro k v rng
    obtain ⟨ret, g, t, out, h1, _⟩ := abs_insert ⟨xs, hinv, rfl⟩ k v rng
    exact ⟨_, h1⟩
  · intro k
    obtain ⟨t, out, h1, _⟩ := abs_delete ⟨xs, hinv, rfl⟩ k
    exact ⟨_, h1⟩

theorem C20_in_bounds_witness :
    Reachable twoList ∧
    ((∀ i : Nat, (i : Int) ≤ twoList.maxLevel → ∃ c, levelChain twoList i = some c ∧
      ∀ e ∈ c, (i : Int) ≤ e.2.nodeLevel ∧ e.2.nodeLevel ≤ twoList.maxLevel ∧
        (e.2.forward.length : Int) = e.2.nodeLevel + 1) ∧
    (∃ hn, deref twoList.heap twoList.header = some hn ∧ hn.nodeLevel = twoList.maxLevel ∧
      (hn.forward.length : Int) = twoList.maxLevel + 1) ∧
    (∀ k : Int, ∃ node upd,
      updateLoop twoList.heap k (descentFuel twoList) twoList.SkipListLevel twoList.header
        (List.replicate (twoList.maxLevel + 1).toNat none) = some (node, upd) ∧
      (upd.length : Int) = twoList.maxLevel + 1 ∧
      (∀ j, j ≤ twoList.SkipListLevel → ∃ a, upd[j]? = some (some a)) ∧
      (∀ j : Nat, twoList.SkipListLevel < j → (j : Int) ≤ twoList.maxLevel →
        upd[j]? = some none)) ∧
    (∀ k : Int, ∃ r, search_element k twoList = some r) ∧
    (∀ (k : Int) (v : String) (rng : RandSrc), ∃ r, insert_element k v rng twoList = some r) ∧
    (∀ k : Int, ∃ r, delete_element k twoList = some r)) :=
  ⟨reachable_twoList, C20_in_bounds twoList reachable_twoList⟩

end

end SkipListSpec
